import Mathlib

/-!
# AIS demodulator (`ais/ais_demod.c`): embedding and verified properties

The C file is embedded function by function.  Machine integers are natural
numbers with explicit reductions where a width is known; samples are
integers; the message callback is modelled by the list of its invocations.

The private header `ais/ais_demod_priv.h` is not part of the sources, so the
things it declares are either parameters (`AIS_PACKET_END_FLAG`, passed as
`endFlag` everywhere) or follow the data model of the specification
(`AIS_DECIMATION_RATE = 5`, 32-bit `preambles` and `raw_shr`, a packet buffer
of `5 * 256 / 8` bytes, one-bit sample slices).

The width of `raw_shr` decides which bits the end-of-frame comparison sees.
The frame scenarios S3, S5 and S6 are therefore stated on a copy of the
receiver that takes this width as a parameter `W` next to `endFlag`
(`ais_demod_on_pcm_width`); with `W = 32` it is the receiver described first.
-/

namespace Ais

/-! ## Data model -/

/-- Modelled from the spec: the decimation rate `D` declared in the private header
(`AIS_DECIMATION_RATE`), reference value 5. -/
def AIS_DECIMATION_RATE : Nat := 5

/-- Modelled from the spec: the capacity of `packet` in bytes, `5 * 256 / 8`. -/
def AIS_PACKET_BYTES : Nat := 5 * 256 / 8

/-- The two values of `demod->state`. -/
inductive ais_demod_state where
  | SEARCH_SYNC
  | RECEIVING
deriving DecidableEq, Repr

/-- Detector scratch (`struct ais_demod_detect`). -/
structure ais_demod_detect where
  preambles : List Nat
  prior_sample : List Nat
  next_field : Nat
deriving DecidableEq, Repr

/-- Receiver scratch (`struct ais_demod_rx`). -/
structure ais_demod_rx where
  packet : List Nat
  raw_shr : Nat
  current_bit : Nat
  nr_ones : Nat
  last_sample : Nat
deriving DecidableEq, Repr

/-- The demodulator object (`struct ais_demod`); the callback pointer and the
caller context are represented by the invocation log of `World`. -/
structure ais_demod where
  state : ais_demod_state
  freq : Nat
  sample_skip : Nat
  crc_rejects : Nat
  detector : ais_demod_detect
  packet_rx : ais_demod_rx
deriving DecidableEq, Repr

/-- One invocation of `on_msg_cb(demod, caller_state, packet, len, ok)`: the
first `len` bytes behind the packet pointer, the length and the flag. -/
structure on_msg_call where
  payload : List Nat
  len : Nat
  ok : Bool
deriving DecidableEq, Repr

/-- A demodulator together with the callback invocations made so far. -/
structure World where
  demod : ais_demod
  calls : List on_msg_call
deriving DecidableEq, Repr

/-! ## CRC-16 (`_ais_crc16`) -/

/-- One iteration of the inner `j` loop of `_ais_crc16`. -/
def crc16_shift (crc : Nat) : Nat :=
  if crc &&& 1 ≠ 0 then (crc >>> 1) ^^^ 0x8408 else crc >>> 1

/-- One iteration of the outer `i` loop of `_ais_crc16`: xor the byte in, then
eight inner iterations. -/
def crc16_byte (crc byte : Nat) : Nat :=
  crc16_shift^[8] (crc ^^^ byte)

/-- The function `_ais_crc16(data, len)` on the `len` bytes `data`; the result
`~crc` is truncated to `uint16_t`. -/
def _ais_crc16 (data : List Nat) : Nat :=
  (0xffff - data.foldl crc16_byte 0xffff % 65536) % 65536

/-! ## Detector -/

/-- The number of set bits among the low `n` bits of `x`. -/
def popcount_bits : Nat → Nat → Nat
  | 0, _ => 0
  | n + 1, x => x % 2 + popcount_bits n (x / 2)

/-- The builtin `__builtin_popcountll`: the number of set bits of a 64-bit
operand. -/
@[irreducible]
def popcountll (x : Nat) : Nat := popcount_bits 64 x

/-- The function `_ais_demod_compare(x, y, diff)`. -/
def _ais_demod_compare (x y diff : Nat) : Bool :=
  decide (popcountll (x ^^^ y) ≤ diff)

/-- The function `_ais_demod_detect_reset`. -/
def _ais_demod_detect_reset (_detect : ais_demod_detect) : ais_demod_detect :=
  { preambles := List.replicate AIS_DECIMATION_RATE 0
    prior_sample := List.replicate AIS_DECIMATION_RATE 0
    next_field := 0 }

/-- The function `_ais_demod_rx_reset`; `last_sample` is left alone. -/
def _ais_demod_rx_reset (rx : ais_demod_rx) : ais_demod_rx :=
  { rx with
    packet := List.replicate AIS_PACKET_BYTES 0
    raw_shr := 0
    current_bit := 0
    nr_ones := 0 }

/-- The function `ais_demod_new` on success: zeroed allocation, both scratch
blocks reset, state `SEARCH_SYNC`. -/
def ais_demod_new (freq : Nat) : World :=
  let zero_rx : ais_demod_rx :=
    { packet := List.replicate AIS_PACKET_BYTES 0, raw_shr := 0, current_bit := 0,
      nr_ones := 0, last_sample := 0 }
  let zero_detect : ais_demod_detect :=
    { preambles := List.replicate AIS_DECIMATION_RATE 0
      prior_sample := List.replicate AIS_DECIMATION_RATE 0
      next_field := 0 }
  { demod :=
      { state := ais_demod_state.SEARCH_SYNC
        freq := freq
        sample_skip := 0
        crc_rejects := 0
        detector := _ais_demod_detect_reset zero_detect
        packet_rx := _ais_demod_rx_reset zero_rx }
    calls := [] }

/-- The expression `sample > 0` stored in a `uint8_t`. -/
def slice (sample : Int) : Nat := if sample > 0 then 1 else 0

/-- The expression `!(last ^ raw)` on `uint8_t` operands. -/
def nrzi_bit (last raw : Nat) : Nat := if last ^^^ raw = 0 then 1 else 0

/-- The match loop of `_ais_demod_detect_handle_sample`: how many of the
`AIS_DECIMATION_RATE` registers compare equal to `0x5555557e` within 2 bits. -/
def nr_match (preambles : List Nat) : Nat :=
  (List.range AIS_DECIMATION_RATE).foldl
    (fun n i => if _ais_demod_compare (preambles.getD i 0) 0x5555557e 2 then n + 1 else n) 0

/-- The function `_ais_demod_detect_handle_sample`. -/
def _ais_demod_detect_handle_sample (demod : ais_demod) (sample : Int) : ais_demod :=
  let detector := demod.detector
  let sample_slice := slice sample
  let last_bit := detector.prior_sample.getD detector.next_field 0
  let prior_sample := detector.prior_sample.set detector.next_field sample_slice
  let shifted := (detector.preambles.getD detector.next_field 0 <<< 1) % 2 ^ 32
  let preambles :=
    detector.preambles.set detector.next_field (shifted ||| nrzi_bit last_bit sample_slice)
  let demod1 : ais_demod :=
    if nr_match preambles ≥ 3 then
      { demod with
        state := ais_demod_state.RECEIVING
        sample_skip := 2
        packet_rx :=
          { _ais_demod_rx_reset demod.packet_rx with
            last_sample := prior_sample.getD detector.next_field 0 } }
    else demod
  { demod1 with
    detector :=
      { preambles := preambles
        prior_sample := prior_sample
        next_field := (detector.next_field + 1) % AIS_DECIMATION_RATE } }

/-! ## Receiver -/

/-- Lines 172-189 of `_ais_demod_packet_rx_sample`: NRZI decoding, the raw
shift register, de-stuffing into `packet` and the run counter. -/
def rx_update (rx : ais_demod_rx) (sample : Int) : ais_demod_rx :=
  let raw := slice sample
  let last := rx.last_sample
  let bit := nrzi_bit last raw
  let raw_shr := (rx.raw_shr <<< 1) % 2 ^ 32 ||| bit
  let packet :=
    if rx.nr_ones < 5 then
      rx.packet.set (rx.current_bit / 8)
        ((rx.packet.getD (rx.current_bit / 8) 0 ||| bit <<< (rx.current_bit % 8)) % 256)
    else rx.packet
  let current_bit := if rx.nr_ones < 5 then rx.current_bit + 1 else rx.current_bit
  let nr_ones := if bit = 0 then 0 else rx.nr_ones + 1
  { packet := packet, raw_shr := raw_shr, current_bit := current_bit,
    nr_ones := nr_ones, last_sample := raw }

/-- The end-of-frame test of line 191. -/
def rx_frame_end (endFlag : Nat) (rx : ais_demod_rx) : Bool :=
  decide (rx.raw_shr = endFlag) || decide (rx.current_bit = 5 * 256)

/-- Lines 191-212 of `_ais_demod_packet_rx_sample`, entered when the
end-of-frame test holds: CRC check, delivery or reject count, return to
`SEARCH_SYNC`. -/
def rx_finish (w : World) : World :=
  let rx := w.demod.packet_rx
  let packet_bytes := rx.current_bit / 8
  let w1 : World :=
    if 4 ≤ packet_bytes then
      let crc := _ais_crc16 (rx.packet.take (packet_bytes - 2))
      let rx_crc :=
        (rx.packet.getD (packet_bytes - 2) 0 ||| rx.packet.getD (packet_bytes - 1) 0 <<< 8)
          % 65536
      if rx_crc = crc then
        { w with
          calls := w.calls ++
            [{ payload := rx.packet.take (packet_bytes - 2), len := packet_bytes - 2,
               ok := true }] }
      else
        { w with demod := { w.demod with crc_rejects := w.demod.crc_rejects + 1 } }
    else w
  { w1 with
    demod :=
      { w1.demod with
        state := ais_demod_state.SEARCH_SYNC
        sample_skip := 0
        detector := _ais_demod_detect_reset w1.demod.detector } }

/-- The function `_ais_demod_packet_rx_sample`; `endFlag` is the constant
`AIS_PACKET_END_FLAG` of the private header. -/
def _ais_demod_packet_rx_sample (endFlag : Nat) (w : World) (sample : Int) : World :=
  let w1 : World := { w with demod := { w.demod with packet_rx := rx_update w.demod.packet_rx sample } }
  if rx_frame_end endFlag w1.demod.packet_rx then rx_finish w1 else w1

/-! ## Dispatcher (`ais_demod_on_pcm`) -/

/-- The inner `for` loop of the `SEARCH_SYNC` branch: returns the state at the
`break` (or at exhaustion) and the samples from `cur_sample` on. -/
def detect_loop : World → List Int → World × List Int
  | w, [] => (w, [])
  | w, s :: rest =>
    let w1 : World := { w with demod := _ais_demod_detect_handle_sample w.demod s }
    if w1.demod.state = ais_demod_state.RECEIVING then (w1, rest) else detect_loop w1 rest

/-- The inner `for` loop of the `RECEIVING` branch. -/
def rx_loop (endFlag : Nat) : World → List Int → World × List Int
  | w, [] => (w, [])
  | w, s :: rest =>
    let skip := w.demod.sample_skip
    let w1 : World := { w with demod := { w.demod with sample_skip := skip + 1 } }
    if skip % AIS_DECIMATION_RATE = 0 then
      let w2 := _ais_demod_packet_rx_sample endFlag w1 s
      if w2.demod.state = ais_demod_state.SEARCH_SYNC then (w2, rest) else rx_loop endFlag w2 rest
    else rx_loop endFlag w1 rest

/-- The outer `while (nr_samples > cur_sample)` loop, with a bound on the
number of iterations; `none` when the bound is hit with samples left. -/
def on_pcm_while (endFlag : Nat) : Nat → World → List Int → Option World
  | _, w, [] => some w
  | 0, _, _ :: _ => none
  | fuel + 1, w, s :: rest =>
    match w.demod.state with
    | ais_demod_state.SEARCH_SYNC =>
      let r := detect_loop w (s :: rest)
      on_pcm_while endFlag fuel r.1 r.2
    | ais_demod_state.RECEIVING =>
      let r := rx_loop endFlag w (s :: rest)
      on_pcm_while endFlag fuel r.1 r.2

/-- The function `ais_demod_on_pcm` for non-null arguments: every pass of the
outer loop consumes a sample, so `nr_samples` passes are allowed. -/
def ais_demod_on_pcm (endFlag : Nat) (w : World) (samples : List Int) : Option World :=
  on_pcm_while endFlag samples.length w samples

/-! ## Construction of the test streams (scenario S3)

These are not part of the C file: they build the inputs the scenarios of the
specification talk about.  Bits and levels are booleans. -/

/-- The eight bits of a byte, least significant first. -/
def byte_bits (b : Nat) : List Bool :=
  (List.range 8).map (fun i => (b >>> i) % 2 = 1)

/-- The bits of a byte sequence in transmission order. -/
def bytes_bits : List Nat → List Bool
  | [] => []
  | b :: bs => byte_bits b ++ bytes_bits bs

/-- The two FCS bytes of a payload, low byte first. -/
def fcs_bytes (payload : List Nat) : List Nat :=
  [_ais_crc16 payload % 256, _ais_crc16 payload / 256]

/-- Bit stuffing with `ones` consecutive 1s already sent: a 0 is inserted
after every run of five 1s. -/
def stuff_from : Nat → List Bool → List Bool
  | _, [] => []
  | _, false :: bs => false :: stuff_from 0 bs
  | ones, true :: bs =>
    if ones + 1 = 5 then true :: false :: stuff_from 0 bs
    else true :: stuff_from (ones + 1) bs

/-- Bit stuffing of a whole bit sequence. -/
def stuff (bs : List Bool) : List Bool := stuff_from 0 bs

/-- The HDLC flag `0x7E` as it arrives, bit by bit. -/
def hdlc_flag : List Bool := [false, true, true, true, true, true, true, false]

/-- The training sequence of `n` alternating bits ending in a 1, so that
the flag that follows completes the reference word `0x5555557e`. -/
def training (n : Nat) : List Bool :=
  (List.range n).map (fun k => (n - k) % 2 = 1)

/-- NRZI encoding from the level `level`: a 1 keeps the level, a 0 inverts it. -/
def nrzi_encode : Bool → List Bool → List Bool
  | _, [] => []
  | level, b :: bs =>
    let l := if b then level else !level
    l :: nrzi_encode l bs

/-- Upsampling by `D = 5`: every level is repeated for five samples. -/
def upsample : List Bool → List Bool
  | [] => []
  | l :: ls => l :: l :: l :: l :: l :: upsample ls

/-- The line bits of an S3 frame: training, flag, stuffed payload and FCS, flag. -/
def s3_bits (n : Nat) (payload : List Nat) : List Bool :=
  training n ++ hdlc_flag ++ stuff (bytes_bits (payload ++ fcs_bytes payload)) ++ hdlc_flag

/-- A sample of the given level: `1` for the positive level, `-1` otherwise. -/
def pcm_of_level (l : Bool) : Int := if l then 1 else -1

/-- The levels of a block of samples, `s > 0`. -/
def levels_of (samples : List Int) : List Bool :=
  samples.map (fun s => decide (s > 0))

/-! ## Reference definitions the claims compare the code with -/

/-- One step of the bit-serial CRC in reflected form: the feedback is the
low register bit xor the input bit, the register moves right by one and the
reflected polynomial `0x8408` is xored in when the feedback is 1. -/
def crc16_serial_bit (crc : Nat) (bit : Bool) : Nat :=
  if (decide (crc % 2 = 1) != bit) then (crc / 2) ^^^ 0x8408 else crc / 2

/-- The CCITT/HDLC frame check sequence as the specification words it:
initial value `0xFFFF`, the input bits of every byte taken least significant
first, final xor `0xFFFF`, 16 bits. -/
def crc16_ccitt (data : List Nat) : Nat :=
  ((bytes_bits data).foldl crc16_serial_bit 0xffff ^^^ 0xffff) % 65536

/-- The per-sample rule of the dispatcher contract: in `SEARCH_SYNC` the
sample goes to the detector; in `RECEIVING` `sample_skip` is incremented and
the sample goes to the receiver only when `sample_skip` was a multiple of
`D = 5` before the increment. -/
def per_sample_rule (endFlag : Nat) (w : World) (sample : Int) : World :=
  match w.demod.state with
  | ais_demod_state.SEARCH_SYNC =>
    { w with demod := _ais_demod_detect_handle_sample w.demod sample }
  | ais_demod_state.RECEIVING =>
    let skipped : World :=
      { w with demod := { w.demod with sample_skip := w.demod.sample_skip + 1 } }
    if w.demod.sample_skip % 5 = 0 then _ais_demod_packet_rx_sample endFlag skipped sample
    else skipped

/-! ## Auxiliary definitions used to state the properties -/

/-- The bit of `packet` at bit position `k`: `(packet[k / 8] >> (k % 8)) & 1`. -/
def packet_bit (packet : List Nat) (k : Nat) : Nat :=
  (packet.getD (k / 8) 0 >>> (k % 8)) &&& 1

/-- A block of samples handed to `_ais_demod_packet_rx_sample` one by one. -/
def rx_steps (endFlag : Nat) (w : World) (xs : List Int) : World :=
  xs.foldl (_ais_demod_packet_rx_sample endFlag) w

/-- A block of samples handed to `_ais_demod_detect_handle_sample` one by one. -/
def detect_steps (d : ais_demod) (xs : List Int) : ais_demod :=
  xs.foldl _ais_demod_detect_handle_sample d

/-- The bits the receiver accepts as payload: the decoded bits that arrive
while `nr_ones < 5`, in arrival order, for a receiver whose run counter is
`nr_ones` and whose previous level is `last`. -/
def accepted_bits : Nat → Nat → List Int → List Nat
  | _, _, [] => []
  | nr_ones, last, s :: rest =>
    let bit := nrzi_bit last (slice s)
    let tail := accepted_bits (if bit = 0 then 0 else nr_ones + 1) (slice s) rest
    if nr_ones < 5 then bit :: tail else tail

/-- Every fifth element of a list, starting with the first: the samples one
detector phase consumes. -/
def every_fifth : List α → List α
  | x :: _ :: _ :: _ :: _ :: rest => x :: every_fifth rest
  | x :: _ => [x]
  | [] => []

/-- The 32-bit register update `r = (r << 1) | bit`. -/
def shift_in (r bit : Nat) : Nat := (r <<< 1) % 2 ^ 32 ||| bit

/-- The detector scratch after `_ais_demod_detect_handle_sample` has handled a
sample whose slice is `l`. -/
def detect_next (det : ais_demod_detect) (l : Nat) : ais_demod_detect :=
  { preambles := det.preambles.set det.next_field
      ((det.preambles.getD det.next_field 0 <<< 1) % 2 ^ 32 |||
        nrzi_bit (det.prior_sample.getD det.next_field 0) l)
    prior_sample := det.prior_sample.set det.next_field l
    next_field := (det.next_field + 1) % AIS_DECIMATION_RATE }

/-- A detector scratch block whose arrays have `D = 5` entries and whose
rotating index is in range. -/
def detect_wf (det : ais_demod_detect) : Prop :=
  det.preambles.length = 5 ∧ det.prior_sample.length = 5 ∧ det.next_field < 5

/-- The level a stream ends at: the seed level followed through `bits`, a 1
keeping the level and a 0 inverting it. -/
def nrzi_last (level : Bool) (bits : List Bool) : Bool :=
  bits.foldl (fun l b => if b then l else !l) level

/-! ## Example states used to instantiate the theorems -/

/-- A fresh demodulator whose receiver's previous level is the positive one. -/
def example_rx_world : World :=
  { demod :=
      { (ais_demod_new 0).demod with
        packet_rx := { (ais_demod_new 0).demod.packet_rx with last_sample := 1 } }
    calls := [] }

/-- A fresh demodulator whose detector phase 1 has seen a positive sample. -/
def example_detect_demod : ais_demod :=
  { (ais_demod_new 0).demod with
    detector := { (ais_demod_new 0).demod.detector with prior_sample := [0, 1, 0, 0, 0] } }

/-! ## The detector on its own scratch, and the dispatcher on levels -/

/-- Whether the detector declares lock on a sample whose slice is `l`: at
least 3 of the registers, after the update, match the reference word. -/
def detect_locks (det : ais_demod_detect) (l : Nat) : Bool :=
  decide (nr_match (detect_next det l).preambles ≥ 3)

/-- The index of the first sample on which the detector declares lock when it
is fed samples of the given levels, if there is one. -/
def first_lock : ais_demod_detect → List Bool → Option Nat
  | _, [] => none
  | det, l :: ls =>
    if detect_locks det l.toNat then some 0
    else (first_lock (detect_next det l.toNat) ls).map (· + 1)

/-- The detector scratch after samples of the given levels. -/
def detect_run (det : ais_demod_detect) (ls : List Bool) : ais_demod_detect :=
  ls.foldl (fun d l => detect_next d l.toNat) det

/-- The per-sample rule applied to a block given by its levels. -/
def step_levels (endFlag : Nat) (w : World) (ls : List Bool) : World :=
  ls.foldl (fun w l => per_sample_rule endFlag w (pcm_of_level l)) w

/-- Whether `x` has at most two set bits: clearing the lowest set bit twice
leaves nothing. -/
def at_most_two_bits (x : Nat) : Bool :=
  ((x &&& (x - 1)) &&& ((x &&& (x - 1)) - 1)) == 0

/-- The match count of `nr_match`, with the comparison done by
`at_most_two_bits`. -/
def nr_match_quick (preambles : List Nat) : Nat :=
  (List.range AIS_DECIMATION_RATE).foldl
    (fun n i => if at_most_two_bits (preambles.getD i 0 ^^^ 0x5555557e) then n + 1 else n) 0

/-- The function `first_lock`, computed with `nr_match_quick`. -/
def first_lock_quick : ais_demod_detect → List Bool → Option Nat
  | _, [] => none
  | det, l :: ls =>
    if decide (nr_match_quick (detect_next det l.toNat).preambles ≥ 3) then some 0
    else (first_lock_quick (detect_next det l.toNat) ls).map (· + 1)

/-- A detector scratch block whose registers fit 32 bits. -/
def detect_bounded (det : ais_demod_detect) : Prop :=
  ∀ r ∈ det.preambles, r < 2 ^ 32

/-- The receiver scratch after one sample per level of `ls`, frame ends apart. -/
def rx_run (rx : ais_demod_rx) (ls : List Bool) : ais_demod_rx :=
  ls.foldl (fun r l => rx_update r (pcm_of_level l)) rx

/-- The detector scratch right after `_ais_demod_detect_reset`. -/
def fresh_detect : ais_demod_detect :=
  { preambles := [0, 0, 0, 0, 0], prior_sample := [0, 0, 0, 0, 0], next_field := 0 }

/-- The world with `sample_skip` replaced. -/
def set_skip (w : World) (k : Nat) : World :=
  { w with demod := { w.demod with sample_skip := k } }

/-- The world with the receiver scratch replaced. -/
def set_rx (w : World) (rx : ais_demod_rx) : World :=
  { w with demod := { w.demod with packet_rx := rx } }

/-- The world with the detector scratch replaced. -/
def set_detector (w : World) (det : ais_demod_detect) : World :=
  { w with demod := { w.demod with detector := det } }

/-- The world right after the detector has locked on a sample of level `l`:
`RECEIVING`, `sample_skip = 2`, receiver scratch reset and seeded with `l`. -/
def locked_world (w : World) (l : Bool) (det : ais_demod_detect) : World :=
  { w with
    demod :=
      { w.demod with
        state := ais_demod_state.RECEIVING
        sample_skip := 2
        packet_rx := { _ais_demod_rx_reset w.demod.packet_rx with last_sample := l.toNat }
        detector := det } }

/-! ## Concrete streams used in the counterexamples and witnesses -/

/-- The payload of 21 zero bytes. -/
def payload_zero : List Nat := List.replicate 21 0

/-- The samples `1` / `-1` of a list of levels. -/
def pcm_stream (ls : List Bool) : List Int := ls.map pcm_of_level

/-- The words the receiver compares with the end-flag word while the
per-sample rule handles samples of the given levels: `raw_shr` after each
sample that reaches `_ais_demod_packet_rx_sample`. -/
def rx_words (endFlag : Nat) : World → List Bool → List Nat
  | _, [] => []
  | w, l :: ls =>
    let rest := rx_words endFlag (per_sample_rule endFlag w (pcm_of_level l)) ls
    if w.demod.state = ais_demod_state.RECEIVING ∧ w.demod.sample_skip % 5 = 0 then
      (rx_update w.demod.packet_rx (pcm_of_level l)).raw_shr :: rest
    else rest

/-- The per-sample rule on a sample of level `l`, with the detector's match
count computed by `nr_match_quick`. -/
def quick_rule (endFlag : Nat) (w : World) (l : Bool) : World :=
  match w.demod.state with
  | ais_demod_state.SEARCH_SYNC =>
    if nr_match_quick (detect_next w.demod.detector l.toNat).preambles ≥ 3 then
      { w with
        demod :=
          { w.demod with
            state := ais_demod_state.RECEIVING
            sample_skip := 2
            packet_rx :=
              { _ais_demod_rx_reset w.demod.packet_rx with
                last_sample :=
                  (detect_next w.demod.detector l.toNat).prior_sample.getD
                    w.demod.detector.next_field 0 }
            detector := detect_next w.demod.detector l.toNat } }
    else { w with demod := { w.demod with detector := detect_next w.demod.detector l.toNat } }
  | ais_demod_state.RECEIVING => per_sample_rule endFlag w (pcm_of_level l)

/-- The rule `quick_rule` applied to a block given by its levels. -/
def quick_run (endFlag : Nat) (w : World) (ls : List Bool) : World :=
  ls.foldl (quick_rule endFlag) w

/-- The compared words of `rx_words`, computed along `quick_rule`. -/
def quick_words (endFlag : Nat) : World → List Bool → List Nat
  | _, [] => []
  | w, l :: ls =>
    let rest := quick_words endFlag (quick_rule endFlag w l) ls
    if w.demod.state = ais_demod_state.RECEIVING ∧ w.demod.sample_skip % 5 = 0 then
      (rx_update w.demod.packet_rx (pcm_of_level l)).raw_shr :: rest
    else rest

/-! ## Counting frame ends -/

/-- The number of times `RECEIVING` is exited with `packet_bytes >= 4` while
the per-sample rule handles the samples `xs` from the world `w`: the receiver
steps whose end-of-frame test holds with `current_bit / 8 >= 4`. -/
def rx_exits (endFlag : Nat) : World → List Int → Nat
  | _, [] => 0
  | w, x :: xs =>
    (if w.demod.state = ais_demod_state.RECEIVING ∧ w.demod.sample_skip % 5 = 0 ∧
        rx_frame_end endFlag (rx_update w.demod.packet_rx x) = true ∧
        4 ≤ (rx_update w.demod.packet_rx x).current_bit / 8 then 1 else 0)
      + rx_exits endFlag (per_sample_rule endFlag w x) xs

/-- The run counter agrees with the raw shift register: `nr_ones` is the
number of 1 bits at the low end of `raw_shr`, as far as 6 bits tell. -/
def ones_tracked (rx : ais_demod_rx) : Prop :=
  (rx.nr_ones = 0 → rx.raw_shr % 2 = 0) ∧ (rx.nr_ones = 1 → rx.raw_shr % 4 = 1) ∧
    (rx.nr_ones = 2 → rx.raw_shr % 8 = 3) ∧ (rx.nr_ones = 3 → rx.raw_shr % 16 = 7) ∧
    (rx.nr_ones = 4 → rx.raw_shr % 32 = 15) ∧ (rx.nr_ones = 5 → rx.raw_shr % 64 = 31) ∧
    (6 ≤ rx.nr_ones → rx.raw_shr % 64 = 63)

/-- A demodulator in `RECEIVING` whose next sample goes to the receiver, with
the receiver scratch as a reset leaves it. -/
def example_receiving_world : World :=
  { demod := { (ais_demod_new 0).demod with state := ais_demod_state.RECEIVING }
    calls := [] }

/-- A demodulator in `SEARCH_SYNC` whose phases 1 and 2 already hold the
reference word and whose phase 0 is one bit short of it. -/
def example_lock_demod : ais_demod :=
  { (ais_demod_new 0).demod with
    detector :=
      { preambles := [0x2aaaaabf, 0x5555557e, 0x5555557e, 0, 0]
        prior_sample := [1, 0, 0, 0, 0]
        next_field := 0 } }

/-- The number of registers within 2 bits of the reference word `0x5555557e`,
by population count of the exclusive or. -/
def near_reference (preambles : List Nat) : Nat :=
  ((List.range 5).filter (fun j => popcountll (preambles.getD j 0 ^^^ 0x5555557e) ≤ 2)).length

/-- NRZI decoding of a sequence of samples, the level before the first one
being `last`: the bits `!(previous ^ current)`. -/
def nrzi_decode : Nat → List Int → List Nat
  | _, [] => []
  | last, x :: xs => nrzi_bit last (slice x) :: nrzi_decode (slice x) xs

/-- The slice of the last sample of a sequence, `last` when there is none. -/
def last_slice : Nat → List Int → Nat
  | last, [] => last
  | _, x :: xs => last_slice (slice x) xs

/-- The world of `example_lock_demod` before any callback. -/
def example_lock_world : World := { demod := example_lock_demod, calls := [] }

/-- The 160 samples of a clean preamble: the 24 training bits and the flag
`01111110`, NRZI-encoded from the non-positive level, five samples per bit. -/
def clean_preamble_samples : List Int :=
  pcm_stream (upsample (nrzi_encode false (training 24 ++ hdlc_flag)))

/-- Which of the five phase registers are within 2 bits of the reference word. -/
def phase_matches (det : ais_demod_detect) : List Bool :=
  (List.range 5).map (fun i => _ais_demod_compare (det.preambles.getD i 0) 0x5555557e 2)

/-! ## The receiver for a raw shift register of any width

The declaration of `raw_shr` and the constant `AIS_PACKET_END_FLAG` are in the
private header.  The definitions above keep `raw_shr` to 32 bits, as the
specification describes it; the ones below take the width `W` of `raw_shr` as
a parameter next to `endFlag`.  Nothing else changes: the detector, the
de-stuffing, the end-of-frame block and the dispatcher are the ones above. -/

/-- Lines 172-189 of `_ais_demod_packet_rx_sample` for a `raw_shr` of `W` bits. -/
def rx_update_width (W : Nat) (rx : ais_demod_rx) (sample : Int) : ais_demod_rx :=
  let raw := slice sample
  let last := rx.last_sample
  let bit := nrzi_bit last raw
  let raw_shr := (rx.raw_shr <<< 1) % 2 ^ W ||| bit
  let packet :=
    if rx.nr_ones < 5 then
      rx.packet.set (rx.current_bit / 8)
        ((rx.packet.getD (rx.current_bit / 8) 0 ||| bit <<< (rx.current_bit % 8)) % 256)
    else rx.packet
  let current_bit := if rx.nr_ones < 5 then rx.current_bit + 1 else rx.current_bit
  let nr_ones := if bit = 0 then 0 else rx.nr_ones + 1
  { packet := packet, raw_shr := raw_shr, current_bit := current_bit,
    nr_ones := nr_ones, last_sample := raw }

/-- The function `_ais_demod_packet_rx_sample` for a `raw_shr` of `W` bits. -/
def _ais_demod_packet_rx_sample_width (W endFlag : Nat) (w : World) (sample : Int) : World :=
  let w1 : World :=
    { w with demod := { w.demod with packet_rx := rx_update_width W w.demod.packet_rx sample } }
  if rx_frame_end endFlag w1.demod.packet_rx then rx_finish w1 else w1

/-- The inner `for` loop of the `RECEIVING` branch for a `raw_shr` of `W` bits. -/
def rx_loop_width (W endFlag : Nat) : World → List Int → World × List Int
  | w, [] => (w, [])
  | w, s :: rest =>
    let skip := w.demod.sample_skip
    let w1 : World := { w with demod := { w.demod with sample_skip := skip + 1 } }
    if skip % AIS_DECIMATION_RATE = 0 then
      let w2 := _ais_demod_packet_rx_sample_width W endFlag w1 s
      if w2.demod.state = ais_demod_state.SEARCH_SYNC then (w2, rest)
      else rx_loop_width W endFlag w2 rest
    else rx_loop_width W endFlag w1 rest

/-- The outer `while` loop for a `raw_shr` of `W` bits, with a bound on the
number of iterations. -/
def on_pcm_while_width (W endFlag : Nat) : Nat → World → List Int → Option World
  | _, w, [] => some w
  | 0, _, _ :: _ => none
  | fuel + 1, w, s :: rest =>
    match w.demod.state with
    | ais_demod_state.SEARCH_SYNC =>
      let r := detect_loop w (s :: rest)
      on_pcm_while_width W endFlag fuel r.1 r.2
    | ais_demod_state.RECEIVING =>
      let r := rx_loop_width W endFlag w (s :: rest)
      on_pcm_while_width W endFlag fuel r.1 r.2

/-- The function `ais_demod_on_pcm` for a `raw_shr` of `W` bits and the
constant `endFlag`. -/
def ais_demod_on_pcm_width (W endFlag : Nat) (w : World) (samples : List Int) : Option World :=
  on_pcm_while_width W endFlag samples.length w samples

/-- The per-sample rule of the dispatcher for a `raw_shr` of `W` bits. -/
def per_sample_rule_width (W endFlag : Nat) (w : World) (sample : Int) : World :=
  match w.demod.state with
  | ais_demod_state.SEARCH_SYNC =>
    { w with demod := _ais_demod_detect_handle_sample w.demod sample }
  | ais_demod_state.RECEIVING =>
    let skipped : World :=
      { w with demod := { w.demod with sample_skip := w.demod.sample_skip + 1 } }
    if w.demod.sample_skip % 5 = 0 then
      _ais_demod_packet_rx_sample_width W endFlag skipped sample
    else skipped

theorem crc16_shift_xor (g x : Nat) :
    crc16_shift (g ^^^ x) = crc16_serial_bit g (decide (x % 2 = 1)) ^^^ (x >>> 1) := by
  have hs : (g ^^^ x) >>> 1 = (g >>> 1) ^^^ (x >>> 1) := by
    apply Nat.eq_of_testBit_eq
    intro i
    simp [Nat.testBit_shiftRight, Nat.testBit_xor]
  have hg : g / 2 = g >>> 1 := by simp [Nat.shiftRight_eq_div_pow]
  unfold crc16_shift crc16_serial_bit
  rw [Nat.and_one_is_mod, hs, hg]
  by_cases h1 : g % 2 = 1 <;> by_cases h2 : x % 2 = 1
  all_goals
    have h3 := @Nat.xor_mod_two_eq_one g x
    simp only [h1, h2] at h3 ⊢
    rcases Nat.mod_two_eq_zero_or_one (g ^^^ x) with h4 | h4
    all_goals simp_all [Nat.xor_assoc]
    all_goals first
      | rw [← Nat.xor_assoc, Nat.xor_comm (g >>> 1), Nat.xor_assoc]
      | exact Nat.xor_comm _ _

theorem crc16_byte_serial (crc byte : Nat) (hb : byte < 256) :
    crc16_byte crc byte = (byte_bits byte).foldl crc16_serial_bit crc := by
  have h8 : byte >>> 8 = 0 := by
    rw [Nat.shiftRight_eq_div_pow]; exact Nat.div_eq_of_lt (by simpa using hb)
  have hstep : ∀ (g j : Nat), crc16_shift (g ^^^ (byte >>> j))
      = crc16_serial_bit g (decide ((byte >>> j) % 2 = 1)) ^^^ (byte >>> (j + 1)) := by
    intro g j
    rw [crc16_shift_xor, Nat.shiftRight_add]
  have h0 : crc ^^^ byte = crc ^^^ (byte >>> 0) := by simp
  unfold crc16_byte
  rw [h0]
  simp only [Function.iterate_succ, Function.iterate_zero, Function.comp_apply, id_eq, hstep,
    byte_bits, List.range, List.range.loop, List.map, List.foldl, h8, Nat.xor_zero]

theorem crc16_shift_lt (crc : Nat) (h : crc < 65536) : crc16_shift crc < 65536 := by
  have h1 : crc >>> 1 < 2 ^ 16 := by
    rw [Nat.shiftRight_eq_div_pow]; omega
  unfold crc16_shift
  split
  · exact Nat.xor_lt_two_pow h1 (by norm_num)
  · exact h1

theorem crc16_byte_lt (crc byte : Nat) (h : crc < 65536) (hb : byte < 256) :
    crc16_byte crc byte < 65536 := by
  have h0 : crc ^^^ byte < 2 ^ 16 := Nat.xor_lt_two_pow h (by omega)
  unfold crc16_byte
  simp only [Function.iterate_succ, Function.iterate_zero, Function.comp_apply, id_eq]
  repeat apply crc16_shift_lt
  exact h0

theorem crc16_fold_serial (data : List Nat) (hd : ∀ b ∈ data, b < 256) (crc : Nat)
    (h : crc < 65536) :
    data.foldl crc16_byte crc < 65536 ∧
      data.foldl crc16_byte crc = (bytes_bits data).foldl crc16_serial_bit crc := by
  induction data generalizing crc with
  | nil => exact ⟨h, rfl⟩
  | cons b bs ih =>
    have hb : b < 256 := hd b (List.mem_cons_self _ _)
    have hbs : ∀ x ∈ bs, x < 256 := fun x hx => hd x (List.mem_cons_of_mem _ hx)
    have := ih hbs (crc16_byte crc b) (crc16_byte_lt crc b h hb)
    simp only [List.foldl_cons, bytes_bits, List.foldl_append]
    rw [← crc16_byte_serial crc b hb]
    exact this

theorem not16 (x : Nat) (h : x < 65536) : 0xffff - x = x ^^^ 0xffff := by
  apply Nat.eq_of_testBit_eq
  intro i
  have h2 : (0xffff : Nat) = 2 ^ 16 - 1 := by norm_num
  rw [Nat.testBit_xor, h2, Nat.testBit_two_pow_sub_one]
  have h3 : 2 ^ 16 - 1 - x = 2 ^ 16 - (x + 1) := by omega
  rw [h3, Nat.testBit_two_pow_sub_succ (by simpa using h)]
  by_cases hi : i < 16
  · simp [hi]
  · have hx : x.testBit i = false :=
      Nat.testBit_lt_two_pow (Nat.lt_of_lt_of_le (by simpa using h)
        (Nat.pow_le_pow_right (by norm_num) (Nat.le_of_not_lt hi)))
    simp [hi, hx]

/-- C2: `_ais_crc16` is the CCITT/HDLC frame check sequence (bit-serial,
reflected polynomial `0x8408`, initial value `0xFFFF`, input bits least
significant first, final xor `0xFFFF`, 16 bits); the empty sequence gives 0
and the standard check string `"123456789"` gives `0x906E`. -/
theorem crc16_is_ccitt_fcs (data : List Nat) (hd : ∀ b ∈ data, b < 256) :
    _ais_crc16 data = crc16_ccitt data ∧ _ais_crc16 [] = 0 ∧
      _ais_crc16 [0x31, 0x32, 0x33, 0x34, 0x35, 0x36, 0x37, 0x38, 0x39] = 0x906e := by
  refine ⟨?_, by decide, by decide!⟩
  obtain ⟨hlt, heq⟩ := crc16_fold_serial data hd 0xffff (by norm_num)
  unfold _ais_crc16 crc16_ccitt
  rw [Nat.mod_eq_of_lt hlt, not16 _ hlt, heq]

theorem crc16_is_ccitt_fcs_witness :
    (∀ b ∈ [1, 2, 3, 4], b < 256) ∧
      (_ais_crc16 [1, 2, 3, 4] = crc16_ccitt [1, 2, 3, 4] ∧ _ais_crc16 [] = 0 ∧
        _ais_crc16 [0x31, 0x32, 0x33, 0x34, 0x35, 0x36, 0x37, 0x38, 0x39] = 0x906e) :=
  ⟨by decide, crc16_is_ccitt_fcs [1, 2, 3, 4] (by decide)⟩

/-! ## Frame end (receiver) -/

/-- C3: when a receiver step ends a frame with `packet_bytes >= 4`, a CRC
match makes exactly one callback invocation with bytes `0..packet_bytes-3`,
length `packet_bytes-2` and flag true, leaving `crc_rejects` alone; a
mismatch makes no invocation and adds exactly 1 to `crc_rejects`; with
`packet_bytes < 4` neither happens. -/
theorem frame_end_crc_gate (endFlag : Nat) (w : World) (sample : Int)
    (hend : (rx_update w.demod.packet_rx sample).raw_shr = endFlag ∨
      (rx_update w.demod.packet_rx sample).current_bit = 1280) :
    let rx := rx_update w.demod.packet_rx sample
    let packet_bytes := rx.current_bit / 8
    let w' := _ais_demod_packet_rx_sample endFlag w sample
    (4 ≤ packet_bytes →
      _ais_crc16 (rx.packet.take (packet_bytes - 2)) =
        (rx.packet.getD (packet_bytes - 2) 0 ||| rx.packet.getD (packet_bytes - 1) 0 <<< 8)
          % 65536 →
      w'.calls = w.calls ++
          [{ payload := rx.packet.take (packet_bytes - 2), len := packet_bytes - 2, ok := true }] ∧
        w'.demod.crc_rejects = w.demod.crc_rejects) ∧
    (4 ≤ packet_bytes →
      _ais_crc16 (rx.packet.take (packet_bytes - 2)) ≠
        (rx.packet.getD (packet_bytes - 2) 0 ||| rx.packet.getD (packet_bytes - 1) 0 <<< 8)
          % 65536 →
      w'.calls = w.calls ∧ w'.demod.crc_rejects = w.demod.crc_rejects + 1) ∧
    (packet_bytes < 4 →
      w'.calls = w.calls ∧ w'.demod.crc_rejects = w.demod.crc_rejects) := by
  intro rx packet_bytes w'
  have hfe : rx_frame_end endFlag rx = true := by
    unfold rx_frame_end
    rcases hend with h | h
    · simp [rx, h]
    · simp [rx, h]
  have hw' : w' = rx_finish { w with demod := { w.demod with packet_rx := rx } } := by
    show _ais_demod_packet_rx_sample endFlag w sample = _
    unfold _ais_demod_packet_rx_sample
    simp only [rx] at hfe ⊢
    rw [if_pos hfe]
  refine ⟨?_, ?_, ?_⟩
  · intro h4 hcrc
    rw [hw']
    simp only [packet_bytes] at h4 hcrc ⊢
    dsimp only [rx_finish]
    rw [if_pos h4, if_pos hcrc.symm]
    exact ⟨rfl, rfl⟩
  · intro h4 hcrc
    rw [hw']
    simp only [packet_bytes] at h4 hcrc ⊢
    dsimp only [rx_finish]
    rw [if_pos h4, if_neg (Ne.symm hcrc)]
    exact ⟨rfl, rfl⟩
  · intro h4
    rw [hw']
    simp only [packet_bytes] at h4 ⊢
    dsimp only [rx_finish]
    rw [if_neg (Nat.not_le.mpr h4)]
    exact ⟨rfl, rfl⟩

theorem frame_end_crc_gate_witness :
    ((rx_update
          { packet := [1, 2, 3, 4, 0x91, 0x39], raw_shr := 0x3f, current_bit := 48, nr_ones := 6,
            last_sample := 0 } 1).raw_shr = 0x7e ∨
        (rx_update
          { packet := [1, 2, 3, 4, 0x91, 0x39], raw_shr := 0x3f, current_bit := 48, nr_ones := 6,
            last_sample := 0 } 1).current_bit = 1280) ∧
      (_ais_demod_packet_rx_sample 0x7e
          { demod :=
              { (ais_demod_new 0).demod with
                state := ais_demod_state.RECEIVING
                packet_rx :=
                  { packet := [1, 2, 3, 4, 0x91, 0x39], raw_shr := 0x3f, current_bit := 48,
                    nr_ones := 6, last_sample := 0 } }
            calls := [] } 1).calls
        = [{ payload := [1, 2, 3, 4], len := 4, ok := true }] :=
  ⟨by decide,
    ((frame_end_crc_gate 0x7e
        { demod :=
            { (ais_demod_new 0).demod with
              state := ais_demod_state.RECEIVING
              packet_rx :=
                { packet := [1, 2, 3, 4, 0x91, 0x39], raw_shr := 0x3f, current_bit := 48,
                  nr_ones := 6, last_sample := 0 } }
          calls := [] } 1 (by decide)).1 (by decide) (by decide!)).1⟩

/-! ## Dispatcher -/

theorem state_cases (st : ais_demod_state) :
    st = ais_demod_state.SEARCH_SYNC ∨ st = ais_demod_state.RECEIVING := by
  cases st
  · exact Or.inl rfl
  · exact Or.inr rfl

theorem detect_loop_fold (endFlag : Nat) (xs : List Int) :
    ∀ w : World, w.demod.state = ais_demod_state.SEARCH_SYNC →
      (detect_loop w xs).2.foldl (per_sample_rule endFlag) (detect_loop w xs).1
          = xs.foldl (per_sample_rule endFlag) w ∧
        (detect_loop w xs).2.length ≤ xs.length - 1 := by
  induction xs with
  | nil => intro w _; exact ⟨rfl, Nat.zero_le _⟩
  | cons s rest ih =>
    intro w hw
    have hstep : per_sample_rule endFlag w s
        = { w with demod := _ais_demod_detect_handle_sample w.demod s } := by
      unfold per_sample_rule; rw [hw]
    rw [List.foldl_cons, hstep]
    unfold detect_loop
    dsimp only
    split
    · exact ⟨rfl, by simp⟩
    · rename_i hne
      have hs : ({ w with demod := _ais_demod_detect_handle_sample w.demod s } : World).demod.state
          = ais_demod_state.SEARCH_SYNC := by
        rcases state_cases (_ais_demod_detect_handle_sample w.demod s).state with h | h
        · exact h
        · exact absurd h hne
      obtain ⟨h1, h2⟩ := ih _ hs
      refine ⟨h1, ?_⟩
      simp only [List.length_cons, Nat.add_sub_cancel]
      exact Nat.le_trans h2 (Nat.sub_le _ _)

theorem rx_loop_fold (endFlag : Nat) (xs : List Int) :
    ∀ w : World, w.demod.state = ais_demod_state.RECEIVING →
      (rx_loop endFlag w xs).2.foldl (per_sample_rule endFlag) (rx_loop endFlag w xs).1
          = xs.foldl (per_sample_rule endFlag) w ∧
        (rx_loop endFlag w xs).2.length ≤ xs.length - 1 := by
  induction xs with
  | nil => intro w _; exact ⟨rfl, Nat.zero_le _⟩
  | cons s rest ih =>
    intro w hw
    rw [List.foldl_cons]
    unfold rx_loop per_sample_rule
    rw [hw]
    dsimp only [AIS_DECIMATION_RATE]
    by_cases hk : w.demod.sample_skip % 5 = 0
    · rw [if_pos hk, if_pos hk]
      split
      · exact ⟨rfl, by simp⟩
      · rename_i hne
        have hs : (_ais_demod_packet_rx_sample endFlag
            { w with demod := { w.demod with sample_skip := w.demod.sample_skip + 1 } } s).demod.state
              = ais_demod_state.RECEIVING := by
          rcases state_cases (_ais_demod_packet_rx_sample endFlag
            { w with demod := { w.demod with sample_skip := w.demod.sample_skip + 1 } } s).demod.state
            with h | h
          · exact absurd h hne
          · exact h
        obtain ⟨h1, h2⟩ := ih _ hs
        refine ⟨h1, ?_⟩
        simp only [List.length_cons, Nat.add_sub_cancel]
        exact Nat.le_trans h2 (Nat.sub_le _ _)
    · rw [if_neg hk, if_neg hk]
      obtain ⟨h1, h2⟩ := ih { w with demod := { w.demod with sample_skip := w.demod.sample_skip + 1 } } hw
      refine ⟨h1, ?_⟩
      simp only [List.length_cons, Nat.add_sub_cancel]
      exact Nat.le_trans h2 (Nat.sub_le _ _)

theorem on_pcm_while_fold (endFlag : Nat) (fuel : Nat) :
    ∀ (w : World) (xs : List Int), xs.length ≤ fuel →
      on_pcm_while endFlag fuel w xs = some (xs.foldl (per_sample_rule endFlag) w) := by
  induction fuel with
  | zero =>
    intro w xs hlen
    have : xs = [] := List.length_eq_zero.mp (Nat.le_zero.mp hlen)
    subst this
    rfl
  | succ n ih =>
    intro w xs hlen
    cases xs with
    | nil => rfl
    | cons s rest =>
      have hrest : rest.length ≤ n := by simpa using hlen
      unfold on_pcm_while
      rcases state_cases w.demod.state with h | h
      · obtain ⟨h1, h2⟩ := detect_loop_fold endFlag (s :: rest) w h
        simp only [h]
        rw [ih _ _ (by simp at h2; omega), h1]
      · obtain ⟨h1, h2⟩ := rx_loop_fold endFlag (s :: rest) w h
        simp only [h]
        rw [ih _ _ (by simp at h2; omega), h1]

theorem on_pcm_fold (endFlag : Nat) (w : World) (xs : List Int) :
    ais_demod_on_pcm endFlag w xs = some (xs.foldl (per_sample_rule endFlag) w) :=
  on_pcm_while_fold endFlag xs.length w xs (Nat.le_refl _)

/-- C4: for every state and every block of samples `ais_demod_on_pcm`
terminates (the outer loop needs at most one pass per sample) and its effect,
final state and callback invocations, is that of applying the per-sample rule
to each sample once, in input order. -/
theorem on_pcm_is_per_sample_rule (endFlag : Nat) (w : World) (xs : List Int) :
    ais_demod_on_pcm endFlag w xs = some (xs.foldl (per_sample_rule endFlag) w) ∧
      ∀ fuel, xs.length ≤ fuel →
        on_pcm_while endFlag fuel w xs = some (xs.foldl (per_sample_rule endFlag) w) :=
  ⟨on_pcm_fold endFlag w xs, fun fuel h => on_pcm_while_fold endFlag fuel w xs h⟩

/-! ## Only the sign of a sample is used -/

theorem slice_congr {a b : Int} (h : 0 < a ↔ 0 < b) : slice a = slice b := by
  unfold slice
  by_cases ha : a > 0
  · have hb : b > 0 := h.mp ha
    simp [ha, hb]
  · have hb : ¬ b > 0 := fun hb => ha (h.mpr hb)
    simp [ha, hb]

theorem per_sample_rule_congr (endFlag : Nat) (w : World) {a b : Int} (h : 0 < a ↔ 0 < b) :
    per_sample_rule endFlag w a = per_sample_rule endFlag w b := by
  have hs := slice_congr h
  unfold per_sample_rule _ais_demod_packet_rx_sample _ais_demod_detect_handle_sample rx_update
  simp only [hs]

theorem fold_congr (endFlag : Nat) (xs ys : List Int)
    (h : List.Forall₂ (fun a b : Int => (0 < a ↔ 0 < b)) xs ys) :
    ∀ w : World, xs.foldl (per_sample_rule endFlag) w = ys.foldl (per_sample_rule endFlag) w := by
  induction h with
  | nil => intro w; rfl
  | cons hab _ ih =>
    intro w
    rw [List.foldl_cons, List.foldl_cons, per_sample_rule_congr endFlag w hab]
    exact ih _

/-- C8: two sample blocks of equal length that agree elementwise on `s > 0`
give the same final demodulator state and the same callback invocations,
from every starting state. -/
theorem on_pcm_sign_only (endFlag : Nat) (w : World) (xs ys : List Int)
    (h : List.Forall₂ (fun a b : Int => (0 < a ↔ 0 < b)) xs ys) :
    ais_demod_on_pcm endFlag w xs = ais_demod_on_pcm endFlag w ys := by
  rw [on_pcm_fold, on_pcm_fold, fold_congr endFlag xs ys h w]

theorem on_pcm_sign_only_witness :
    List.Forall₂ (fun a b : Int => (0 < a ↔ 0 < b)) [3, -2, 0, 7] [1, 0, -5, 32767] ∧
      ais_demod_on_pcm 0x7e (ais_demod_new 0) [3, -2, 0, 7]
        = ais_demod_on_pcm 0x7e (ais_demod_new 0) [1, 0, -5, 32767] :=
  ⟨by simp, on_pcm_sign_only 0x7e (ais_demod_new 0) _ _ (by simp)⟩

/-! ## NRZI round trip -/

theorem slice_of_level (s : Int) : slice s = (decide (s > 0)).toNat := by
  unfold slice
  by_cases h : s > 0 <;> simp [h]

theorem nrzi_bit_levels (a b : Bool) : nrzi_bit a.toNat b.toNat = (a == b).toNat := by
  cases a <;> cases b <;> decide

theorem nrzi_bit_encode (l b : Bool) : nrzi_bit l.toNat (if b then l else !l).toNat = b.toNat := by
  cases l <;> cases b <;> decide

theorem rx_sample_packet_rx (endFlag : Nat) (w : World) (s : Int) :
    (_ais_demod_packet_rx_sample endFlag w s).demod.packet_rx = rx_update w.demod.packet_rx s := by
  unfold _ais_demod_packet_rx_sample
  dsimp only
  split
  · unfold rx_finish
    dsimp only
    split
    · split <;> rfl
    · rfl
  · rfl

theorem rx_update_raw_shr (rx : ais_demod_rx) (s : Int) :
    (rx_update rx s).raw_shr = shift_in rx.raw_shr (nrzi_bit rx.last_sample (slice s)) := rfl

theorem rx_update_last_sample (rx : ais_demod_rx) (s : Int) :
    (rx_update rx s).last_sample = slice s := rfl

theorem rx_steps_nrzi (endFlag : Nat) (b : List Bool) :
    ∀ (l0 : Bool) (w : World) (xs : List Int),
      w.demod.packet_rx.last_sample = l0.toNat →
      levels_of xs = nrzi_encode l0 b →
      ∀ k (hk : k < b.length),
        (rx_steps endFlag w (xs.take (k + 1))).demod.packet_rx.raw_shr =
          shift_in (rx_steps endFlag w (xs.take k)).demod.packet_rx.raw_shr (b.get ⟨k, hk⟩).toNat := by
  induction b with
  | nil => intro l0 w xs _ _ k hk; exact absurd hk (Nat.not_lt_zero _)
  | cons b0 bs ih =>
    intro l0 w xs hl hx k hk
    cases xs with
    | nil => simp [levels_of, nrzi_encode] at hx
    | cons x rest =>
      simp only [levels_of, List.map_cons, nrzi_encode, List.cons.injEq] at hx
      obtain ⟨hx0, hrest⟩ := hx
      have hslice : slice x = (if b0 then l0 else !l0).toNat := by
        rw [slice_of_level, hx0]
      cases k with
      | zero =>
        simp only [rx_steps, List.take_succ_cons, List.take_zero, List.foldl_cons, List.foldl_nil,
          rx_sample_packet_rx, rx_update_raw_shr, List.get_eq_getElem, List.getElem_cons_zero]
        rw [hl, hslice, nrzi_bit_encode]
      | succ k =>
        have hk' : k < bs.length := by simpa using hk
        have hl' : (_ais_demod_packet_rx_sample endFlag w x).demod.packet_rx.last_sample
            = (if b0 then l0 else !l0).toNat := by
          rw [rx_sample_packet_rx, rx_update_last_sample, hslice]
        have := ih (if b0 then l0 else !l0) (_ais_demod_packet_rx_sample endFlag w x) rest hl' hrest k hk'
        simpa [rx_steps] using this


theorem detect_handle_detector (d : ais_demod) (s : Int) :
    (_ais_demod_detect_handle_sample d s).detector = detect_next d.detector (slice s) := by
  unfold _ais_demod_detect_handle_sample detect_next
  rfl

theorem detect_steps_detector (xs : List Int) :
    ∀ d : ais_demod, (detect_steps d xs).detector
      = xs.foldl (fun det x => detect_next det (slice x)) d.detector := by
  induction xs with
  | nil => intro d; rfl
  | cons x rest ih =>
    intro d
    simp only [detect_steps, List.foldl_cons] at ih ⊢
    rw [ih, detect_handle_detector]

theorem detect_next_wf (det : ais_demod_detect) (l : Nat) (h : detect_wf det) :
    detect_wf (detect_next det l) := by
  obtain ⟨h1, h2, _⟩ := h
  refine ⟨?_, ?_, ?_⟩
  · simp [detect_next, h1]
  · simp [detect_next, h2]
  · simp only [detect_next, AIS_DECIMATION_RATE]
    exact Nat.mod_lt _ (by norm_num)

theorem detect_next_hit (det : ais_demod_detect) (l : Nat) (h : detect_wf det) :
    (detect_next det l).preambles.getD det.next_field 0
        = shift_in (det.preambles.getD det.next_field 0)
            (nrzi_bit (det.prior_sample.getD det.next_field 0) l) ∧
      (detect_next det l).prior_sample.getD det.next_field 0 = l := by
  obtain ⟨h1, h2, h3⟩ := h
  constructor
  · simp only [detect_next, shift_in, List.getD_eq_getElem?_getD]
    rw [List.getElem?_set_self (by omega)]
    rfl
  · simp only [detect_next, List.getD_eq_getElem?_getD]
    rw [List.getElem?_set_self (by omega)]
    rfl

theorem detect_next_miss (det : ais_demod_detect) (l i : Nat) (h : det.next_field ≠ i) :
    (detect_next det l).preambles.getD i 0 = det.preambles.getD i 0 ∧
      (detect_next det l).prior_sample.getD i 0 = det.prior_sample.getD i 0 := by
  constructor
  · simp only [detect_next, List.getD_eq_getElem?_getD]
    rw [List.getElem?_set_ne h]
  · simp only [detect_next, List.getD_eq_getElem?_getD]
    rw [List.getElem?_set_ne h]

theorem detect_next_field (det : ais_demod_detect) (l : Nat) :
    (detect_next det l).next_field = (det.next_field + 1) % 5 := rfl

/-- Five detector steps seen from the phase that consumes the first of them. -/
theorem detect_next_round (det : ais_demod_detect) (h : detect_wf det) (l0 l1 l2 l3 l4 : Nat) :
    let det5 := detect_next (detect_next (detect_next (detect_next (detect_next det l0) l1) l2) l3) l4
    detect_wf det5 ∧ det5.next_field = det.next_field ∧
      det5.preambles.getD det.next_field 0 = (detect_next det l0).preambles.getD det.next_field 0 ∧
      det5.prior_sample.getD det.next_field 0 = l0 := by
  intro det5
  have w1 := detect_next_wf det l0 h
  have w2 := detect_next_wf _ l1 w1
  have w3 := detect_next_wf _ l2 w2
  have w4 := detect_next_wf _ l3 w3
  have w5 := detect_next_wf _ l4 w4
  have hi := h.2.2
  have n1 := detect_next_field det l0
  have n2 := detect_next_field (detect_next det l0) l1
  have n3 := detect_next_field (detect_next (detect_next det l0) l1) l2
  have n4 := detect_next_field (detect_next (detect_next (detect_next det l0) l1) l2) l3
  have n5 := detect_next_field
    (detect_next (detect_next (detect_next (detect_next det l0) l1) l2) l3) l4
  have m1 := detect_next_miss (detect_next det l0) l1 det.next_field (by omega)
  have m2 := detect_next_miss (detect_next (detect_next det l0) l1) l2 det.next_field (by omega)
  have m3 := detect_next_miss (detect_next (detect_next (detect_next det l0) l1) l2) l3
    det.next_field (by omega)
  have m4 := detect_next_miss
    (detect_next (detect_next (detect_next (detect_next det l0) l1) l2) l3) l4
    det.next_field (by omega)
  have hnf : (detect_next (detect_next (detect_next (detect_next (detect_next det l0) l1) l2) l3)
      l4).next_field = det.next_field := by omega
  refine ⟨w5, hnf, ?_, ?_⟩
  · show (detect_next _ l4).preambles.getD _ 0 = _
    rw [m4.1, m3.1, m2.1, m1.1]
  · show (detect_next _ l4).prior_sample.getD _ 0 = _
    rw [m4.2, m3.2, m2.2, m1.2]
    exact (detect_next_hit det l0 h).2


theorem every_fifth_cons (x : α) (tl : List α) :
    every_fifth (x :: tl) = x :: every_fifth (tl.drop 4) := by
  rcases tl with _ | ⟨y1, _ | ⟨y2, _ | ⟨y3, _ | ⟨y4, rest⟩⟩⟩⟩ <;> simp [every_fifth]

theorem every_fifth_ne_nil (l : List α) (h : every_fifth l ≠ []) : l ≠ [] := by
  intro hl; subst hl; exact h (by simp [every_fifth])

theorem detect_fold_round (det : ais_demod_detect) (h : detect_wf det) (y0 : Int) (r4 : List Int)
    (hr : r4.length = 4) :
    let det5 := (y0 :: r4).foldl (fun det x => detect_next det (slice x)) det
    detect_wf det5 ∧ det5.next_field = det.next_field ∧
      det5.preambles.getD det.next_field 0
        = (detect_next det (slice y0)).preambles.getD det.next_field 0 ∧
      det5.prior_sample.getD det.next_field 0 = slice y0 := by
  rcases r4 with _ | ⟨y1, _ | ⟨y2, _ | ⟨y3, _ | ⟨y4, _ | ⟨y5, rest⟩⟩⟩⟩⟩ <;>
    simp at hr
  exact detect_next_round det h (slice y0) (slice y1) (slice y2) (slice y3) (slice y4)

theorem detect_phase_nrzi (b : List Bool) :
    ∀ (l0 : Bool) (det : ais_demod_detect) (ys : List Int),
      detect_wf det →
      det.prior_sample.getD det.next_field 0 = l0.toNat →
      levels_of (every_fifth ys) = nrzi_encode l0 b →
      ∀ k (hk : k < b.length),
        ((ys.take (5 * k + 1)).foldl (fun det x => detect_next det (slice x)) det).preambles.getD
            det.next_field 0 =
          shift_in
            (((ys.take (5 * k)).foldl (fun det x => detect_next det (slice x)) det).preambles.getD
              det.next_field 0)
            (b.get ⟨k, hk⟩).toNat := by
  induction b with
  | nil => intro l0 det ys _ _ _ k hk; exact absurd hk (Nat.not_lt_zero _)
  | cons b0 bs ih =>
    intro l0 det ys hwf hl hx k hk
    cases ys with
    | nil => simp [levels_of, nrzi_encode, every_fifth] at hx
    | cons y0 tl =>
      rw [every_fifth_cons] at hx
      simp only [levels_of, List.map_cons, nrzi_encode, List.cons.injEq] at hx
      obtain ⟨hx0, hrest⟩ := hx
      have hslice : slice y0 = (if b0 then l0 else !l0).toNat := by
        rw [slice_of_level, hx0]
      cases k with
      | zero =>
        simp only [Nat.mul_zero, Nat.zero_add, List.take_succ_cons, List.take_zero,
          List.foldl_cons, List.foldl_nil, List.get_eq_getElem, List.getElem_cons_zero]
        rw [(detect_next_hit det (slice y0) hwf).1, hl, hslice, nrzi_bit_encode]
      | succ k =>
        have hk' : k < bs.length := by simpa using hk
        have hne : every_fifth (tl.drop 4) ≠ [] := by
          intro h0
          have hlen := congrArg List.length hrest
          have hbs : (nrzi_encode (if b0 then l0 else !l0) bs).length = bs.length := by
            clear hrest hlen ih hk hk'
            generalize (if b0 then l0 else !l0) = l
            induction bs generalizing l with
            | nil => rfl
            | cons c cs ihc => simp [nrzi_encode, ihc]
          rw [h0, hbs] at hlen
          simp [levels_of] at hlen
          omega
        have hdrop : tl.drop 4 ≠ [] := every_fifth_ne_nil _ hne
        have htl : 4 < tl.length := by
          by_contra hc
          exact hdrop (List.drop_eq_nil_of_le (Nat.le_of_not_lt hc))
        have ht4 : (tl.take 4).length = 4 := by
          rw [List.length_take]; omega
        obtain ⟨w5, n5, p5, q5⟩ := detect_fold_round det hwf y0 (tl.take 4) ht4
        have e1 : (y0 :: tl).take (5 * (k + 1) + 1)
            = (y0 :: tl.take 4) ++ (tl.drop 4).take (5 * k + 1) := by
          have : 5 * (k + 1) + 1 = (4 + (5 * k + 1)) + 1 := by omega
          rw [this, List.take_succ_cons, List.take_add, List.cons_append]
        have e2 : (y0 :: tl).take (5 * (k + 1))
            = (y0 :: tl.take 4) ++ (tl.drop 4).take (5 * k) := by
          have : 5 * (k + 1) = (4 + (5 * k)) + 1 := by omega
          rw [this, List.take_succ_cons, List.take_add, List.cons_append]
        rw [e1, e2, List.foldl_append, List.foldl_append]
        have hl' : ((y0 :: tl.take 4).foldl (fun det x => detect_next det (slice x))
            det).prior_sample.getD
              ((y0 :: tl.take 4).foldl (fun det x => detect_next det (slice x)) det).next_field 0
            = (if b0 then l0 else !l0).toNat := by
          rw [n5, q5, hslice]
        have := ih (if b0 then l0 else !l0) _ (tl.drop 4) w5 hl' hrest k hk'
        rw [n5] at this
        simpa using this


theorem detect_fold_prefix (pre : List Int) :
    ∀ (o : Nat) (det : ais_demod_detect), pre.length = o → o < 5 → detect_wf det →
      detect_wf (pre.foldl (fun det x => detect_next det (slice x)) det) ∧
      (pre.foldl (fun det x => detect_next det (slice x)) det).next_field
        = (det.next_field + o) % 5 ∧
      (pre.foldl (fun det x => detect_next det (slice x)) det).preambles.getD
          ((det.next_field + o) % 5) 0 = det.preambles.getD ((det.next_field + o) % 5) 0 ∧
      (pre.foldl (fun det x => detect_next det (slice x)) det).prior_sample.getD
          ((det.next_field + o) % 5) 0 = det.prior_sample.getD ((det.next_field + o) % 5) 0 := by
  induction pre with
  | nil =>
    intro o det ho _ hwf
    have : o = 0 := by simpa using ho.symm
    subst this
    have := hwf.2.2
    exact ⟨hwf, (Nat.mod_eq_of_lt this).symm, rfl, rfl⟩
  | cons x rest ih =>
    intro o det ho ho5 hwf
    cases o with
    | zero => simp at ho
    | succ o' =>
      have hlen : rest.length = o' := by simpa using ho
      have hnf := hwf.2.2
      have w1 := detect_next_wf det (slice x) hwf
      have n1 := detect_next_field det (slice x)
      obtain ⟨a1, a2, a3, a4⟩ := ih o' (detect_next det (slice x)) hlen (by omega) w1
      have hidx : ((detect_next det (slice x)).next_field + o') % 5
          = (det.next_field + (o' + 1)) % 5 := by
        rw [n1]; omega
      have hmiss : det.next_field ≠ (det.next_field + (o' + 1)) % 5 := by omega
      have m := detect_next_miss det (slice x) _ hmiss
      rw [hidx] at a2 a3 a4
      simp only [List.foldl_cons]
      exact ⟨a1, a2, a3.trans m.1, a4.trans m.2⟩

/-- C6: NRZI round trip.  When the sample levels are the NRZI encoding of the
bit stream `b` from the seed level `l0` and the receiver's `last_sample` is
`l0`, the bit shifted into `raw_shr` at step `k` is `b_k`, for every `k`; and
when the samples one detector phase consumes (every fifth sample, starting
`o` samples into the block) are that encoding and the phase's `prior_sample`
is `l0`, the bit shifted into that phase's preamble register at its `k`-th
sample is `b_k`. -/
theorem nrzi_round_trip (b : List Bool) (l0 : Bool) (endFlag : Nat) (w : World) (xs : List Int)
    (d : ais_demod) (ys : List Int) (o : Nat)
    (hl : w.demod.packet_rx.last_sample = l0.toNat)
    (hx : levels_of xs = nrzi_encode l0 b)
    (hwf : detect_wf d.detector) (ho : o < 5)
    (hp : d.detector.prior_sample.getD ((d.detector.next_field + o) % 5) 0 = l0.toNat)
    (hy : levels_of (every_fifth (ys.drop o)) = nrzi_encode l0 b) :
    ∀ k (hk : k < b.length),
      (rx_steps endFlag w (xs.take (k + 1))).demod.packet_rx.raw_shr =
          ((rx_steps endFlag w (xs.take k)).demod.packet_rx.raw_shr <<< 1) % 2 ^ 32 |||
            (b.get ⟨k, hk⟩).toNat ∧
        (detect_steps d (ys.take (o + 5 * k + 1))).detector.preambles.getD
            ((d.detector.next_field + o) % 5) 0 =
          ((detect_steps d (ys.take (o + 5 * k))).detector.preambles.getD
            ((d.detector.next_field + o) % 5) 0 <<< 1) % 2 ^ 32 ||| (b.get ⟨k, hk⟩).toNat := by
  intro k hk
  refine ⟨rx_steps_nrzi endFlag b l0 w xs hl hx k hk, ?_⟩
  have hne : ys.drop o ≠ [] := by
    intro h0
    rw [h0] at hy
    cases b with
    | nil => exact absurd hk (Nat.not_lt_zero _)
    | cons b0 bs => simp [every_fifth, levels_of, nrzi_encode] at hy
  have hlen : o < ys.length := by
    by_contra hc
    exact hne (List.drop_eq_nil_of_le (Nat.le_of_not_lt hc))
  have hto : (ys.take o).length = o := by rw [List.length_take]; omega
  obtain ⟨a1, a2, a3, a4⟩ := detect_fold_prefix (ys.take o) o d.detector hto ho hwf
  have hp' : ((ys.take o).foldl (fun det x => detect_next det (slice x)) d.detector).prior_sample.getD
      ((ys.take o).foldl (fun det x => detect_next det (slice x)) d.detector).next_field 0
        = l0.toNat := by
    rw [a2, a4, hp]
  have key := detect_phase_nrzi b l0 _ (ys.drop o) a1 hp' hy k hk
  rw [a2] at key
  have e1 : ys.take (o + 5 * k + 1) = ys.take o ++ (ys.drop o).take (5 * k + 1) := by
    rw [Nat.add_assoc, List.take_add]
  have e2 : ys.take (o + 5 * k) = ys.take o ++ (ys.drop o).take (5 * k) := by
    rw [List.take_add]
  rw [detect_steps_detector, detect_steps_detector, e1, e2, List.foldl_append, List.foldl_append]
  exact key

theorem nrzi_round_trip_witness :
    (example_rx_world.demod.packet_rx.last_sample = true.toNat ∧
      levels_of [-1, -3] = nrzi_encode true [false, true] ∧
      detect_wf example_detect_demod.detector ∧
      levels_of (every_fifth (([5, -1, 2, 2, 2, 2, -3] : List Int).drop 1))
        = nrzi_encode true [false, true]) ∧
    ∀ k (hk : k < [false, true].length),
      (rx_steps 0x7e example_rx_world (([-1, -3] : List Int).take (k + 1))).demod.packet_rx.raw_shr =
          ((rx_steps 0x7e example_rx_world
            (([-1, -3] : List Int).take k)).demod.packet_rx.raw_shr <<< 1) % 2 ^ 32 |||
            ([false, true].get ⟨k, hk⟩).toNat ∧
        (detect_steps example_detect_demod
            (([5, -1, 2, 2, 2, 2, -3] : List Int).take (1 + 5 * k + 1))).detector.preambles.getD
            ((example_detect_demod.detector.next_field + 1) % 5) 0 =
          ((detect_steps example_detect_demod
            (([5, -1, 2, 2, 2, 2, -3] : List Int).take (1 + 5 * k))).detector.preambles.getD
            ((example_detect_demod.detector.next_field + 1) % 5) 0 <<< 1) % 2 ^ 32 |||
              ([false, true].get ⟨k, hk⟩).toNat :=
  ⟨⟨by decide, by decide, ⟨by decide, by decide, by decide⟩, by decide⟩,
    nrzi_round_trip [false, true] true 0x7e example_rx_world [-1, -3] example_detect_demod
      [5, -1, 2, 2, 2, 2, -3] 1 (by decide) (by decide) ⟨by decide, by decide, by decide⟩
      (by decide) (by decide) (by decide)⟩

/-! ## Packet bit order -/

theorem packet_bit_testBit (p : List Nat) (k : Nat) :
    packet_bit p k = ((p.getD (k / 8) 0).testBit (k % 8)).toNat := by
  unfold packet_bit
  rw [Nat.and_one_is_mod, Nat.shiftRight_eq_div_pow, Nat.toNat_testBit]

theorem packet_bit_le_one (p : List Nat) (k : Nat) : packet_bit p k ≤ 1 := by
  rw [packet_bit_testBit]
  cases (p.getD (k / 8) 0).testBit (k % 8) <;> simp

theorem testBit_or_bit (old bit c j : Nat) (hbit : bit ≤ 1) (hj : j < 8) :
    ((old ||| bit <<< c) % 256).testBit j = (old.testBit j || (decide (j = c) && decide (bit = 1))) := by
  have h256 : (256 : Nat) = 2 ^ 8 := by norm_num
  rw [h256, Nat.testBit_mod_two_pow, Nat.testBit_or]
  have hb : bit = 0 ∨ bit = 1 := by omega
  rcases hb with hb | hb
  · subst hb; simp [hj]
  · subst hb
    rw [Nat.one_shiftLeft, Nat.testBit_two_pow]
    simp [hj, eq_comm]

theorem packet_bit_set (p : List Nat) (cb bit : Nat) (hlen : cb / 8 < p.length) (hbit : bit ≤ 1)
    (hz : packet_bit p cb = 0) (k : Nat) :
    packet_bit (p.set (cb / 8) ((p.getD (cb / 8) 0 ||| bit <<< (cb % 8)) % 256)) k
      = if k = cb then bit else packet_bit p k := by
  have hk8 : k % 8 < 8 := Nat.mod_lt _ (by norm_num)
  rw [packet_bit_testBit, packet_bit_testBit]
  rw [packet_bit_testBit] at hz
  by_cases hbyte : k / 8 = cb / 8
  · have hget : (p.set (cb / 8) ((p.getD (cb / 8) 0 ||| bit <<< (cb % 8)) % 256)).getD (k / 8) 0
        = (p.getD (cb / 8) 0 ||| bit <<< (cb % 8)) % 256 := by
      rw [hbyte, List.getD_eq_getElem?_getD, List.getElem?_set_self hlen]
      rfl
    rw [hget, testBit_or_bit _ _ _ _ hbit hk8, hbyte]
    by_cases hkc : k = cb
    · subst hkc
      have hold : (p.getD (k / 8) 0).testBit (k % 8) = false := by
        cases h : (p.getD (k / 8) 0).testBit (k % 8)
        · rfl
        · rw [h] at hz; simp at hz
      have hb : bit = 0 ∨ bit = 1 := by omega
      rw [hold]
      rcases hb with hb | hb <;> simp [hb]
    · have hmod : k % 8 ≠ cb % 8 := by omega
      simp [hkc, hmod]
  · have hget : (p.set (cb / 8) ((p.getD (cb / 8) 0 ||| bit <<< (cb % 8)) % 256)).getD (k / 8) 0
        = p.getD (k / 8) 0 := by
      rw [List.getD_eq_getElem?_getD, List.getElem?_set_ne (Ne.symm hbyte),
        ← List.getD_eq_getElem?_getD]
    have hkc : k ≠ cb := fun h => hbyte (by rw [h])
    rw [hget, if_neg hkc]

theorem nrzi_bit_le_one (a b : Nat) : nrzi_bit a b ≤ 1 := by
  unfold nrzi_bit; split <;> simp


theorem rx_update_accept (rx : ais_demod_rx) (x : Int) (h : rx.nr_ones < 5) :
    (rx_update rx x).packet = rx.packet.set (rx.current_bit / 8)
        ((rx.packet.getD (rx.current_bit / 8) 0 |||
          nrzi_bit rx.last_sample (slice x) <<< (rx.current_bit % 8)) % 256) ∧
      (rx_update rx x).current_bit = rx.current_bit + 1 := by
  unfold rx_update
  dsimp only
  rw [if_pos h, if_pos h]
  exact ⟨rfl, rfl⟩

theorem rx_update_drop (rx : ais_demod_rx) (x : Int) (h : ¬ rx.nr_ones < 5) :
    (rx_update rx x).packet = rx.packet ∧ (rx_update rx x).current_bit = rx.current_bit := by
  unfold rx_update
  dsimp only
  rw [if_neg h, if_neg h]
  exact ⟨rfl, rfl⟩

theorem rx_update_nr_ones (rx : ais_demod_rx) (x : Int) :
    (rx_update rx x).nr_ones
      = if nrzi_bit rx.last_sample (slice x) = 0 then 0 else rx.nr_ones + 1 := rfl

theorem accepted_bits_cons (n l : Nat) (x : Int) (rest : List Int) :
    accepted_bits n l (x :: rest) =
      if n < 5 then
        nrzi_bit l (slice x) ::
          accepted_bits (if nrzi_bit l (slice x) = 0 then 0 else n + 1) (slice x) rest
      else accepted_bits (if nrzi_bit l (slice x) = 0 then 0 else n + 1) (slice x) rest := rfl

theorem rx_fold_bits (xs : List Int) :
    ∀ rx : ais_demod_rx, rx.packet.length = 160 → rx.current_bit < 1280 →
      (∀ k, rx.current_bit ≤ k → packet_bit rx.packet k = 0) →
      (∀ j, 1 ≤ j → j ≤ xs.length → ((xs.take j).foldl rx_update rx).current_bit ≠ 1280) →
      (xs.foldl rx_update rx).packet.length = 160 ∧
      (xs.foldl rx_update rx).current_bit
        = rx.current_bit + (accepted_bits rx.nr_ones rx.last_sample xs).length ∧
      (∀ k, k < rx.current_bit →
        packet_bit (xs.foldl rx_update rx).packet k = packet_bit rx.packet k) ∧
      (∀ k, k < (accepted_bits rx.nr_ones rx.last_sample xs).length →
        packet_bit (xs.foldl rx_update rx).packet (rx.current_bit + k)
          = (accepted_bits rx.nr_ones rx.last_sample xs).getD k 0) ∧
      (∀ k, (xs.foldl rx_update rx).current_bit ≤ k →
        packet_bit (xs.foldl rx_update rx).packet k = 0) := by
  induction xs with
  | nil =>
    intro rx hlen _ hz _
    refine ⟨hlen, rfl, fun _ _ => rfl, ?_, hz⟩
    intro k hk
    exact absurd hk (Nat.not_lt_zero _)
  | cons x rest ih =>
    intro rx hlen hcb hz hne
    have h1 := hne 1 (Nat.le_refl _) (by simp)
    simp only [List.take_succ_cons, List.take_zero, List.foldl_cons, List.foldl_nil] at h1
    have hne' : ∀ j, 1 ≤ j → j ≤ rest.length →
        ((rest.take j).foldl rx_update (rx_update rx x)).current_bit ≠ 1280 := by
      intro j hj1 hj2
      have := hne (j + 1) (by omega) (by simpa using hj2)
      simpa using this
    have hlast : (rx_update rx x).last_sample = slice x := rfl
    have hones := rx_update_nr_ones rx x
    rw [List.foldl_cons, accepted_bits_cons]
    by_cases hacc : rx.nr_ones < 5
    · obtain ⟨hp, hc⟩ := rx_update_accept rx x hacc
      have hbyte : rx.current_bit / 8 < rx.packet.length := by omega
      have hset := packet_bit_set rx.packet rx.current_bit (nrzi_bit rx.last_sample (slice x))
        hbyte (nrzi_bit_le_one _ _) (hz _ (Nat.le_refl _))
      rw [← hp] at hset
      have hlen1 : (rx_update rx x).packet.length = 160 := by rw [hp, List.length_set, hlen]
      have hcb1 : (rx_update rx x).current_bit < 1280 := by omega
      have hz1 : ∀ k, (rx_update rx x).current_bit ≤ k → packet_bit (rx_update rx x).packet k = 0 := by
        intro k hk
        rw [hset k, if_neg (by omega)]
        exact hz k (by omega)
      obtain ⟨i1, i2, i3, i4, i5⟩ := ih (rx_update rx x) hlen1 hcb1 hz1 hne'
      rw [hones, hlast] at i2 i4
      rw [if_pos hacc]
      refine ⟨i1, ?_, ?_, ?_, i5⟩
      · rw [i2, hc, List.length_cons]; omega
      · intro k hk
        rw [i3 k (by omega), hset k, if_neg (by omega)]
      · intro k hk
        cases k with
        | zero =>
          rw [Nat.add_zero, i3 _ (by omega), hset, if_pos rfl]
          rfl
        | succ k =>
          have hk' : k < (accepted_bits (if nrzi_bit rx.last_sample (slice x) = 0 then 0
              else rx.nr_ones + 1) (slice x) rest).length := by simpa using hk
          have := i4 k hk'
          rw [hc] at this
          rw [List.getD_cons_succ, ← this]
          congr 1
          omega
    · obtain ⟨hp, hc⟩ := rx_update_drop rx x hacc
      have hlen1 : (rx_update rx x).packet.length = 160 := by rw [hp, hlen]
      have hcb1 : (rx_update rx x).current_bit < 1280 := by omega
      have hz1 : ∀ k, (rx_update rx x).current_bit ≤ k → packet_bit (rx_update rx x).packet k = 0 := by
        intro k hk
        rw [hp]; exact hz k (by omega)
      obtain ⟨i1, i2, i3, i4, i5⟩ := ih (rx_update rx x) hlen1 hcb1 hz1 hne'
      rw [hones, hlast] at i2 i4
      rw [hc] at i2 i3 i4
      rw [hp] at i3
      rw [if_neg hacc]
      exact ⟨i1, i2, i3, i4, i5⟩

/-! ## Bit stuffing -/

theorem shift_in_eq (r bit : Nat) (hbit : bit ≤ 1) :
    shift_in r bit = 2 * (r % 2147483648) + bit := by
  unfold shift_in
  have h1 : (r <<< 1) % 2 ^ 32 = 2 ^ 1 * (r % 2147483648) := by
    rw [Nat.shiftLeft_eq]; omega
  rw [h1, ← Nat.mul_add_lt_is_or (by omega)]

/-- One decoded bit `b` arriving on a receiver whose previous level is `l`. -/
theorem rx_update_bit (rx : ais_demod_rx) (x : Int) (l b : Bool)
    (hl : rx.last_sample = l.toNat) (hx : decide (x > 0) = (if b then l else !l)) :
    (rx_update rx x).raw_shr = shift_in rx.raw_shr b.toNat ∧
      (rx_update rx x).nr_ones = (if b then rx.nr_ones + 1 else 0) ∧
      (rx_update rx x).last_sample = (if b then l else !l).toNat ∧
      nrzi_bit rx.last_sample (slice x) = b.toNat := by
  have hs : slice x = (if b then l else !l).toNat := by rw [slice_of_level, hx]
  have hb : nrzi_bit rx.last_sample (slice x) = b.toNat := by rw [hl, hs, nrzi_bit_encode]
  refine ⟨?_, ?_, ?_, hb⟩
  · rw [rx_update_raw_shr, hb]
  · rw [rx_update_nr_ones, hb]; cases b <;> simp
  · rw [rx_update_last_sample, hs]


theorem destuff (p : List Bool) :
    ∀ (n : Nat) (l : Bool) (rx : ais_demod_rx) (xs : List Int),
      rx.nr_ones = n → n ≤ 4 → rx.raw_shr % 2 ^ (n + 1) = 2 ^ n - 1 →
      rx.last_sample = l.toNat →
      levels_of xs = nrzi_encode l (stuff_from n p) →
      (∀ j, 1 ≤ j → j ≤ xs.length →
        ((xs.take j).foldl rx_update rx).raw_shr % 256 ≠ 126 ∧
          ((xs.take j).foldl rx_update rx).current_bit ≤ rx.current_bit + p.length) ∧
      accepted_bits n l.toNat xs = p.map Bool.toNat ∧
      (xs.foldl rx_update rx).nr_ones ≤ 4 ∧
      (xs.foldl rx_update rx).raw_shr % 2 ^ ((xs.foldl rx_update rx).nr_ones + 1)
        = 2 ^ (xs.foldl rx_update rx).nr_ones - 1 ∧
      (xs.foldl rx_update rx).last_sample = (nrzi_last l (stuff_from n p)).toNat ∧
      (xs.foldl rx_update rx).raw_shr
        = (stuff_from n p).foldl (fun r b => shift_in r b.toNat) rx.raw_shr := by
  induction p with
  | nil =>
    intro n l rx xs hn hn4 hinv hl hx
    have hxs : xs = [] := by
      simpa [stuff_from, nrzi_encode, levels_of] using hx
    subst hxs
    refine ⟨?_, rfl, ?_, ?_, ?_, rfl⟩
    · intro j h1 h2; simp at h2; omega
    · simpa [hn] using hn4
    · simpa [hn] using hinv
    · simpa [stuff_from, nrzi_last] using hl
  | cons b0 bs ih =>
    intro n l rx xs hn hn4 hinv hl hx
    cases b0 with
    | false =>
      -- a 0 bit: accepted, run counter cleared
      simp only [stuff_from] at hx ⊢
      cases xs with
      | nil => simp [nrzi_encode, levels_of] at hx
      | cons x rest =>
        simp only [levels_of, List.map_cons, nrzi_encode, List.cons.injEq] at hx
        obtain ⟨hx0, hrest⟩ := hx
        simp only [if_true, ite_true, Bool.false_eq_true, if_false, ite_false] at hx0 hrest
        obtain ⟨u1, u2, u3, u4⟩ := rx_update_bit rx x l false hl hx0
        have hacc : rx.nr_ones < 5 := by omega
        obtain ⟨_, hc⟩ := rx_update_accept rx x hacc
        have hr1 := shift_in_eq rx.raw_shr 0 (by omega)
        simp only [Bool.toNat_false] at u1 u4
        simp only [Bool.false_eq_true, if_false] at u2 u3
        have hinv1 : (rx_update rx x).raw_shr % 2 ^ (0 + 1) = 2 ^ 0 - 1 := by
          rw [u1, hr1]; omega
        obtain ⟨i1, i2, i3, i4, i5, i6⟩ := ih 0 (!l) (rx_update rx x) rest u2 (by omega) hinv1 u3 hrest
        have h126 : (rx_update rx x).raw_shr % 256 ≠ 126 := by
          rw [u1, hr1]
          have hn' : n = 0 ∨ n = 1 ∨ n = 2 ∨ n = 3 ∨ n = 4 := by omega
          rcases hn' with h | h | h | h | h <;> subst h <;> norm_num at hinv <;> omega
        refine ⟨?_, ?_, ?_, ?_, ?_, ?_⟩
        · intro j h1 h2
          cases j with
          | zero => omega
          | succ j =>
            cases j with
            | zero =>
              simp only [List.take_succ_cons, List.take_zero, List.foldl_cons, List.foldl_nil]
              exact ⟨h126, by rw [hc]; simp⟩
            | succ j =>
              have := i1 (j + 1) (by omega) (by simpa using h2)
              simp only [List.take_succ_cons, List.foldl_cons] at this ⊢
              refine ⟨this.1, ?_⟩
              have h3 := this.2
              rw [hc] at h3
              simp only [List.length_cons]
              omega
        · rw [accepted_bits_cons, if_pos (by omega)]
          rw [hl] at u4
          rw [u4, slice_of_level, hx0]
          simp only [if_true, List.map_cons, Bool.toNat_false, List.cons.injEq, true_and]
          simpa using i2
        · simpa using i3
        · simpa using i4
        · simpa [nrzi_last] using i5
        · simp only [List.foldl_cons, Bool.toNat_false]
          rw [i6, u1]
    | true =>
      by_cases h5 : n + 1 = 5
      · -- the fifth 1: accepted, and the stuffed 0 after it is dropped
        simp only [stuff_from, h5, if_true] at hx ⊢
        cases xs with
        | nil => simp [nrzi_encode, levels_of] at hx
        | cons x1 rest1 =>
          cases rest1 with
          | nil => simp [nrzi_encode, levels_of] at hx
          | cons x2 rest =>
            simp only [levels_of, List.map_cons, nrzi_encode, List.cons.injEq] at hx
            obtain ⟨hx1, hx2, hrest⟩ := hx
            simp only [if_true, ite_true, Bool.false_eq_true, if_false, ite_false] at hx1 hx2 hrest
            obtain ⟨u1, u2, u3, u4⟩ := rx_update_bit rx x1 l true hl hx1
            simp only [if_true] at u2 u3
            obtain ⟨v1, v2, v3, v4⟩ := rx_update_bit (rx_update rx x1) x2 l false u3 hx2
            simp only [Bool.false_eq_true, if_false] at v2 v3
            have hacc : rx.nr_ones < 5 := by omega
            obtain ⟨_, hc1⟩ := rx_update_accept rx x1 hacc
            have hdrop : ¬ (rx_update rx x1).nr_ones < 5 := by rw [u2]; omega
            obtain ⟨_, hc2⟩ := rx_update_drop (rx_update rx x1) x2 hdrop
            have hr1 := shift_in_eq rx.raw_shr 1 (by omega)
            have hr2 := shift_in_eq (rx_update rx x1).raw_shr 0 (by omega)
            simp only [Bool.toNat_true] at u1 u4
            simp only [Bool.toNat_false] at v1 v4
            have hn' : n = 4 := by omega
            subst hn'
            norm_num at hinv
            have hinv2 : (rx_update (rx_update rx x1) x2).raw_shr % 2 ^ (0 + 1) = 2 ^ 0 - 1 := by
              rw [v1, hr2]; omega
            obtain ⟨i1, i2, i3, i4, i5, i6⟩ :=
              ih 0 (!l) (rx_update (rx_update rx x1) x2) rest v2 (by omega) hinv2 v3 hrest
            refine ⟨?_, ?_, ?_, ?_, ?_, ?_⟩
            · intro j h1 h2
              cases j with
              | zero => omega
              | succ j =>
                cases j with
                | zero =>
                  simp only [List.take_succ_cons, List.take_zero, List.foldl_cons, List.foldl_nil]
                  refine ⟨?_, by rw [hc1]; simp⟩
                  rw [u1, hr1]; omega
                | succ j =>
                  cases j with
                  | zero =>
                    simp only [List.take_succ_cons, List.take_zero, List.foldl_cons,
                      List.foldl_nil]
                    refine ⟨?_, by rw [hc2, hc1]; simp⟩
                    rw [v1, hr2, u1, hr1]; omega
                  | succ j =>
                    have := i1 (j + 1) (by omega) (by simpa using h2)
                    simp only [List.take_succ_cons, List.foldl_cons] at this ⊢
                    refine ⟨this.1, ?_⟩
                    have h3 := this.2
                    rw [hc2, hc1] at h3
                    simp only [List.length_cons]
                    omega
            · rw [accepted_bits_cons, if_pos (by omega)]
              rw [hl] at u4
              rw [u4, slice_of_level, hx1]
              simp only [Nat.one_ne_zero, if_false]
              rw [accepted_bits_cons, if_neg (by omega)]
              have hv4 : nrzi_bit l.toNat (slice x2) = 0 := by rw [← u3]; exact v4
              rw [hv4, slice_of_level, hx2]
              simp only [if_true, List.map_cons, Bool.toNat_true, List.cons.injEq, true_and]
              simpa using i2
            · simpa using i3
            · simpa using i4
            · simpa [nrzi_last] using i5
            · simp only [List.foldl_cons, Bool.toNat_false, Bool.toNat_true]
              rw [i6, v1, u1]
      · -- a 1 that does not complete a run of five: accepted
        simp only [stuff_from, h5, if_false] at hx ⊢
        cases xs with
        | nil => simp [nrzi_encode, levels_of] at hx
        | cons x rest =>
          simp only [levels_of, List.map_cons, nrzi_encode, List.cons.injEq] at hx
          obtain ⟨hx0, hrest⟩ := hx
          simp only [if_true, ite_true, Bool.false_eq_true, if_false, ite_false] at hx0 hrest
          obtain ⟨u1, u2, u3, u4⟩ := rx_update_bit rx x l true hl hx0
          simp only [if_true] at u2 u3
          have hacc : rx.nr_ones < 5 := by omega
          obtain ⟨_, hc⟩ := rx_update_accept rx x hacc
          have hr1 := shift_in_eq rx.raw_shr 1 (by omega)
          simp only [Bool.toNat_true] at u1 u4
          have hn1 : (rx_update rx x).nr_ones = n + 1 := by rw [u2, hn]
          have hinv1 : (rx_update rx x).raw_shr % 2 ^ (n + 1 + 1) = 2 ^ (n + 1) - 1 := by
            rw [u1, hr1]
            have hn' : n = 0 ∨ n = 1 ∨ n = 2 ∨ n = 3 := by omega
            rcases hn' with h | h | h | h <;> subst h <;> norm_num at hinv ⊢ <;> omega
          obtain ⟨i1, i2, i3, i4, i5, i6⟩ :=
            ih (n + 1) l (rx_update rx x) rest hn1 (by omega) hinv1 u3 hrest
          refine ⟨?_, ?_, ?_, ?_, ?_, ?_⟩
          · intro j h1 h2
            cases j with
            | zero => omega
            | succ j =>
              cases j with
              | zero =>
                simp only [List.take_succ_cons, List.take_zero, List.foldl_cons, List.foldl_nil]
                refine ⟨?_, by rw [hc]; simp⟩
                rw [u1, hr1]; omega
              | succ j =>
                have := i1 (j + 1) (by omega) (by simpa using h2)
                simp only [List.take_succ_cons, List.foldl_cons] at this ⊢
                refine ⟨this.1, ?_⟩
                have h3 := this.2
                rw [hc] at h3
                simp only [List.length_cons]
                omega
          · rw [accepted_bits_cons, if_pos (by omega)]
            rw [hl] at u4
            rw [u4, slice_of_level, hx0]
            simp only [Nat.one_ne_zero, if_false, List.map_cons, Bool.toNat_true, List.cons.injEq,
              true_and]
            exact i2
          · simpa using i3
          · simpa using i4
          · simpa [nrzi_last] using i5
          · simp only [List.foldl_cons, Bool.toNat_true]
            rw [i6, u1]

/-! ## Receiver runs that do not end the frame -/

theorem rx_steps_packet_rx (endFlag : Nat) (xs : List Int) :
    ∀ w : World, (rx_steps endFlag w xs).demod.packet_rx = xs.foldl rx_update w.demod.packet_rx := by
  induction xs with
  | nil => intro w; rfl
  | cons x rest ih =>
    intro w
    simp only [rx_steps, List.foldl_cons] at ih ⊢
    rw [ih, rx_sample_packet_rx]

theorem rx_sample_no_end (endFlag : Nat) (w : World) (x : Int)
    (h : rx_frame_end endFlag (rx_update w.demod.packet_rx x) = false) :
    _ais_demod_packet_rx_sample endFlag w x
      = { w with demod := { w.demod with packet_rx := rx_update w.demod.packet_rx x } } := by
  unfold _ais_demod_packet_rx_sample
  dsimp only
  rw [if_neg (by rw [h]; exact Bool.false_ne_true)]

theorem rx_steps_no_end (endFlag : Nat) (xs : List Int) :
    ∀ w : World,
      (∀ j, 1 ≤ j → j ≤ xs.length →
        rx_frame_end endFlag ((xs.take j).foldl rx_update w.demod.packet_rx) = false) →
      rx_steps endFlag w xs
        = { w with demod := { w.demod with packet_rx := xs.foldl rx_update w.demod.packet_rx } } := by
  induction xs with
  | nil => intro w _; rfl
  | cons x rest ih =>
    intro w h
    have h1 := h 1 (Nat.le_refl _) (by simp)
    simp only [List.take_succ_cons, List.take_zero, List.foldl_cons, List.foldl_nil] at h1
    have hstep := rx_sample_no_end endFlag w x h1
    have hrest : ∀ j, 1 ≤ j → j ≤ rest.length →
        rx_frame_end endFlag ((rest.take j).foldl rx_update
          (_ais_demod_packet_rx_sample endFlag w x).demod.packet_rx) = false := by
      intro j hj1 hj2
      have := h (j + 1) (by omega) (by simpa using hj2)
      rw [hstep]
      simpa using this
    have := ih (_ais_demod_packet_rx_sample endFlag w x) hrest
    simp only [rx_steps, List.foldl_cons] at this ⊢
    rw [this, hstep]

theorem rx_frame_end_false (endFlag : Nat) (rx : ais_demod_rx) (h1 : rx.raw_shr ≠ endFlag)
    (h2 : rx.current_bit ≠ 1280) : rx_frame_end endFlag rx = false := by
  unfold rx_frame_end
  simp [h1, h2]

theorem rx_frame_end_false_cb (endFlag : Nat) (rx : ais_demod_rx)
    (h : rx_frame_end endFlag rx = false) : rx.current_bit ≠ 1280 := by
  unfold rx_frame_end at h
  intro hc
  simp [hc] at h

theorem packet_bit_zero_packet (n k : Nat) : packet_bit (List.replicate n 0) k = 0 := by
  unfold packet_bit
  have : (List.replicate n 0).getD (k / 8) 0 = 0 := by
    rw [List.getD_eq_getElem?_getD, List.getElem?_replicate]
    split <;> rfl
  rw [this]
  simp

/-- C7: packet bit order.  From a receiver reset, after any receiver steps
none of which ended the frame, `current_bit` is the number of accepted bits,
the packet bit `(packet[k / 8] >> (k % 8)) & 1` is the `k`-th accepted bit for
every `k < current_bit`, and every packet bit at or above `current_bit` is 0. -/
theorem packet_bit_order (endFlag : Nat) (w : World) (rx0 : ais_demod_rx) (xs : List Int)
    (hreset : w.demod.packet_rx = _ais_demod_rx_reset rx0)
    (hnoend : ∀ j, 1 ≤ j → j ≤ xs.length →
      rx_frame_end endFlag (rx_steps endFlag w (xs.take j)).demod.packet_rx = false) :
    (rx_steps endFlag w xs).demod.packet_rx.current_bit
        = (accepted_bits 0 rx0.last_sample xs).length ∧
      (∀ k, k < (rx_steps endFlag w xs).demod.packet_rx.current_bit →
        packet_bit (rx_steps endFlag w xs).demod.packet_rx.packet k
          = (accepted_bits 0 rx0.last_sample xs).getD k 0) ∧
      (∀ k, (rx_steps endFlag w xs).demod.packet_rx.current_bit ≤ k →
        packet_bit (rx_steps endFlag w xs).demod.packet_rx.packet k = 0) := by
  have hne : ∀ j, 1 ≤ j → j ≤ xs.length →
      ((xs.take j).foldl rx_update w.demod.packet_rx).current_bit ≠ 1280 := by
    intro j h1 h2
    have := hnoend j h1 h2
    rw [rx_steps_packet_rx] at this
    exact rx_frame_end_false_cb endFlag _ this
  have hz : ∀ k, w.demod.packet_rx.current_bit ≤ k → packet_bit w.demod.packet_rx.packet k = 0 := by
    intro k _
    rw [hreset]
    exact packet_bit_zero_packet _ k
  obtain ⟨_, i2, _, i4, i5⟩ := rx_fold_bits xs w.demod.packet_rx
    (by rw [hreset]; rfl) (by rw [hreset]; show 0 < 1280; norm_num) hz hne
  have hcb : w.demod.packet_rx.current_bit = 0 := by rw [hreset]; rfl
  have hones : w.demod.packet_rx.nr_ones = 0 := by rw [hreset]; rfl
  have hlast : w.demod.packet_rx.last_sample = rx0.last_sample := by rw [hreset]; rfl
  rw [hcb, hones, hlast] at i2 i4
  rw [rx_steps_packet_rx]
  refine ⟨by simpa using i2, ?_, i5⟩
  intro k hk
  have := i4 k (by rw [i2] at hk; simpa using hk)
  simpa using this

theorem packet_bit_order_witness :
    (example_rx_world.demod.packet_rx = _ais_demod_rx_reset example_rx_world.demod.packet_rx ∧
      ∀ j, 1 ≤ j → j ≤ ([1, -1, -1] : List Int).length →
        rx_frame_end 0x7e
          (rx_steps 0x7e example_rx_world (([1, -1, -1] : List Int).take j)).demod.packet_rx = false) ∧
    ((rx_steps 0x7e example_rx_world [1, -1, -1]).demod.packet_rx.current_bit
        = (accepted_bits 0 example_rx_world.demod.packet_rx.last_sample [1, -1, -1]).length ∧
      (∀ k, k < (rx_steps 0x7e example_rx_world [1, -1, -1]).demod.packet_rx.current_bit →
        packet_bit (rx_steps 0x7e example_rx_world [1, -1, -1]).demod.packet_rx.packet k
          = (accepted_bits 0 example_rx_world.demod.packet_rx.last_sample [1, -1, -1]).getD k 0) ∧
      (∀ k, (rx_steps 0x7e example_rx_world [1, -1, -1]).demod.packet_rx.current_bit ≤ k →
        packet_bit (rx_steps 0x7e example_rx_world [1, -1, -1]).demod.packet_rx.packet k = 0)) :=
  have hnoend : ∀ j, 1 ≤ j → j ≤ ([1, -1, -1] : List Int).length →
      rx_frame_end 0x7e
        (rx_steps 0x7e example_rx_world (([1, -1, -1] : List Int).take j)).demod.packet_rx = false := by
    intro j h1 h2
    have h3 : j = 1 ∨ j = 2 ∨ j = 3 := by simp at h2; omega
    rcases h3 with h | h | h <;> subst h <;> decide
  ⟨⟨by decide, hnoend⟩,
    packet_bit_order 0x7e example_rx_world example_rx_world.demod.packet_rx [1, -1, -1]
      (by decide) hnoend⟩


/-- C5: bit-stuffing round trip.  From a freshly reset receiver whose previous
level is the seed level, with an end-flag word whose low byte is `0x7E`,
feeding the NRZI-encoded samples of `stuff p` for a bit list `p` of fewer than
1280 bits never ends the frame (state and callback log are untouched), and
afterwards `current_bit = |p|` and packet bits `0..|p|-1` are exactly `p`. -/
theorem bit_stuffing_round_trip (p : List Bool) (l0 : Bool) (endFlag : Nat) (w : World)
    (rx0 : ais_demod_rx) (xs : List Int)
    (hp : p.length < 1280) (he : endFlag % 256 = 0x7e)
    (hreset : w.demod.packet_rx = _ais_demod_rx_reset rx0) (hl : rx0.last_sample = l0.toNat)
    (hx : levels_of xs = nrzi_encode l0 (stuff p)) :
    (∀ j, 1 ≤ j → j ≤ xs.length →
      rx_frame_end endFlag (rx_steps endFlag w (xs.take j)).demod.packet_rx = false) ∧
      (rx_steps endFlag w xs).demod.state = w.demod.state ∧
      (rx_steps endFlag w xs).calls = w.calls ∧
      (rx_steps endFlag w xs).demod.packet_rx.current_bit = p.length ∧
      ∀ k (hk : k < p.length),
        packet_bit (rx_steps endFlag w xs).demod.packet_rx.packet k = (p.get ⟨k, hk⟩).toNat := by
  have hcb : w.demod.packet_rx.current_bit = 0 := by rw [hreset]; rfl
  have hones : w.demod.packet_rx.nr_ones = 0 := by rw [hreset]; rfl
  have hshr : w.demod.packet_rx.raw_shr = 0 := by rw [hreset]; rfl
  have hlast : w.demod.packet_rx.last_sample = l0.toNat := by rw [hreset]; exact hl
  obtain ⟨d1, d2, _, _, _, _⟩ := destuff p 0 l0 w.demod.packet_rx xs hones (by omega)
    (by rw [hshr]; rfl) hlast hx
  have hquiet : ∀ j, 1 ≤ j → j ≤ xs.length →
      rx_frame_end endFlag ((xs.take j).foldl rx_update w.demod.packet_rx) = false := by
    intro j h1 h2
    obtain ⟨a, b⟩ := d1 j h1 h2
    apply rx_frame_end_false
    · intro h; rw [h] at a; exact a he
    · rw [hcb] at b; omega
  have hz : ∀ k, w.demod.packet_rx.current_bit ≤ k → packet_bit w.demod.packet_rx.packet k = 0 := by
    intro k _
    rw [hreset]
    exact packet_bit_zero_packet _ k
  obtain ⟨_, i2, _, i4, _⟩ := rx_fold_bits xs w.demod.packet_rx
    (by rw [hreset]; rfl) (by rw [hreset]; show 0 < 1280; norm_num) hz
    (fun j h1 h2 => rx_frame_end_false_cb endFlag _ (hquiet j h1 h2))
  rw [hcb, hones, hlast, d2] at i2 i4
  have hrun := rx_steps_no_end endFlag xs w hquiet
  refine ⟨?_, ?_, ?_, ?_, ?_⟩
  · intro j h1 h2
    rw [rx_steps_packet_rx]
    exact hquiet j h1 h2
  · rw [hrun]
  · rw [hrun]
  · rw [rx_steps_packet_rx, i2]; simp
  · intro k hk
    have := i4 k (by simpa using hk)
    rw [rx_steps_packet_rx]
    simp only [Nat.zero_add] at this
    rw [this, List.getD_eq_getElem?_getD, List.getElem?_map, List.getElem?_eq_getElem hk]
    rfl

theorem bit_stuffing_round_trip_witness :
    (([true, true, true, true, true, true, false] : List Bool).length < 1280 ∧
      (0x7e : Nat) % 256 = 0x7e ∧
      example_rx_world.demod.packet_rx = _ais_demod_rx_reset example_rx_world.demod.packet_rx ∧
      example_rx_world.demod.packet_rx.last_sample = true.toNat ∧
      levels_of [1, 1, 1, 1, 1, -1, -1, 1]
        = nrzi_encode true (stuff [true, true, true, true, true, true, false])) ∧
    (rx_steps 0x7e example_rx_world [1, 1, 1, 1, 1, -1, -1, 1]).demod.packet_rx.current_bit = 7 :=
  ⟨⟨by decide, by decide, by decide, by decide, by decide⟩,
    (bit_stuffing_round_trip [true, true, true, true, true, true, false] true 0x7e
      example_rx_world example_rx_world.demod.packet_rx [1, 1, 1, 1, 1, -1, -1, 1]
      (by decide) (by decide) (by decide) (by decide) (by decide)).2.2.2.1⟩

/-! ## Counting bits -/

theorem and_pred_odd (q : Nat) : (2 * q + 1) &&& (2 * q + 1 - 1) = 2 * q := by
  apply Nat.eq_of_testBit_eq
  intro i
  have h : 2 * q + 1 - 1 = 2 * q := by omega
  rw [h, Nat.testBit_and]
  cases i with
  | zero => simp [Nat.testBit_zero]
  | succ i =>
    rw [Nat.testBit_add_one, Nat.testBit_add_one]
    have h1 : (2 * q + 1) / 2 = q := by omega
    have h2 : 2 * q / 2 = q := by omega
    rw [h1, h2, Bool.and_self]

theorem and_pred_even (q : Nat) (hq : 0 < q) : (2 * q) &&& (2 * q - 1) = 2 * (q &&& (q - 1)) := by
  apply Nat.eq_of_testBit_eq
  intro i
  rw [Nat.testBit_and]
  cases i with
  | zero =>
    have h1 : (2 * q) % 2 = 0 := by omega
    have h2 : (2 * (q &&& (q - 1))) % 2 = 0 := by omega
    simp [Nat.testBit_zero, h1, h2]
  | succ i =>
    rw [Nat.testBit_add_one, Nat.testBit_add_one, Nat.testBit_add_one]
    have h1 : 2 * q / 2 = q := by omega
    have h2 : (2 * q - 1) / 2 = q - 1 := by omega
    have h3 : 2 * (q &&& (q - 1)) / 2 = q &&& (q - 1) := by omega
    rw [h1, h2, h3, Nat.testBit_and]

theorem popcount_bits_and_pred (n : Nat) :
    ∀ x, 0 < x → x < 2 ^ n → popcount_bits n (x &&& (x - 1)) + 1 = popcount_bits n x := by
  induction n with
  | zero => intro x h0 h1; simp at h1; omega
  | succ n ih =>
    intro x h0 h1
    have hx : x = 2 * (x / 2) + x % 2 := by omega
    rcases Nat.mod_two_eq_zero_or_one x with hr | hr
    · have hq : 0 < x / 2 := by omega
      have hq2 : x / 2 < 2 ^ n := by
        rw [Nat.pow_succ] at h1; omega
      have hx' : x = 2 * (x / 2) := by omega
      have e := and_pred_even (x / 2) hq
      rw [← hx'] at e
      rw [e]
      simp only [popcount_bits]
      have a1 : 2 * (x / 2 &&& (x / 2 - 1)) % 2 = 0 := by omega
      have a2 : 2 * (x / 2 &&& (x / 2 - 1)) / 2 = x / 2 &&& (x / 2 - 1) := by omega
      rw [a1, a2, hr, Nat.zero_add, Nat.zero_add]
      exact ih _ hq hq2
    · have hx' : x = 2 * (x / 2) + 1 := by omega
      have e := and_pred_odd (x / 2)
      rw [← hx'] at e
      rw [e]
      simp only [popcount_bits]
      have a1 : 2 * (x / 2) % 2 = 0 := by omega
      have a2 : 2 * (x / 2) / 2 = x / 2 := by omega
      rw [a1, a2, hr]
      omega

theorem popcount_bits_zero (n : Nat) : popcount_bits n 0 = 0 := by
  induction n with
  | zero => rfl
  | succ n ih => simp [popcount_bits, ih]

theorem at_most_two_bits_iff (x : Nat) (hx : x < 2 ^ 64) :
    at_most_two_bits x = decide (popcountll x ≤ 2) := by
  unfold popcountll at_most_two_bits
  by_cases h0 : x = 0
  · subst h0
    rw [popcount_bits_zero]
    decide
  · have hx0 : 0 < x := Nat.pos_of_ne_zero h0
    have e1 := popcount_bits_and_pred 64 x hx0 hx
    have hy : x &&& (x - 1) < 2 ^ 64 := Nat.lt_of_le_of_lt Nat.and_le_left hx
    by_cases h1 : x &&& (x - 1) = 0
    · rw [h1] at e1 ⊢
      rw [popcount_bits_zero] at e1
      rw [← e1]
      decide
    · have hy0 : 0 < x &&& (x - 1) := Nat.pos_of_ne_zero h1
      have e2 := popcount_bits_and_pred 64 _ hy0 hy
      have hz : (x &&& (x - 1)) &&& ((x &&& (x - 1)) - 1) < 2 ^ 64 :=
        Nat.lt_of_le_of_lt Nat.and_le_left hy
      by_cases h2 : (x &&& (x - 1)) &&& ((x &&& (x - 1)) - 1) = 0
      · rw [h2] at e2 ⊢
        rw [popcount_bits_zero] at e2
        have : popcount_bits 64 x = 2 := by omega
        rw [this]
        decide
      · have hz0 := Nat.pos_of_ne_zero h2
        have e3 := popcount_bits_and_pred 64 _ hz0 hz
        have : ¬ popcount_bits 64 x ≤ 2 := by omega
        simp [h2, this]


/-! ## The detector on its own scratch -/

theorem getD_lt_of_all_lt (l : List Nat) (B i : Nat) (hB : 0 < B) (h : ∀ r ∈ l, r < B) :
    l.getD i 0 < B := by
  rw [List.getD_eq_getElem?_getD]
  by_cases hi : i < l.length
  · rw [List.getElem?_eq_getElem hi]
    exact h _ (List.getElem_mem hi)
  · rw [List.getElem?_eq_none (Nat.le_of_not_lt hi)]
    exact hB

theorem compare_quick (x : Nat) (hx : x < 2 ^ 32) :
    _ais_demod_compare x 0x5555557e 2 = at_most_two_bits (x ^^^ 0x5555557e) := by
  unfold _ais_demod_compare
  rw [at_most_two_bits_iff]
  exact Nat.xor_lt_two_pow (Nat.lt_of_lt_of_le hx (by norm_num)) (by norm_num)

theorem nr_match_quick_eq (preambles : List Nat) (h : ∀ r ∈ preambles, r < 2 ^ 32) :
    nr_match preambles = nr_match_quick preambles := by
  unfold nr_match nr_match_quick
  have hf : (fun n i => if _ais_demod_compare (preambles.getD i 0) 0x5555557e 2 = true
        then n + 1 else n)
      = (fun n i => if at_most_two_bits (preambles.getD i 0 ^^^ 0x5555557e) = true
        then n + 1 else n) := by
    funext n i
    rw [compare_quick _ (getD_lt_of_all_lt preambles _ i (by norm_num) h)]
  rw [hf]

theorem detect_next_bounded (det : ais_demod_detect) (l : Nat) (h : detect_bounded det) :
    detect_bounded (detect_next det l) := by
  intro r hr
  simp only [detect_next] at hr
  rcases List.mem_or_eq_of_mem_set hr with h1 | h1
  · exact h r h1
  · rw [h1]
    have a1 : (det.preambles.getD det.next_field 0 <<< 1) % 2 ^ 32 < 2 ^ 32 :=
      Nat.mod_lt _ (Nat.two_pow_pos 32)
    have a2 : nrzi_bit (det.prior_sample.getD det.next_field 0) l < 2 ^ 32 :=
      Nat.lt_of_le_of_lt (nrzi_bit_le_one _ _) (Nat.one_lt_two_pow (by norm_num))
    exact @Nat.or_lt_two_pow _ _ 32 a1 a2

theorem first_lock_quick_eq (ls : List Bool) :
    ∀ det, detect_bounded det → first_lock det ls = first_lock_quick det ls := by
  induction ls with
  | nil => intro det _; rfl
  | cons l rest ih =>
    intro det hb
    have hb1 := detect_next_bounded det l.toNat hb
    have e1 := nr_match_quick_eq (detect_next det l.toNat).preambles hb1
    have e2 := ih (detect_next det l.toNat) hb1
    simp only [first_lock, first_lock_quick, detect_locks, e1, e2]

/-! ## The dispatcher on levels -/

theorem slice_pcm (l : Bool) : slice (pcm_of_level l) = l.toNat := by
  cases l <;> rfl

theorem levels_of_pcm (ls : List Bool) : levels_of (ls.map pcm_of_level) = ls := by
  induction ls with
  | nil => rfl
  | cons l rest ih =>
    simp only [levels_of, List.map_cons] at ih ⊢
    rw [ih]
    cases l <;> rfl

theorem fold_levels (endFlag : Nat) (xs : List Int) :
    ∀ w : World, xs.foldl (per_sample_rule endFlag) w = step_levels endFlag w (levels_of xs) := by
  induction xs with
  | nil => intro w; rfl
  | cons x rest ih =>
    intro w
    have hx : (0 < x ↔ 0 < pcm_of_level (decide (x > 0))) := by
      by_cases h : x > 0
      · simp [h, pcm_of_level]
      · simp [h, pcm_of_level]
    simp only [step_levels, levels_of, List.map_cons, List.foldl_cons] at ih ⊢
    rw [ih, per_sample_rule_congr endFlag w hx]

theorem step_levels_append (endFlag : Nat) (w : World) (a b : List Bool) :
    step_levels endFlag w (a ++ b) = step_levels endFlag (step_levels endFlag w a) b := by
  simp only [step_levels, List.foldl_append]

theorem step_levels_cons (endFlag : Nat) (w : World) (l : Bool) (ls : List Bool) :
    step_levels endFlag w (l :: ls)
      = step_levels endFlag (per_sample_rule endFlag w (pcm_of_level l)) ls := rfl

/-! ## Detection seen from the dispatcher -/

theorem detect_handle_eq (d : ais_demod) (s : Int) :
    _ais_demod_detect_handle_sample d s =
      { (if nr_match (detect_next d.detector (slice s)).preambles ≥ 3 then
            { d with
              state := ais_demod_state.RECEIVING
              sample_skip := 2
              packet_rx :=
                { _ais_demod_rx_reset d.packet_rx with
                  last_sample :=
                    (detect_next d.detector (slice s)).prior_sample.getD d.detector.next_field 0 } }
          else d) with
        detector := detect_next d.detector (slice s) } := rfl

theorem step_search_quiet (endFlag : Nat) (w : World) (l : Bool)
    (hs : w.demod.state = ais_demod_state.SEARCH_SYNC)
    (hq : detect_locks w.demod.detector l.toNat = false) :
    per_sample_rule endFlag w (pcm_of_level l)
      = { w with demod := { w.demod with detector := detect_next w.demod.detector l.toNat } } := by
  have hn : ¬ nr_match (detect_next w.demod.detector l.toNat).preambles ≥ 3 := by
    simpa [detect_locks] using hq
  unfold per_sample_rule
  rw [hs]
  dsimp only
  rw [detect_handle_eq, slice_pcm, if_neg hn]

theorem step_search_lock (endFlag : Nat) (w : World) (l : Bool)
    (hs : w.demod.state = ais_demod_state.SEARCH_SYNC)
    (hwf : detect_wf w.demod.detector)
    (hq : detect_locks w.demod.detector l.toNat = true) :
    per_sample_rule endFlag w (pcm_of_level l)
      = { w with
          demod :=
            { w.demod with
              state := ais_demod_state.RECEIVING
              sample_skip := 2
              packet_rx := { _ais_demod_rx_reset w.demod.packet_rx with last_sample := l.toNat }
              detector := detect_next w.demod.detector l.toNat } } := by
  have hn : nr_match (detect_next w.demod.detector l.toNat).preambles ≥ 3 := by
    simpa [detect_locks] using hq
  have hl := (detect_next_hit w.demod.detector l.toNat hwf).2
  unfold per_sample_rule
  rw [hs]
  dsimp only
  rw [detect_handle_eq, slice_pcm, if_pos hn, hl]

theorem quiet_run (endFlag : Nat) (ls : List Bool) :
    ∀ w : World, w.demod.state = ais_demod_state.SEARCH_SYNC →
      first_lock w.demod.detector ls = none →
      step_levels endFlag w ls
        = { w with demod := { w.demod with detector := detect_run w.demod.detector ls } } := by
  induction ls with
  | nil => intro w _ _; rfl
  | cons l rest ih =>
    intro w hs hf
    simp only [first_lock] at hf
    by_cases hq : detect_locks w.demod.detector l.toNat = true
    · rw [if_pos hq] at hf; exact absurd hf (by simp)
    · rw [if_neg hq] at hf
      have hq' : detect_locks w.demod.detector l.toNat = false := by simpa using hq
      have hf' : first_lock (detect_next w.demod.detector l.toNat) rest = none := by
        simpa using hf
      rw [step_levels_cons, step_search_quiet endFlag w l hs hq']
      rw [ih { w with demod := { w.demod with detector := detect_next w.demod.detector l.toNat } }
        hs hf']
      rfl

theorem lock_run (endFlag : Nat) (ls : List Bool) :
    ∀ (w : World) (k : Nat), w.demod.state = ais_demod_state.SEARCH_SYNC →
      detect_wf w.demod.detector →
      first_lock w.demod.detector ls = some k →
      ∃ l, ls[k]? = some l ∧
        step_levels endFlag w (ls.take (k + 1))
          = { w with
              demod :=
                { w.demod with
                  state := ais_demod_state.RECEIVING
                  sample_skip := 2
                  packet_rx := { _ais_demod_rx_reset w.demod.packet_rx with last_sample := l.toNat }
                  detector := detect_run w.demod.detector (ls.take (k + 1)) } } := by
  induction ls with
  | nil => intro w k _ _ hf; simp [first_lock] at hf
  | cons l rest ih =>
    intro w k hs hwf hf
    simp only [first_lock] at hf
    by_cases hq : detect_locks w.demod.detector l.toNat = true
    · rw [if_pos hq] at hf
      have hk : k = 0 := by simpa using hf.symm
      subst hk
      refine ⟨l, by simp, ?_⟩
      simp only [Nat.zero_add, List.take_succ_cons, List.take_zero]
      rw [step_levels_cons, step_search_lock endFlag w l hs hwf hq]
      rfl
    · rw [if_neg hq] at hf
      have hq' : detect_locks w.demod.detector l.toNat = false := by simpa using hq
      cases hfl : first_lock (detect_next w.demod.detector l.toNat) rest with
      | none => rw [hfl] at hf; simp at hf
      | some k' =>
        rw [hfl] at hf
        have hk : k = k' + 1 := by simpa using hf.symm
        subst hk
        have hwf1 := detect_next_wf w.demod.detector l.toNat hwf
        obtain ⟨l', h1, h2⟩ := ih
          { w with demod := { w.demod with detector := detect_next w.demod.detector l.toNat } }
          k' hs hwf1 hfl
        refine ⟨l', by simpa using h1, ?_⟩
        rw [List.take_succ_cons, step_levels_cons, step_search_quiet endFlag w l hs hq', h2]
        rfl

theorem first_lock_append (ls rest : List Bool) :
    ∀ (det : ais_demod_detect) (k : Nat), first_lock det ls = some k →
      first_lock det (ls ++ rest) = some k := by
  induction ls with
  | nil => intro det k hf; simp [first_lock] at hf
  | cons l tl ih =>
    intro det k hf
    rw [List.cons_append]
    simp only [first_lock] at hf ⊢
    by_cases hq : detect_locks det l.toNat = true
    · rw [if_pos hq] at hf ⊢; exact hf
    · rw [if_neg hq] at hf ⊢
      cases hfl : first_lock (detect_next det l.toNat) tl with
      | none => rw [hfl] at hf; simp at hf
      | some k' =>
        rw [hfl] at hf
        rw [ih _ k' hfl]
        exact hf

/-! ## Reception seen from the dispatcher -/

theorem step_rx_skip (endFlag : Nat) (w : World) (x : Int)
    (hs : w.demod.state = ais_demod_state.RECEIVING) (hk : w.demod.sample_skip % 5 ≠ 0) :
    per_sample_rule endFlag w x = set_skip w (w.demod.sample_skip + 1) := by
  unfold per_sample_rule
  rw [hs]
  dsimp only
  rw [if_neg hk]
  rfl

theorem step_rx_quiet (endFlag : Nat) (w : World) (x : Int)
    (hs : w.demod.state = ais_demod_state.RECEIVING) (hk : w.demod.sample_skip % 5 = 0)
    (hq : rx_frame_end endFlag (rx_update w.demod.packet_rx x) = false) :
    per_sample_rule endFlag w x
      = set_rx (set_skip w (w.demod.sample_skip + 1)) (rx_update w.demod.packet_rx x) := by
  unfold per_sample_rule
  rw [hs]
  dsimp only
  rw [if_pos hk]
  exact rx_sample_no_end endFlag (set_skip w (w.demod.sample_skip + 1)) x hq

theorem step_rx_end (endFlag : Nat) (w : World) (x : Int)
    (hs : w.demod.state = ais_demod_state.RECEIVING) (hk : w.demod.sample_skip % 5 = 0)
    (hq : rx_frame_end endFlag (rx_update w.demod.packet_rx x) = true) :
    per_sample_rule endFlag w x
      = rx_finish (set_rx (set_skip w (w.demod.sample_skip + 1)) (rx_update w.demod.packet_rx x)) := by
  unfold per_sample_rule
  rw [hs]
  dsimp only
  rw [if_pos hk]
  unfold _ais_demod_packet_rx_sample
  dsimp only
  rw [if_pos hq]
  rfl

theorem rx_run_cons (rx : ais_demod_rx) (l : Bool) (ls : List Bool) :
    rx_run rx (l :: ls) = rx_run (rx_update rx (pcm_of_level l)) ls := rfl

theorem set_skip_set_skip (w : World) (a b : Nat) : set_skip (set_skip w a) b = set_skip w b := rfl

theorem set_skip_state (w : World) (a : Nat) : (set_skip w a).demod.state = w.demod.state := rfl

theorem set_skip_skip (w : World) (a : Nat) : (set_skip w a).demod.sample_skip = a := rfl

theorem set_skip_rx (w : World) (a : Nat) : (set_skip w a).demod.packet_rx = w.demod.packet_rx := rfl

theorem set_rx_skip (w : World) (rx : ais_demod_rx) :
    (set_rx w rx).demod.sample_skip = w.demod.sample_skip := rfl

theorem set_rx_set_skip_set_rx (w : World) (rx rx' : ais_demod_rx) (a : Nat) :
    set_rx (set_skip (set_rx w rx) a) rx' = set_rx (set_skip w a) rx' := rfl

theorem fresh_detect_wf : detect_wf fresh_detect := ⟨rfl, rfl, by decide⟩

theorem fresh_detect_bounded : detect_bounded fresh_detect := by
  intro r hr
  simp only [fresh_detect, List.mem_cons, List.mem_singleton, List.not_mem_nil, or_false,
    or_self] at hr
  rw [hr]; norm_num

/-! ## Whole runs -/

theorem quick_rule_eq (endFlag : Nat) (w : World) (l : Bool)
    (hb : detect_bounded w.demod.detector) :
    quick_rule endFlag w l = per_sample_rule endFlag w (pcm_of_level l) := by
  rcases state_cases w.demod.state with hs | hs
  · have e := nr_match_quick_eq _ (detect_next_bounded w.demod.detector l.toNat hb)
    unfold quick_rule per_sample_rule
    rw [hs]
    dsimp only
    rw [detect_handle_eq, slice_pcm, e]
    split <;> rfl
  · unfold quick_rule
    rw [hs]

theorem finish_detector (w : World) : (rx_finish w).demod.detector = fresh_detect := rfl

theorem rule_bounded (endFlag : Nat) (w : World) (x : Int)
    (hb : detect_bounded w.demod.detector) :
    detect_bounded (per_sample_rule endFlag w x).demod.detector := by
  rcases state_cases w.demod.state with hs | hs
  · have e : (per_sample_rule endFlag w x).demod.detector
        = detect_next w.demod.detector (slice x) := by
      unfold per_sample_rule
      rw [hs]
      exact detect_handle_detector w.demod x
    rw [e]
    exact detect_next_bounded _ _ hb
  · by_cases hk : w.demod.sample_skip % 5 = 0
    · cases hq : rx_frame_end endFlag (rx_update w.demod.packet_rx x)
      · rw [step_rx_quiet endFlag w x hs hk hq]
        exact hb
      · rw [step_rx_end endFlag w x hs hk hq, finish_detector]
        exact fresh_detect_bounded
    · rw [step_rx_skip endFlag w x hs hk]
      exact hb

theorem quick_run_eq (endFlag : Nat) (ls : List Bool) :
    ∀ w : World, detect_bounded w.demod.detector →
      quick_run endFlag w ls = step_levels endFlag w ls := by
  induction ls with
  | nil => intro w _; rfl
  | cons l rest ih =>
    intro w hb
    have e := quick_rule_eq endFlag w l hb
    rw [step_levels_cons, ← ih _ (rule_bounded endFlag w (pcm_of_level l) hb), ← e]
    rfl

theorem quick_words_eq (endFlag : Nat) (ls : List Bool) :
    ∀ w : World, detect_bounded w.demod.detector →
      quick_words endFlag w ls = rx_words endFlag w ls := by
  induction ls with
  | nil => intro w _; rfl
  | cons l rest ih =>
    intro w hb
    have e := quick_rule_eq endFlag w l hb
    have e2 := ih _ (rule_bounded endFlag w (pcm_of_level l) hb)
    unfold quick_words rx_words
    rw [e, e2]

theorem new_world_bounded (freq : Nat) : detect_bounded (ais_demod_new freq).demod.detector :=
  fresh_detect_bounded

theorem step_same (e1 e2 : Nat) (w : World) (x : Int)
    (h : w.demod.state = ais_demod_state.RECEIVING → w.demod.sample_skip % 5 = 0 →
      (rx_update w.demod.packet_rx x).raw_shr ≠ e1 ∧
        (rx_update w.demod.packet_rx x).raw_shr ≠ e2) :
    per_sample_rule e1 w x = per_sample_rule e2 w x := by
  rcases state_cases w.demod.state with hs | hs
  · unfold per_sample_rule
    rw [hs]
  · by_cases hk : w.demod.sample_skip % 5 = 0
    · obtain ⟨h1, h2⟩ := h hs hk
      have q : rx_frame_end e1 (rx_update w.demod.packet_rx x)
          = rx_frame_end e2 (rx_update w.demod.packet_rx x) := by
        unfold rx_frame_end
        rw [decide_eq_false h1, decide_eq_false h2]
      cases hq : rx_frame_end e2 (rx_update w.demod.packet_rx x)
      · rw [step_rx_quiet e1 w x hs hk (by rw [q, hq]), step_rx_quiet e2 w x hs hk hq]
      · rw [step_rx_end e1 w x hs hk (by rw [q, hq]), step_rx_end e2 w x hs hk hq]
    · rw [step_rx_skip e1 w x hs hk, step_rx_skip e2 w x hs hk]

/-- An end-flag word that never occurs among the compared words gives the
same run as any other such word. -/
theorem same_run (e1 e2 : Nat) (ls : List Bool) :
    ∀ w : World, (∀ v ∈ rx_words e2 w ls, v ≠ e1 ∧ v ≠ e2) →
      step_levels e1 w ls = step_levels e2 w ls := by
  induction ls with
  | nil => intro w _; rfl
  | cons l rest ih =>
    intro w h
    have hstep : per_sample_rule e1 w (pcm_of_level l) = per_sample_rule e2 w (pcm_of_level l) := by
      apply step_same
      intro hs hk
      apply h
      unfold rx_words
      rw [if_pos ⟨hs, hk⟩]
      exact List.mem_cons_self _ _
    rw [step_levels_cons, step_levels_cons, hstep]
    apply ih
    intro v hv
    apply h
    unfold rx_words
    dsimp only
    split
    · exact List.mem_cons_of_mem _ hv
    · exact hv

/-! ## Scenario S3: the clean frame -/

theorem clean_preamble_lock (seed : Bool) :
    first_lock fresh_detect (upsample (nrzi_encode seed (training 24 ++ hdlc_flag))) = some 157 := by
  rw [first_lock_quick_eq _ _ fresh_detect_bounded]
  cases seed <;> decide!

theorem new_world_facts (freq : Nat) :
    (ais_demod_new freq).demod.state = ais_demod_state.SEARCH_SYNC ∧
      (ais_demod_new freq).demod.detector = fresh_detect ∧
      (ais_demod_new freq).calls = [] ∧ (ais_demod_new freq).demod.crc_rejects = 0 :=
  ⟨rfl, rfl, rfl, rfl⟩

theorem levels_of_pcm_stream (ls : List Bool) : levels_of (pcm_stream ls) = ls :=
  levels_of_pcm ls

theorem detect_loop_fold_width (W endFlag : Nat) (xs : List Int) :
    ∀ w : World, w.demod.state = ais_demod_state.SEARCH_SYNC →
      (detect_loop w xs).2.foldl (per_sample_rule_width W endFlag) (detect_loop w xs).1
          = xs.foldl (per_sample_rule_width W endFlag) w ∧
        (detect_loop w xs).2.length ≤ xs.length - 1 := by
  induction xs with
  | nil => intro w _; exact ⟨rfl, Nat.zero_le _⟩
  | cons s rest ih =>
    intro w hw
    have hstep : per_sample_rule_width W endFlag w s
        = { w with demod := _ais_demod_detect_handle_sample w.demod s } := by
      unfold per_sample_rule_width; rw [hw]
    rw [List.foldl_cons, hstep]
    unfold detect_loop
    dsimp only
    split
    · exact ⟨rfl, by simp⟩
    · rename_i hne
      have hs : ({ w with demod := _ais_demod_detect_handle_sample w.demod s } : World).demod.state
          = ais_demod_state.SEARCH_SYNC := by
        rcases state_cases (_ais_demod_detect_handle_sample w.demod s).state with h | h
        · exact h
        · exact absurd h hne
      obtain ⟨h1, h2⟩ := ih _ hs
      refine ⟨h1, ?_⟩
      simp only [List.length_cons, Nat.add_sub_cancel]
      exact Nat.le_trans h2 (Nat.sub_le _ _)

theorem rx_loop_fold_width (W endFlag : Nat) (xs : List Int) :
    ∀ w : World, w.demod.state = ais_demod_state.RECEIVING →
      (rx_loop_width W endFlag w xs).2.foldl (per_sample_rule_width W endFlag) (rx_loop_width W endFlag w xs).1
          = xs.foldl (per_sample_rule_width W endFlag) w ∧
        (rx_loop_width W endFlag w xs).2.length ≤ xs.length - 1 := by
  induction xs with
  | nil => intro w _; exact ⟨rfl, Nat.zero_le _⟩
  | cons s rest ih =>
    intro w hw
    rw [List.foldl_cons]
    unfold rx_loop_width per_sample_rule_width
    rw [hw]
    dsimp only [AIS_DECIMATION_RATE]
    by_cases hk : w.demod.sample_skip % 5 = 0
    · rw [if_pos hk, if_pos hk]
      split
      · exact ⟨rfl, by simp⟩
      · rename_i hne
        have hs : (_ais_demod_packet_rx_sample_width W endFlag
            { w with demod := { w.demod with sample_skip := w.demod.sample_skip + 1 } } s).demod.state
              = ais_demod_state.RECEIVING := by
          rcases state_cases (_ais_demod_packet_rx_sample_width W endFlag
            { w with demod := { w.demod with sample_skip := w.demod.sample_skip + 1 } } s).demod.state
            with h | h
          · exact absurd h hne
          · exact h
        obtain ⟨h1, h2⟩ := ih _ hs
        refine ⟨h1, ?_⟩
        simp only [List.length_cons, Nat.add_sub_cancel]
        exact Nat.le_trans h2 (Nat.sub_le _ _)
    · rw [if_neg hk, if_neg hk]
      obtain ⟨h1, h2⟩ := ih { w with demod := { w.demod with sample_skip := w.demod.sample_skip + 1 } } hw
      refine ⟨h1, ?_⟩
      simp only [List.length_cons, Nat.add_sub_cancel]
      exact Nat.le_trans h2 (Nat.sub_le _ _)

theorem on_pcm_while_fold_width (W endFlag : Nat) (fuel : Nat) :
    ∀ (w : World) (xs : List Int), xs.length ≤ fuel →
      on_pcm_while_width W endFlag fuel w xs = some (xs.foldl (per_sample_rule_width W endFlag) w) := by
  induction fuel with
  | zero =>
    intro w xs hlen
    have : xs = [] := List.length_eq_zero.mp (Nat.le_zero.mp hlen)
    subst this
    rfl
  | succ n ih =>
    intro w xs hlen
    cases xs with
    | nil => rfl
    | cons s rest =>
      have hrest : rest.length ≤ n := by simpa using hlen
      unfold on_pcm_while_width
      rcases state_cases w.demod.state with h | h
      · obtain ⟨h1, h2⟩ := detect_loop_fold_width W endFlag (s :: rest) w h
        simp only [h]
        rw [ih _ _ (by simp at h2; omega), h1]
      · obtain ⟨h1, h2⟩ := rx_loop_fold_width W endFlag (s :: rest) w h
        simp only [h]
        rw [ih _ _ (by simp at h2; omega), h1]

theorem on_pcm_fold_width (W endFlag : Nat) (w : World) (xs : List Int) :
    ais_demod_on_pcm_width W endFlag w xs = some (xs.foldl (per_sample_rule_width W endFlag) w) :=
  on_pcm_while_fold_width W endFlag xs.length w xs (Nat.le_refl _)

theorem per_sample_rule_width_32 (endFlag : Nat) (w : World) (x : Int) :
    per_sample_rule_width 32 endFlag w x = per_sample_rule endFlag w x := rfl

/-- With a register of 32 bits the receiver of any width is the 32-bit one. -/
theorem on_pcm_width_32 (endFlag : Nat) (w : World) (xs : List Int) :
    ais_demod_on_pcm_width 32 endFlag w xs = ais_demod_on_pcm endFlag w xs := by
  rw [on_pcm_fold_width, on_pcm_fold]
  have h : per_sample_rule_width 32 endFlag = per_sample_rule endFlag := by
    funext w x
    exact per_sample_rule_width_32 endFlag w x
  rw [h]

/-! ## Detection and reception seen from the dispatcher, any register width -/

theorem step_search (endFlag : Nat) (w : World) (x : Int)
    (hs : w.demod.state = ais_demod_state.SEARCH_SYNC) :
    per_sample_rule endFlag w x
      = { w with demod := _ais_demod_detect_handle_sample w.demod x } := by
  unfold per_sample_rule
  rw [hs]

theorem handle_no_lock (d : ais_demod) (x : Int)
    (h : nr_match (detect_next d.detector (slice x)).preambles < 3) :
    _ais_demod_detect_handle_sample d x
      = { d with detector := detect_next d.detector (slice x) } := by
  rw [detect_handle_eq, if_neg (by omega)]

theorem search_stays (endFlag : Nat) (xs : List Int) :
    ∀ w : World, w.demod.state = ais_demod_state.SEARCH_SYNC →
      (∀ k, 1 ≤ k → k ≤ xs.length →
        nr_match ((xs.take k).foldl (per_sample_rule endFlag) w).demod.detector.preambles < 3) →
      ∀ k, k ≤ xs.length →
        ((xs.take k).foldl (per_sample_rule endFlag) w).calls = w.calls ∧
          ((xs.take k).foldl (per_sample_rule endFlag) w).demod.crc_rejects
            = w.demod.crc_rejects ∧
          ((xs.take k).foldl (per_sample_rule endFlag) w).demod.packet_rx = w.demod.packet_rx ∧
          ((xs.take k).foldl (per_sample_rule endFlag) w).demod.sample_skip
            = w.demod.sample_skip ∧
          ((xs.take k).foldl (per_sample_rule endFlag) w).demod.state
            = ais_demod_state.SEARCH_SYNC := by
  induction xs with
  | nil =>
    intro w hs _ k hk
    have : k = 0 := by simpa using hk
    subst this
    exact ⟨rfl, rfl, rfl, rfl, hs⟩
  | cons x rest ih =>
    intro w hs h k hk
    cases k with
    | zero => exact ⟨rfl, rfl, rfl, rfl, hs⟩
    | succ k =>
      have h1 := h 1 (Nat.le_refl 1) (by simp)
      have e0 : (List.take 1 (x :: rest)).foldl (per_sample_rule endFlag) w
          = per_sample_rule endFlag w x := rfl
      rw [e0, step_search endFlag w x hs] at h1
      have h1' : nr_match (detect_next w.demod.detector (slice x)).preambles < 3 := by
        have e := detect_handle_detector w.demod x
        rw [← e]
        exact h1
      have e1 : per_sample_rule endFlag w x
          = { w with demod := { w.demod with detector := detect_next w.demod.detector (slice x) } } := by
        rw [step_search endFlag w x hs, handle_no_lock w.demod x h1']
      have hrest := ih
        { w with demod := { w.demod with detector := detect_next w.demod.detector (slice x) } }
        hs
        (by
          intro j hj1 hj2
          have := h (j + 1) (by omega) (by simpa using hj2)
          rw [List.take_succ_cons, List.foldl_cons, e1] at this
          exact this)
        k (by simpa using hk)
      rw [List.take_succ_cons, List.foldl_cons, e1]
      exact hrest

/-- C11: no preamble, no output.  When a block is pushed into a freshly
created demodulator and after no sample at least 3 of the 5 phase registers
are within 2 bits of `0x5555557e`, then after every sample the callback has
not been invoked, `crc_rejects` is 0, the receiver scratch and `sample_skip`
are as `ais_demod_new` left them, and the state is `SEARCH_SYNC`. -/
theorem no_preamble_no_output (endFlag freq : Nat) (xs : List Int)
    (h : ∀ k, 1 ≤ k → k ≤ xs.length →
      ∀ w, ais_demod_on_pcm endFlag (ais_demod_new freq) (xs.take k) = some w →
        nr_match w.demod.detector.preambles < 3) :
    ∀ k, k ≤ xs.length →
      ∃ w, ais_demod_on_pcm endFlag (ais_demod_new freq) (xs.take k) = some w ∧
        w.calls = [] ∧ w.demod.crc_rejects = 0 ∧
        w.demod.packet_rx = (ais_demod_new freq).demod.packet_rx ∧
        w.demod.sample_skip = 0 ∧ w.demod.state = ais_demod_state.SEARCH_SYNC := by
  intro k hk
  have hq := search_stays endFlag xs (ais_demod_new freq) rfl
    (fun j hj1 hj2 => h j hj1 hj2 _ (on_pcm_fold endFlag _ _)) k hk
  exact ⟨_, on_pcm_fold endFlag _ _, hq⟩

set_option maxRecDepth 100000 in
theorem no_preamble_no_output_witness :
    (∀ k, 1 ≤ k → k ≤ ([3, -2, 5, 7, -1, -4, 2, -6, 1, 1, -3, 8] : List Int).length →
      ∀ w, ais_demod_on_pcm 0x7e (ais_demod_new 161975000)
          (([3, -2, 5, 7, -1, -4, 2, -6, 1, 1, -3, 8] : List Int).take k) = some w →
        nr_match w.demod.detector.preambles < 3) ∧
    ∀ k, k ≤ ([3, -2, 5, 7, -1, -4, 2, -6, 1, 1, -3, 8] : List Int).length →
      ∃ w, ais_demod_on_pcm 0x7e (ais_demod_new 161975000)
          (([3, -2, 5, 7, -1, -4, 2, -6, 1, 1, -3, 8] : List Int).take k) = some w ∧
        w.calls = [] ∧ w.demod.crc_rejects = 0 ∧
        w.demod.packet_rx = (ais_demod_new 161975000).demod.packet_rx ∧
        w.demod.sample_skip = 0 ∧ w.demod.state = ais_demod_state.SEARCH_SYNC :=
  have hall : ∀ k ∈ List.range 13,
      nr_match ((([3, -2, 5, 7, -1, -4, 2, -6, 1, 1, -3, 8] : List Int).take k).foldl
        (per_sample_rule 0x7e) (ais_demod_new 161975000)).demod.detector.preambles < 3 := by
    decide!
  have hyp : ∀ k, 1 ≤ k → k ≤ ([3, -2, 5, 7, -1, -4, 2, -6, 1, 1, -3, 8] : List Int).length →
      ∀ w, ais_demod_on_pcm 0x7e (ais_demod_new 161975000)
          (([3, -2, 5, 7, -1, -4, 2, -6, 1, 1, -3, 8] : List Int).take k) = some w →
        nr_match w.demod.detector.preambles < 3 := by
    intro k _ hk w hw
    rw [on_pcm_fold] at hw
    rw [← Option.some.inj hw]
    exact hall k (List.mem_range.2 (Nat.lt_succ_of_le hk))
  ⟨hyp, no_preamble_no_output 0x7e 161975000 [3, -2, 5, 7, -1, -4, 2, -6, 1, 1, -3, 8] hyp⟩

/-! ## Invariants of every run -/

theorem rx_update_current_bit (rx : ais_demod_rx) (x : Int) :
    rx.current_bit ≤ (rx_update rx x).current_bit ∧
      (rx_update rx x).current_bit ≤ rx.current_bit + 1 := by
  by_cases h : rx.nr_ones < 5
  · rw [(rx_update_accept rx x h).2]; omega
  · rw [(rx_update_drop rx x h).2]; omega

theorem rx_update_packet_length (rx : ais_demod_rx) (x : Int) :
    (rx_update rx x).packet.length = rx.packet.length := by
  by_cases h : rx.nr_ones < 5
  · rw [(rx_update_accept rx x h).1, List.length_set]
  · rw [(rx_update_drop rx x h).1]

theorem finish_packet_rx (w : World) : (rx_finish w).demod.packet_rx = w.demod.packet_rx := by
  unfold rx_finish
  dsimp only
  split_ifs <;> rfl

theorem finish_state (w : World) :
    (rx_finish w).demod.state = ais_demod_state.SEARCH_SYNC ∧
      (rx_finish w).demod.sample_skip = 0 := ⟨rfl, rfl⟩

theorem handle_lock (d : ais_demod) (x : Int)
    (h : nr_match (detect_next d.detector (slice x)).preambles ≥ 3) :
    _ais_demod_detect_handle_sample d x
      = { d with
          state := ais_demod_state.RECEIVING
          sample_skip := 2
          packet_rx :=
            { _ais_demod_rx_reset d.packet_rx with
              last_sample :=
                (detect_next d.detector (slice x)).prior_sample.getD d.detector.next_field 0 }
          detector := detect_next d.detector (slice x) } := by
  rw [detect_handle_eq, if_pos h]

/-- The invariant behind the frame-length bound: the packet buffer has 160
bytes, and in `RECEIVING` fewer than 1280 bits have been stored. -/
theorem frame_bound_step (endFlag : Nat) (w : World) (x : Int)
    (h1 : w.demod.packet_rx.packet.length = 160)
    (h2 : w.demod.state = ais_demod_state.RECEIVING → w.demod.packet_rx.current_bit < 1280) :
    (per_sample_rule endFlag w x).demod.packet_rx.packet.length = 160 ∧
      ((per_sample_rule endFlag w x).demod.state = ais_demod_state.RECEIVING →
        (per_sample_rule endFlag w x).demod.packet_rx.current_bit < 1280) := by
  rcases state_cases w.demod.state with hs | hs
  · rw [step_search endFlag w x hs]
    by_cases hm : nr_match (detect_next w.demod.detector (slice x)).preambles ≥ 3
    · rw [handle_lock w.demod x hm]
      exact ⟨by simp [_ais_demod_rx_reset, AIS_PACKET_BYTES], fun _ => by
        show (0 : Nat) < 1280
        norm_num⟩
    · rw [handle_no_lock w.demod x (by omega)]
      refine ⟨h1, fun hr => ?_⟩
      rw [show ({ w with demod := { w.demod with
        detector := detect_next w.demod.detector (slice x) } } : World).demod.state
          = w.demod.state from rfl, hs] at hr
      exact absurd hr (by decide)
  · have hb := rx_update_current_bit w.demod.packet_rx x
    have hcb := h2 hs
    by_cases hk : w.demod.sample_skip % 5 = 0
    · cases hq : rx_frame_end endFlag (rx_update w.demod.packet_rx x)
      · rw [step_rx_quiet endFlag w x hs hk hq]
        refine ⟨by
          show (rx_update w.demod.packet_rx x).packet.length = 160
          rw [rx_update_packet_length, h1], fun _ => ?_⟩
        show (rx_update w.demod.packet_rx x).current_bit < 1280
        have hne : (rx_update w.demod.packet_rx x).current_bit ≠ 1280 := by
          intro he
          unfold rx_frame_end at hq
          rw [he] at hq
          simp at hq
        omega
      · rw [step_rx_end endFlag w x hs hk hq]
        refine ⟨by
          rw [finish_packet_rx]
          show (rx_update w.demod.packet_rx x).packet.length = 160
          rw [rx_update_packet_length, h1], fun hr => ?_⟩
        rw [(finish_state _).1] at hr
        exact absurd hr (by decide)
    · rw [step_rx_skip endFlag w x hs hk]
      exact ⟨h1, fun _ => hcb⟩

theorem frame_bound_run (endFlag : Nat) (xs : List Int) :
    ∀ w : World, w.demod.packet_rx.packet.length = 160 →
      (w.demod.state = ais_demod_state.RECEIVING → w.demod.packet_rx.current_bit < 1280) →
      (xs.foldl (per_sample_rule endFlag) w).demod.packet_rx.packet.length = 160 ∧
        ((xs.foldl (per_sample_rule endFlag) w).demod.state = ais_demod_state.RECEIVING →
          (xs.foldl (per_sample_rule endFlag) w).demod.packet_rx.current_bit < 1280) := by
  induction xs with
  | nil => intro w h1 h2; exact ⟨h1, h2⟩
  | cons x rest ih =>
    intro w h1 h2
    obtain ⟨g1, g2⟩ := frame_bound_step endFlag w x h1 h2
    exact ih _ g1 g2

theorem new_packet_length (freq : Nat) :
    (ais_demod_new freq).demod.packet_rx.packet.length = 160 := by
  simp [ais_demod_new, _ais_demod_rx_reset, AIS_PACKET_BYTES]

/-- C12: after any block pushed into a freshly created demodulator, when the
state is `RECEIVING` then `current_bit <= 1280`, and indeed `current_bit <
1280`, so that the byte index `current_bit / 8` of the next receiver step is
inside the 160-byte packet buffer; and that receiver step leaves
`current_bit <= 1280`. -/
theorem current_bit_bound (endFlag freq : Nat) (xs : List Int) :
    ∃ w, ais_demod_on_pcm endFlag (ais_demod_new freq) xs = some w ∧
      w.demod.packet_rx.packet.length = 160 ∧
      (w.demod.state = ais_demod_state.RECEIVING →
        w.demod.packet_rx.current_bit ≤ 1280 ∧ w.demod.packet_rx.current_bit < 1280 ∧
          w.demod.packet_rx.current_bit / 8 < w.demod.packet_rx.packet.length ∧
          ∀ x : Int, (rx_update w.demod.packet_rx x).current_bit ≤ 1280) := by
  obtain ⟨g1, g2⟩ := frame_bound_run endFlag xs (ais_demod_new freq) (new_packet_length freq)
    (fun h => absurd h (by rw [(new_world_facts freq).1]; decide))
  refine ⟨_, on_pcm_fold endFlag _ _, g1, fun hr => ?_⟩
  have hlt := g2 hr
  refine ⟨Nat.le_of_lt hlt, hlt, by rw [g1]; omega, fun x => ?_⟩
  have := (rx_update_current_bit
    (xs.foldl (per_sample_rule endFlag) (ais_demod_new freq)).demod.packet_rx x).2
  omega

theorem finish_calls (w : World) :
    (rx_finish w).calls = w.calls ∨
      (4 ≤ w.demod.packet_rx.current_bit / 8 ∧
        (rx_finish w).calls = w.calls ++
          [{ payload := w.demod.packet_rx.packet.take (w.demod.packet_rx.current_bit / 8 - 2),
             len := w.demod.packet_rx.current_bit / 8 - 2, ok := true }]) := by
  unfold rx_finish
  dsimp only
  split_ifs with h4 hc
  · exact Or.inr ⟨h4, rfl⟩
  · exact Or.inl rfl
  · exact Or.inl rfl

theorem finish_count (w : World) :
    (rx_finish w).calls.length + (rx_finish w).demod.crc_rejects
      = w.calls.length + w.demod.crc_rejects
        + (if 4 ≤ w.demod.packet_rx.current_bit / 8 then 1 else 0) := by
  unfold rx_finish
  dsimp only
  split_ifs with h4 hc
  · simp only [List.length_append, List.length_singleton]
    omega
  · show w.calls.length + (w.demod.crc_rejects + 1) = _
    omega
  · rfl

/-- Outside the end of a frame a step leaves the callback log and
`crc_rejects` alone. -/
theorem step_quiet_calls (endFlag : Nat) (w : World) (x : Int)
    (h : ¬ (w.demod.state = ais_demod_state.RECEIVING ∧ w.demod.sample_skip % 5 = 0 ∧
      rx_frame_end endFlag (rx_update w.demod.packet_rx x) = true)) :
    (per_sample_rule endFlag w x).calls = w.calls ∧
      (per_sample_rule endFlag w x).demod.crc_rejects = w.demod.crc_rejects := by
  rcases state_cases w.demod.state with hs | hs
  · rw [step_search endFlag w x hs]
    by_cases hm : nr_match (detect_next w.demod.detector (slice x)).preambles ≥ 3
    · rw [handle_lock w.demod x hm]
      exact ⟨rfl, rfl⟩
    · rw [handle_no_lock w.demod x (by omega)]
      exact ⟨rfl, rfl⟩
  · by_cases hk : w.demod.sample_skip % 5 = 0
    · cases hq : rx_frame_end endFlag (rx_update w.demod.packet_rx x)
      · rw [step_rx_quiet endFlag w x hs hk hq]
        exact ⟨rfl, rfl⟩
      · exact absurd ⟨hs, hk, hq⟩ h
    · rw [step_rx_skip endFlag w x hs hk]
      exact ⟨rfl, rfl⟩

/-- What a well-formed callback invocation looks like. -/
theorem call_bound_step (endFlag : Nat) (w : World) (x : Int)
    (h1 : w.demod.packet_rx.packet.length = 160)
    (h2 : w.demod.state = ais_demod_state.RECEIVING → w.demod.packet_rx.current_bit < 1280)
    (h3 : ∀ c ∈ w.calls, 2 ≤ c.len ∧ c.len ≤ 158 ∧ c.payload.length = c.len ∧ c.ok = true) :
    ∀ c ∈ (per_sample_rule endFlag w x).calls,
      2 ≤ c.len ∧ c.len ≤ 158 ∧ c.payload.length = c.len ∧ c.ok = true := by
  by_cases h : w.demod.state = ais_demod_state.RECEIVING ∧ w.demod.sample_skip % 5 = 0 ∧
      rx_frame_end endFlag (rx_update w.demod.packet_rx x) = true
  · obtain ⟨hs, hk, hq⟩ := h
    have hcb := h2 hs
    have hb := (rx_update_current_bit w.demod.packet_rx x).2
    have hl := rx_update_packet_length w.demod.packet_rx x
    rw [step_rx_end endFlag w x hs hk hq]
    rcases finish_calls
      (set_rx (set_skip w (w.demod.sample_skip + 1)) (rx_update w.demod.packet_rx x)) with e | ⟨h4, e⟩
    · rw [e]; exact h3
    · rw [e]
      intro c hc
      rcases List.mem_append.1 hc with hc | hc
      · exact h3 c hc
      · rw [List.mem_singleton] at hc
        rw [hc]
        have h4' : 4 ≤ (rx_update w.demod.packet_rx x).current_bit / 8 := h4
        refine ⟨?_, ?_, ?_, rfl⟩
        · show 2 ≤ (rx_update w.demod.packet_rx x).current_bit / 8 - 2
          omega
        · show (rx_update w.demod.packet_rx x).current_bit / 8 - 2 ≤ 158
          omega
        · show ((rx_update w.demod.packet_rx x).packet.take
            ((rx_update w.demod.packet_rx x).current_bit / 8 - 2)).length = _
          rw [List.length_take, hl, h1]
          show min ((rx_update w.demod.packet_rx x).current_bit / 8 - 2) 160
            = (rx_update w.demod.packet_rx x).current_bit / 8 - 2
          omega
  · rw [(step_quiet_calls endFlag w x h).1]
    exact h3

theorem call_bound_run (endFlag : Nat) (xs : List Int) :
    ∀ w : World, w.demod.packet_rx.packet.length = 160 →
      (w.demod.state = ais_demod_state.RECEIVING → w.demod.packet_rx.current_bit < 1280) →
      (∀ c ∈ w.calls, 2 ≤ c.len ∧ c.len ≤ 158 ∧ c.payload.length = c.len ∧ c.ok = true) →
      ∀ c ∈ (xs.foldl (per_sample_rule endFlag) w).calls,
        2 ≤ c.len ∧ c.len ≤ 158 ∧ c.payload.length = c.len ∧ c.ok = true := by
  induction xs with
  | nil => intro w _ _ h3; exact h3
  | cons x rest ih =>
    intro w h1 h2 h3
    obtain ⟨g1, g2⟩ := frame_bound_step endFlag w x h1 h2
    exact ih _ g1 g2 (call_bound_step endFlag w x h1 h2 h3)

/-- C15: after any block pushed into a freshly created demodulator, every
callback invocation made has a payload length of at least 2 and at most
`1280 / 8 - 2 = 158` bytes (and carries that many bytes, with the flag true). -/
theorem callback_length_bound (endFlag freq : Nat) (xs : List Int) :
    ∃ w, ais_demod_on_pcm endFlag (ais_demod_new freq) xs = some w ∧
      ∀ c ∈ w.calls, 2 ≤ c.len ∧ c.len ≤ 1280 / 8 - 2 ∧ c.payload.length = c.len ∧
        c.ok = true :=
  ⟨_, on_pcm_fold endFlag _ _,
    call_bound_run endFlag xs (ais_demod_new freq) (new_packet_length freq)
      (fun h => absurd h (by rw [(new_world_facts freq).1]; decide))
      (fun c hc => absurd hc (by rw [(new_world_facts freq).2.2.1]; exact List.not_mem_nil c))⟩

theorem exits_step (endFlag : Nat) (w : World) (x : Int) :
    (per_sample_rule endFlag w x).calls.length + (per_sample_rule endFlag w x).demod.crc_rejects
      = w.calls.length + w.demod.crc_rejects +
        (if w.demod.state = ais_demod_state.RECEIVING ∧ w.demod.sample_skip % 5 = 0 ∧
          rx_frame_end endFlag (rx_update w.demod.packet_rx x) = true ∧
          4 ≤ (rx_update w.demod.packet_rx x).current_bit / 8 then 1 else 0) := by
  by_cases h : w.demod.state = ais_demod_state.RECEIVING ∧ w.demod.sample_skip % 5 = 0 ∧
      rx_frame_end endFlag (rx_update w.demod.packet_rx x) = true
  · obtain ⟨hs, hk, hq⟩ := h
    rw [step_rx_end endFlag w x hs hk hq, finish_count]
    show w.calls.length + w.demod.crc_rejects
        + (if 4 ≤ (rx_update w.demod.packet_rx x).current_bit / 8 then 1 else 0) = _
    by_cases h4 : 4 ≤ (rx_update w.demod.packet_rx x).current_bit / 8
    · rw [if_pos h4, if_pos ⟨hs, hk, hq, h4⟩]
    · rw [if_neg h4, if_neg (fun hh => h4 hh.2.2.2)]
  · obtain ⟨e1, e2⟩ := step_quiet_calls endFlag w x h
    rw [e1, e2, if_neg (fun hh => h ⟨hh.1, hh.2.1, hh.2.2.1⟩)]
    rfl

theorem exits_run (endFlag : Nat) (xs : List Int) :
    ∀ w : World,
      (xs.foldl (per_sample_rule endFlag) w).calls.length
          + (xs.foldl (per_sample_rule endFlag) w).demod.crc_rejects
        = w.calls.length + w.demod.crc_rejects + rx_exits endFlag w xs := by
  induction xs with
  | nil => intro w; rfl
  | cons x rest ih =>
    intro w
    have e : rx_exits endFlag w (x :: rest)
        = (if w.demod.state = ais_demod_state.RECEIVING ∧ w.demod.sample_skip % 5 = 0 ∧
            rx_frame_end endFlag (rx_update w.demod.packet_rx x) = true ∧
            4 ≤ (rx_update w.demod.packet_rx x).current_bit / 8 then 1 else 0)
          + rx_exits endFlag (per_sample_rule endFlag w x) rest := rfl
    rw [List.foldl_cons, ih, exits_step, e]
    omega

/-- C16: after any block pushed into a freshly created demodulator, the number
of callback invocations plus `crc_rejects` (a counter without overflow) equals
the number of times `RECEIVING` was exited with `current_bit / 8 >= 4`. -/
theorem callbacks_plus_rejects (endFlag freq : Nat) (xs : List Int) :
    ∃ w, ais_demod_on_pcm endFlag (ais_demod_new freq) xs = some w ∧
      w.calls.length + w.demod.crc_rejects = rx_exits endFlag (ais_demod_new freq) xs := by
  refine ⟨_, on_pcm_fold endFlag _ _, ?_⟩
  rw [exits_run, (new_world_facts freq).2.2.1, (new_world_facts freq).2.2.2]
  simp

/-! ## The run counter `nr_ones` -/

theorem ones_tracked_update (rx : ais_demod_rx) (x : Int) (h : ones_tracked rx) :
    ones_tracked (rx_update rx x) := by
  have hb := nrzi_bit_le_one rx.last_sample (slice x)
  have hr : (rx_update rx x).raw_shr
      = 2 * (rx.raw_shr % 2147483648) + nrzi_bit rx.last_sample (slice x) := by
    rw [rx_update_raw_shr, shift_in_eq _ _ hb]
  have hn := rx_update_nr_ones rx x
  unfold ones_tracked at h ⊢
  obtain ⟨h0, h1, h2, h3, h4, h5, h6⟩ := h
  rw [hr, hn]
  by_cases hz : nrzi_bit rx.last_sample (slice x) = 0
  · rw [if_pos hz, hz]
    refine ⟨?_, ?_, ?_, ?_, ?_, ?_, ?_⟩ <;> intro hh <;> omega
  · rw [if_neg hz]
    have h1b : nrzi_bit rx.last_sample (slice x) = 1 := by omega
    rw [h1b]
    refine ⟨?_, ?_, ?_, ?_, ?_, ?_, ?_⟩ <;> intro hh
    · omega
    · have := h0 (by omega); omega
    · have := h1 (by omega); omega
    · have := h2 (by omega); omega
    · have := h3 (by omega); omega
    · have := h4 (by omega); omega
    · rcases Nat.lt_or_ge rx.nr_ones 6 with hlt | hge
      · have := h5 (by omega); omega
      · have := h6 hge; omega

theorem ones_tracked_reset (rx : ais_demod_rx) (l : Nat) :
    ones_tracked { _ais_demod_rx_reset rx with last_sample := l } := by
  have hn : ({ _ais_demod_rx_reset rx with last_sample := l } : ais_demod_rx).nr_ones = 0 := rfl
  have hr : ({ _ais_demod_rx_reset rx with last_sample := l } : ais_demod_rx).raw_shr = 0 := rfl
  unfold ones_tracked
  rw [hn, hr]
  refine ⟨?_, ?_, ?_, ?_, ?_, ?_, ?_⟩ <;> intro hh <;> omega

theorem ones_tracked_step (endFlag : Nat) (w : World) (x : Int)
    (h : ones_tracked w.demod.packet_rx) :
    ones_tracked (per_sample_rule endFlag w x).demod.packet_rx := by
  rcases state_cases w.demod.state with hs | hs
  · rw [step_search endFlag w x hs]
    by_cases hm : nr_match (detect_next w.demod.detector (slice x)).preambles ≥ 3
    · rw [handle_lock w.demod x hm]
      exact ones_tracked_reset _ _
    · rw [handle_no_lock w.demod x (by omega)]
      exact h
  · by_cases hk : w.demod.sample_skip % 5 = 0
    · cases hq : rx_frame_end endFlag (rx_update w.demod.packet_rx x)
      · rw [step_rx_quiet endFlag w x hs hk hq]
        exact ones_tracked_update _ x h
      · rw [step_rx_end endFlag w x hs hk hq, finish_packet_rx]
        exact ones_tracked_update _ x h
    · rw [step_rx_skip endFlag w x hs hk]
      exact h

theorem ones_tracked_run (endFlag : Nat) (xs : List Int) :
    ∀ w : World, ones_tracked w.demod.packet_rx →
      ones_tracked (xs.foldl (per_sample_rule endFlag) w).demod.packet_rx := by
  induction xs with
  | nil => intro w h; exact h
  | cons x rest ih => intro w h; exact ih _ (ones_tracked_step endFlag w x h)

theorem ones_tracked_new (freq : Nat) : ones_tracked (ais_demod_new freq).demod.packet_rx := by
  have hn : (ais_demod_new freq).demod.packet_rx.nr_ones = 0 := rfl
  have hr : (ais_demod_new freq).demod.packet_rx.raw_shr = 0 := rfl
  unfold ones_tracked
  rw [hn, hr]
  refine ⟨?_, ?_, ?_, ?_, ?_, ?_, ?_⟩ <;> intro hh <;> omega

set_option maxRecDepth 100000 in
theorem flag_words :
    (quick_words (2 ^ 32) (ais_demod_new 0)
        (upsample (nrzi_encode false (s3_bits 24 payload_zero).dropLast))).all
      (fun v => decide (v ≠ 2 ^ 32) && decide (v % 256 ≠ 0x7e)) = true := by
  decide!

set_option maxRecDepth 100000 in
theorem flag_sixth_one :
    (quick_run (2 ^ 32) (ais_demod_new 0)
        (upsample (nrzi_encode false (s3_bits 24 payload_zero).dropLast))).demod.state
        = ais_demod_state.RECEIVING ∧
      (quick_run (2 ^ 32) (ais_demod_new 0)
        (upsample (nrzi_encode false (s3_bits 24 payload_zero).dropLast))).demod.packet_rx.nr_ones
        = 6 := by
  decide!

/-- C13, counterexample: the clean S3 stream of the all-zero payload (24
training bits, non-positive seed level) up to the sixth 1 bit of its closing
flag leaves the receiver in `RECEIVING` with `nr_ones = 6`, for the end-flag
word `0x7E` and for every end-flag word of low byte `0x7E`. -/
theorem nr_ones_bound_counterexample :
    (∃ w, ais_demod_on_pcm 0x7e (ais_demod_new 0)
        (pcm_stream (upsample (nrzi_encode false (s3_bits 24 payload_zero).dropLast))) = some w ∧
      w.demod.state = ais_demod_state.RECEIVING ∧ w.demod.packet_rx.nr_ones = 6) ∧
      ∀ endFlag : Nat, endFlag % 256 = 0x7e →
        ∃ w, ais_demod_on_pcm endFlag (ais_demod_new 0)
            (pcm_stream (upsample (nrzi_encode false (s3_bits 24 payload_zero).dropLast)))
              = some w ∧
          w.demod.state = ais_demod_state.RECEIVING ∧ w.demod.packet_rx.nr_ones = 6 := by
  have key : ∀ endFlag : Nat, endFlag % 256 = 0x7e →
      ∃ w, ais_demod_on_pcm endFlag (ais_demod_new 0)
          (pcm_stream (upsample (nrzi_encode false (s3_bits 24 payload_zero).dropLast)))
            = some w ∧
        w.demod.state = ais_demod_state.RECEIVING ∧ w.demod.packet_rx.nr_ones = 6 := by
    intro endFlag hlow
    have hw : ∀ v ∈ rx_words (2 ^ 32) (ais_demod_new 0)
        (upsample (nrzi_encode false (s3_bits 24 payload_zero).dropLast)),
          v ≠ endFlag ∧ v ≠ 2 ^ 32 := by
      intro v hv
      rw [← quick_words_eq _ _ _ (new_world_bounded 0)] at hv
      have hall := List.all_eq_true.1 flag_words v hv
      simp only [Bool.and_eq_true, decide_eq_true_eq] at hall
      exact ⟨fun hve => hall.2 (by rw [hve]; exact hlow), hall.1⟩
    rw [on_pcm_fold, fold_levels, levels_of_pcm_stream, same_run endFlag (2 ^ 32) _ _ hw,
      ← quick_run_eq _ _ _ (new_world_bounded 0)]
    exact ⟨_, rfl, flag_sixth_one⟩
  exact ⟨key 0x7e (by decide), key⟩

/-- C13 (amended): after any block pushed into a freshly created demodulator,
`nr_ones` is at most 5 exactly when the six most recently decoded bits, the
low six bits of `raw_shr`, are not all 1; after six or more consecutive 1
bits, as on a flag, `nr_ones` is 6 or more. -/
theorem nr_ones_bound (endFlag freq : Nat) (xs : List Int) :
    ∃ w, ais_demod_on_pcm endFlag (ais_demod_new freq) xs = some w ∧
      (w.demod.packet_rx.nr_ones ≤ 5 ↔ w.demod.packet_rx.raw_shr % 64 ≠ 63) := by
  refine ⟨_, on_pcm_fold endFlag _ _, ?_⟩
  have h := ones_tracked_run endFlag xs (ais_demod_new freq) (ones_tracked_new freq)
  unfold ones_tracked at h
  obtain ⟨h0, h1, h2, h3, h4, h5, h6⟩ := h
  constructor
  · intro hle
    rcases Nat.lt_or_ge
      (xs.foldl (per_sample_rule endFlag) (ais_demod_new freq)).demod.packet_rx.nr_ones 1
      with c | c
    · have := h0 (by omega); omega
    · have hc : (xs.foldl (per_sample_rule endFlag) (ais_demod_new freq)).demod.packet_rx.nr_ones
          = 1 ∨ (xs.foldl (per_sample_rule endFlag) (ais_demod_new freq)).demod.packet_rx.nr_ones
          = 2 ∨ (xs.foldl (per_sample_rule endFlag) (ais_demod_new freq)).demod.packet_rx.nr_ones
          = 3 ∨ (xs.foldl (per_sample_rule endFlag) (ais_demod_new freq)).demod.packet_rx.nr_ones
          = 4 ∨ (xs.foldl (per_sample_rule endFlag) (ais_demod_new freq)).demod.packet_rx.nr_ones
          = 5 := by omega
      rcases hc with c | c | c | c | c
      · have := h1 c; omega
      · have := h2 c; omega
      · have := h3 c; omega
      · have := h4 c; omega
      · have := h5 c; omega
  · intro hne
    by_contra hgt
    exact hne (h6 (by omega))

/-! ## Entering `SEARCH_SYNC` -/

/-- C14: on every entry to `SEARCH_SYNC` the detector scratch is zero: after
`ais_demod_new`, and after every step that takes a demodulator from
`RECEIVING` to `SEARCH_SYNC`, all five `preambles` and `prior_sample` entries
and `next_field` are 0; after such a step `sample_skip` is 0 as well. -/
theorem search_entry_scratch_zero (endFlag freq : Nat) (w : World) (x : Int)
    (hs : w.demod.state = ais_demod_state.RECEIVING)
    (hx : (per_sample_rule endFlag w x).demod.state = ais_demod_state.SEARCH_SYNC) :
    ((ais_demod_new freq).demod.state = ais_demod_state.SEARCH_SYNC ∧
      (ais_demod_new freq).demod.detector
        = { preambles := [0, 0, 0, 0, 0], prior_sample := [0, 0, 0, 0, 0], next_field := 0 }) ∧
      (per_sample_rule endFlag w x).demod.detector
        = { preambles := [0, 0, 0, 0, 0], prior_sample := [0, 0, 0, 0, 0], next_field := 0 } ∧
      (per_sample_rule endFlag w x).demod.sample_skip = 0 := by
  refine ⟨⟨rfl, rfl⟩, ?_⟩
  by_cases hk : w.demod.sample_skip % 5 = 0
  · cases hq : rx_frame_end endFlag (rx_update w.demod.packet_rx x)
    · rw [step_rx_quiet endFlag w x hs hk hq] at hx
      have : w.demod.state = ais_demod_state.SEARCH_SYNC := hx
      rw [hs] at this
      exact absurd this (by decide)
    · rw [step_rx_end endFlag w x hs hk hq]
      exact ⟨rfl, rfl⟩
  · rw [step_rx_skip endFlag w x hs hk] at hx
    have : w.demod.state = ais_demod_state.SEARCH_SYNC := hx
    rw [hs] at this
    exact absurd this (by decide)

theorem search_entry_scratch_zero_witness :
    (example_receiving_world.demod.state = ais_demod_state.RECEIVING ∧
      (per_sample_rule 1 example_receiving_world (-1)).demod.state
        = ais_demod_state.SEARCH_SYNC) ∧
    (((ais_demod_new 161975000).demod.state = ais_demod_state.SEARCH_SYNC ∧
      (ais_demod_new 161975000).demod.detector
        = { preambles := [0, 0, 0, 0, 0], prior_sample := [0, 0, 0, 0, 0], next_field := 0 }) ∧
      (per_sample_rule 1 example_receiving_world (-1)).demod.detector
        = { preambles := [0, 0, 0, 0, 0], prior_sample := [0, 0, 0, 0, 0], next_field := 0 } ∧
      (per_sample_rule 1 example_receiving_world (-1)).demod.sample_skip = 0) :=
  ⟨⟨by decide, by decide⟩,
    search_entry_scratch_zero 1 161975000 example_receiving_world (-1) (by decide) (by decide)⟩

/-! ## The detector lock rule -/

theorem count_fold (c : Nat → Bool) (l : List Nat) :
    ∀ n, l.foldl (fun n i => if c i then n + 1 else n) n = n + (l.filter c).length := by
  induction l with
  | nil => intro n; rfl
  | cons a rest ih =>
    intro n
    rw [List.foldl_cons, ih]
    cases h : c a
    · simp [List.filter, h]
    · simp [List.filter, h]; omega

theorem nr_match_count (preambles : List Nat) : nr_match preambles = near_reference preambles := by
  unfold nr_match near_reference _ais_demod_compare
  have h := count_fold (fun j => decide (popcountll (preambles.getD j 0 ^^^ 0x5555557e) ≤ 2))
    (List.range AIS_DECIMATION_RATE) 0
  rw [Nat.zero_add] at h
  exact h

/-- C17: the detector lock rule.  `_ais_demod_detect_handle_sample` shifts the
bit `!(prior_sample[next_field] ^ (s > 0))` into `preambles[next_field]`,
stores `s > 0` in `prior_sample[next_field]` and advances `next_field` modulo
5.  When at least 3 of the 5 updated registers are within 2 bits of
`0x5555557e` the state is `RECEIVING`, `sample_skip` is 2, the receiver
scratch is reset and `last_sample` is `s > 0`; otherwise state, `sample_skip`,
`crc_rejects` and receiver scratch are unchanged.  From `SEARCH_SYNC` the state
becomes `RECEIVING` if and only if at least 3 registers are that near. -/
theorem detector_lock_rule (d : ais_demod) (s : Int) (hwf : detect_wf d.detector) :
    (_ais_demod_detect_handle_sample d s).detector.preambles
        = d.detector.preambles.set d.detector.next_field
            ((d.detector.preambles.getD d.detector.next_field 0 <<< 1) % 2 ^ 32 |||
              nrzi_bit (d.detector.prior_sample.getD d.detector.next_field 0) (slice s)) ∧
      (_ais_demod_detect_handle_sample d s).detector.prior_sample
        = d.detector.prior_sample.set d.detector.next_field (slice s) ∧
      (_ais_demod_detect_handle_sample d s).detector.next_field
        = (d.detector.next_field + 1) % 5 ∧
      (3 ≤ near_reference (_ais_demod_detect_handle_sample d s).detector.preambles →
        (_ais_demod_detect_handle_sample d s).state = ais_demod_state.RECEIVING ∧
          (_ais_demod_detect_handle_sample d s).sample_skip = 2 ∧
          (_ais_demod_detect_handle_sample d s).packet_rx
            = { packet := List.replicate 160 0, raw_shr := 0, current_bit := 0, nr_ones := 0,
                last_sample := slice s } ∧
          (_ais_demod_detect_handle_sample d s).crc_rejects = d.crc_rejects) ∧
      (near_reference (_ais_demod_detect_handle_sample d s).detector.preambles < 3 →
        (_ais_demod_detect_handle_sample d s).state = d.state ∧
          (_ais_demod_detect_handle_sample d s).sample_skip = d.sample_skip ∧
          (_ais_demod_detect_handle_sample d s).packet_rx = d.packet_rx ∧
          (_ais_demod_detect_handle_sample d s).crc_rejects = d.crc_rejects) ∧
      (d.state = ais_demod_state.SEARCH_SYNC →
        ((_ais_demod_detect_handle_sample d s).state = ais_demod_state.RECEIVING ↔
          3 ≤ near_reference (_ais_demod_detect_handle_sample d s).detector.preambles)) := by
  have hdet := detect_handle_detector d s
  have hcount : near_reference (_ais_demod_detect_handle_sample d s).detector.preambles
      = nr_match (detect_next d.detector (slice s)).preambles := by
    rw [hdet, nr_match_count]
  have hlast := (detect_next_hit d.detector (slice s) hwf).2
  refine ⟨by rw [hdet]; rfl, by rw [hdet]; rfl, by rw [hdet]; rfl, ?_, ?_, ?_⟩
  · intro h3
    rw [hcount] at h3
    rw [handle_lock d s h3]
    refine ⟨rfl, rfl, ?_, rfl⟩
    show ({ _ais_demod_rx_reset d.packet_rx with
      last_sample := (detect_next d.detector (slice s)).prior_sample.getD d.detector.next_field 0 }
        : ais_demod_rx) = _
    rw [hlast]
    rfl
  · intro h3
    rw [hcount] at h3
    rw [handle_no_lock d s h3]
    exact ⟨rfl, rfl, rfl, rfl⟩
  · intro hs
    rw [hcount]
    by_cases h3 : nr_match (detect_next d.detector (slice s)).preambles ≥ 3
    · rw [handle_lock d s h3]
      exact ⟨fun _ => h3, fun _ => rfl⟩
    · rw [handle_no_lock d s (by omega)]
      constructor
      · intro hr
        have : d.state = ais_demod_state.RECEIVING := hr
        rw [hs] at this
        exact absurd this (by decide)
      · intro h; exact absurd h h3

set_option maxRecDepth 100000 in
theorem detector_lock_rule_witness :
    detect_wf example_lock_demod.detector ∧
      (_ais_demod_detect_handle_sample example_lock_demod (-1)).state
        = ais_demod_state.RECEIVING ∧
      (_ais_demod_detect_handle_sample example_lock_demod (-1)).detector.preambles
        = [0x5555557e, 0x5555557e, 0x5555557e, 0, 0] ∧
      (_ais_demod_detect_handle_sample example_lock_demod (-1)).packet_rx.last_sample = 0 :=
  have h := detector_lock_rule example_lock_demod (-1) ⟨rfl, rfl, by decide⟩
  have h3 : 3 ≤ near_reference (_ais_demod_detect_handle_sample example_lock_demod
      (-1)).detector.preambles := by decide!
  ⟨⟨rfl, rfl, by decide⟩, (h.2.2.2.1 h3).1, h.1.trans (by decide),
    (congrArg ais_demod_rx.last_sample (h.2.2.2.1 h3).2.2.1).trans (by decide)⟩

/-! ## The detector phases -/

theorem every_fifth_get (k : Nat) : ∀ a : List α, (every_fifth a)[k]? = a[5 * k]? := by
  induction k with
  | zero =>
    intro a
    cases a with
    | nil => rfl
    | cons y tl => rw [every_fifth_cons]; simp
  | succ k ih =>
    intro a
    cases a with
    | nil => rfl
    | cons y tl =>
      rw [every_fifth_cons, List.getElem?_cons_succ, ih, List.getElem?_drop]
      have : 5 * (k + 1) = (4 + 5 * k) + 1 := by omega
      rw [this, List.getElem?_cons_succ]

theorem every_fifth_snoc (n : Nat) : ∀ (a : List α) (x : α), a.length = n →
    every_fifth (a ++ [x]) = if a.length % 5 = 0 then every_fifth a ++ [x] else every_fifth a := by
  induction n using Nat.strong_induction_on with
  | _ n ih =>
    intro a x hn
    cases a with
    | nil => rfl
    | cons y tl =>
      rw [List.cons_append, every_fifth_cons, every_fifth_cons]
      by_cases h4 : 4 ≤ tl.length
      · have hd : (tl ++ [x]).drop 4 = tl.drop 4 ++ [x] := by
          rw [List.drop_append_of_le_length h4]
        have hl : (tl.drop 4).length = tl.length - 4 := List.length_drop _ _
        rw [hd, ih (tl.length - 4) (by simp at hn; omega) (tl.drop 4) x hl, hl]
        have e : (tl.length - 4) % 5 = 0 ↔ (y :: tl).length % 5 = 0 := by
          simp only [List.length_cons]; omega
        by_cases hc : (tl.length - 4) % 5 = 0
        · rw [if_pos hc, if_pos (e.1 hc)]; rfl
        · rw [if_neg hc, if_neg (fun h => hc (e.2 h))]
      · have hd : (tl ++ [x]).drop 4 = [] := by
          apply List.drop_eq_nil_of_le
          simp; omega
        have hd2 : tl.drop 4 = [] := List.drop_eq_nil_of_le (by omega)
        have hne : ¬ (y :: tl).length % 5 = 0 := by
          simp only [List.length_cons]; omega
        rw [hd, hd2, if_neg hne]

theorem every_fifth_length (a : List α) : (every_fifth a).length = (a.length + 4) / 5 := by
  induction a using List.reverseRecOn with
  | nil => simp [every_fifth]
  | append_singleton ys x ih =>
    rw [every_fifth_snoc ys.length ys x rfl]
    by_cases h : ys.length % 5 = 0
    · rw [if_pos h, List.length_append, ih]
      simp only [List.length_append, List.length_singleton]
      omega
    · rw [if_neg h, ih]
      simp only [List.length_append, List.length_singleton]
      omega

/-- The samples of phase `i` after one more sample: the new sample goes to
phase `N mod 5`. -/
theorem phase_snoc (ys : List Int) (x : Int) (i : Nat) (hi : i < 5) :
    every_fifth ((ys ++ [x]).drop i)
      = if i = ys.length % 5 then every_fifth (ys.drop i) ++ [x] else every_fifth (ys.drop i) := by
  by_cases hle : i ≤ ys.length
  · rw [List.drop_append_of_le_length hle, every_fifth_snoc _ _ x rfl, List.length_drop]
    have e : (ys.length - i) % 5 = 0 ↔ i = ys.length % 5 := by omega
    by_cases hc : (ys.length - i) % 5 = 0
    · rw [if_pos hc, if_pos (e.1 hc)]
    · rw [if_neg hc, if_neg (fun h => hc (e.2 h))]
  · have h1 : (ys ++ [x]).drop i = [] := by
      apply List.drop_eq_nil_of_le
      simp; omega
    have h2 : ys.drop i = [] := List.drop_eq_nil_of_le (by omega)
    have hne : ¬ i = ys.length % 5 := by
      have : ys.length % 5 ≤ ys.length := Nat.mod_le _ _
      omega
    rw [h1, h2, if_neg hne]

theorem nrzi_decode_snoc (zs : List Int) (x : Int) :
    ∀ l, nrzi_decode l (zs ++ [x])
      = nrzi_decode l zs ++ [nrzi_bit (last_slice l zs) (slice x)] := by
  induction zs with
  | nil => intro l; rfl
  | cons z rest ih =>
    intro l
    show nrzi_bit l (slice z) :: nrzi_decode (slice z) (rest ++ [x]) = _
    rw [ih]
    rfl

theorem last_slice_snoc (zs : List Int) (x : Int) :
    ∀ l, last_slice l (zs ++ [x]) = slice x := by
  induction zs with
  | nil => intro l; rfl
  | cons z rest ih => intro l; exact ih (slice z)

theorem nrzi_decode_le_one (zs : List Int) : ∀ l, ∀ b ∈ nrzi_decode l zs, b ≤ 1 := by
  induction zs with
  | nil => intro l b hb; simp [nrzi_decode] at hb
  | cons z rest ih =>
    intro l b hb
    simp only [nrzi_decode, List.mem_cons] at hb
    rcases hb with h | h
    · rw [h]; exact nrzi_bit_le_one _ _
    · exact ih _ b h

/-- The register filled by shifting bits in: bit `b` is the bit that arrived
`b` places before the newest one, as long as `b < 32`. -/
theorem shifted_word_testBit (bits : List Nat) (hbits : ∀ x ∈ bits, x ≤ 1) :
    ∀ b, (bits.foldl shift_in 0).testBit b
      = (decide (b < 32) && decide (bits.reverse.getD b 0 = 1)) := by
  induction bits using List.reverseRecOn with
  | nil => intro b; simp
  | append_singleton bs x ih =>
    intro b
    have hx : x ≤ 1 := hbits x (by simp)
    have ih' := ih (fun y hy => hbits y (by simp [hy]))
    rw [List.foldl_append, List.foldl_cons, List.foldl_nil, shift_in_eq _ _ hx,
      List.reverse_append, List.reverse_singleton, List.singleton_append]
    cases b with
    | zero =>
      rw [Nat.testBit_zero, List.getD_cons_zero]
      have : (2 * (List.foldl shift_in 0 bs % 2147483648) + x) % 2 = x := by omega
      rw [this]
      simp
    | succ b =>
      rw [Nat.testBit_succ, List.getD_cons_succ]
      have h2 : (2 * (List.foldl shift_in 0 bs % 2147483648) + x) / 2
          = List.foldl shift_in 0 bs % 2 ^ 31 := by omega
      rw [h2, Nat.testBit_mod_two_pow, ih' b]
      by_cases h31 : b < 31
      · have h32 : b < 32 := by omega
        have h33 : b + 1 < 32 := by omega
        simp [h31, h32, h33]
      · have h33 : ¬ b + 1 < 32 := by omega
        simp [h31, h33]

theorem phase_invariant (xs : List Int) :
    detect_wf (xs.foldl (fun det x => detect_next det (slice x)) fresh_detect) ∧
      (xs.foldl (fun det x => detect_next det (slice x)) fresh_detect).next_field
        = xs.length % 5 ∧
      ∀ i, i < 5 →
        (xs.foldl (fun det x => detect_next det (slice x)) fresh_detect).preambles.getD i 0
            = (nrzi_decode 0 (every_fifth (xs.drop i))).foldl shift_in 0 ∧
          (xs.foldl (fun det x => detect_next det (slice x)) fresh_detect).prior_sample.getD i 0
            = last_slice 0 (every_fifth (xs.drop i)) := by
  induction xs using List.reverseRecOn with
  | nil =>
    refine ⟨fresh_detect_wf, rfl, ?_⟩
    intro i hi
    interval_cases i <;> exact ⟨rfl, rfl⟩
  | append_singleton ys x ih =>
    obtain ⟨hwf, hnf, hreg⟩ := ih
    rw [List.foldl_append, List.foldl_cons, List.foldl_nil]
    generalize hdet : ys.foldl (fun det x => detect_next det (slice x)) fresh_detect = det
      at hwf hnf hreg
    refine ⟨detect_next_wf det _ hwf, ?_, ?_⟩
    · rw [detect_next_field, hnf, List.length_append, List.length_singleton]
      omega
    · intro i hi
      rw [phase_snoc ys x i hi]
      by_cases hc : i = ys.length % 5
      · have hin : det.next_field = i := by rw [hnf, hc]
        obtain ⟨p1, p2⟩ := detect_next_hit det (slice x) hwf
        rw [hin] at p1 p2
        rw [if_pos hc, p1, p2, (hreg i hi).1, (hreg i hi).2, nrzi_decode_snoc,
          List.foldl_append, last_slice_snoc]
        exact ⟨rfl, rfl⟩
      · have hin : det.next_field ≠ i := by rw [hnf]; exact fun h => hc h.symm
        obtain ⟨p1, p2⟩ := detect_next_miss det (slice x) i hin
        rw [if_neg hc, p1, p2]
        exact hreg i hi

/-- C18: the detector phase invariant.  After `N` samples have been handed to
the detector since its reset, `next_field = N mod 5`; phase `i` has consumed
`ceil((N - i) / 5)` samples (none when `N <= i`), the samples `i`, `i + 5`,
`i + 10`, ...; and `preambles[i]` holds the most recent 32 bits of the NRZI
decoding of these samples (previous level 0 at the start): bit `b` of the
register is the decoded bit `b` places before the newest, 0 when there are
not that many or `b >= 32`. -/
theorem detector_phase_invariant (d : ais_demod) (xs : List Int) :
    (detect_steps { d with detector := _ais_demod_detect_reset d.detector } xs).detector.next_field
        = xs.length % 5 ∧
      ∀ i, i < 5 →
        (every_fifth (xs.drop i)).length = (xs.length - i + 4) / 5 ∧
          (∀ k, (every_fifth (xs.drop i))[k]? = xs[i + 5 * k]?) ∧
          ∀ b,
            ((detect_steps { d with detector := _ais_demod_detect_reset d.detector }
                xs).detector.preambles.getD i 0).testBit b
              = (decide (b < 32) &&
                  decide ((nrzi_decode 0 (every_fifth (xs.drop i))).reverse.getD b 0 = 1)) := by
  have hfold : (detect_steps { d with detector := _ais_demod_detect_reset d.detector }
      xs).detector = xs.foldl (fun det x => detect_next det (slice x)) fresh_detect :=
    detect_steps_detector xs _
  obtain ⟨_, hnf, hreg⟩ := phase_invariant xs
  rw [hfold]
  refine ⟨hnf, fun i hi => ⟨?_, ?_, ?_⟩⟩
  · rw [every_fifth_length, List.length_drop]
  · intro k
    rw [every_fifth_get, List.getElem?_drop]
  · intro b
    rw [(hreg i hi).1]
    exact shifted_word_testBit _ (nrzi_decode_le_one _ 0) b

/-! ## Receiver decimation -/

/-- The receiver's share of the samples after one more sample. -/
theorem rx_share_snoc (ys : List Int) (y : Int) :
    every_fifth ((ys ++ [y]).drop 3)
      = if ys.length % 5 = 3 then every_fifth (ys.drop 3) ++ [y] else every_fifth (ys.drop 3) := by
  rw [phase_snoc ys y 3 (by norm_num)]
  by_cases h : ys.length % 5 = 3
  · rw [if_pos h, if_pos h.symm]
  · rw [if_neg h, if_neg (fun hh => h hh.symm)]

theorem no_end_snoc (endFlag : Nat) (rx : ais_demod_rx) (ys : List Int) (y : Int)
    (h : ∀ j, 1 ≤ j → j ≤ (every_fifth ((ys ++ [y]).drop 3)).length →
      rx_frame_end endFlag (((every_fifth ((ys ++ [y]).drop 3)).take j).foldl rx_update rx)
        = false) :
    ∀ j, 1 ≤ j → j ≤ (every_fifth (ys.drop 3)).length →
      rx_frame_end endFlag (((every_fifth (ys.drop 3)).take j).foldl rx_update rx) = false := by
  intro j h1 h2
  rw [rx_share_snoc] at h
  by_cases hc : ys.length % 5 = 3
  · rw [if_pos hc] at h
    have := h j h1 (by rw [List.length_append]; omega)
    rw [List.take_append_of_le_length h2] at this
    exact this
  · rw [if_neg hc] at h
    exact h j h1 h2

theorem no_end_prefix (endFlag : Nat) (rx : ais_demod_rx) (a : List Int) (b : List Int) :
    (∀ j, 1 ≤ j → j ≤ (every_fifth ((a ++ b).drop 3)).length →
      rx_frame_end endFlag (((every_fifth ((a ++ b).drop 3)).take j).foldl rx_update rx)
        = false) →
    ∀ j, 1 ≤ j → j ≤ (every_fifth (a.drop 3)).length →
      rx_frame_end endFlag (((every_fifth (a.drop 3)).take j).foldl rx_update rx) = false := by
  induction b using List.reverseRecOn with
  | nil => intro h; rw [List.append_nil] at h; exact h
  | append_singleton bs y ih =>
    intro h
    rw [← List.append_assoc] at h
    exact ih (no_end_snoc endFlag rx (a ++ bs) y h)

theorem decim_run (endFlag : Nat) (w1 : World)
    (hs : w1.demod.state = ais_demod_state.RECEIVING) (hk : w1.demod.sample_skip = 2)
    (ys : List Int) :
    (∀ j, 1 ≤ j → j ≤ (every_fifth (ys.drop 3)).length →
      rx_frame_end endFlag (((every_fifth (ys.drop 3)).take j).foldl rx_update
        w1.demod.packet_rx) = false) →
    ys.foldl (per_sample_rule endFlag) w1
      = set_rx (set_skip w1 (2 + ys.length))
          ((every_fifth (ys.drop 3)).foldl rx_update w1.demod.packet_rx) := by
  induction ys using List.reverseRecOn with
  | nil =>
    intro _
    obtain ⟨d, calls⟩ := w1
    obtain ⟨st, freq, sk, cr, det, rx⟩ := d
    simp only at hk
    subst hk
    rfl
  | append_singleton ys y ih =>
    intro h
    have hprev := ih (no_end_snoc endFlag _ ys y h)
    rw [List.foldl_append, List.foldl_cons, List.foldl_nil, hprev]
    rw [rx_share_snoc] at h ⊢
    by_cases hc : ys.length % 5 = 3
    · rw [if_pos hc] at h ⊢
      have hq := h ((every_fifth (ys.drop 3)).length + 1) (by omega)
        (by rw [List.length_append]; rfl)
      rw [List.take_of_length_le (by rw [List.length_append]; rfl), List.foldl_append,
        List.foldl_cons, List.foldl_nil] at hq
      have e := step_rx_quiet endFlag
        (set_rx (set_skip w1 (2 + ys.length))
          ((every_fifth (ys.drop 3)).foldl rx_update w1.demod.packet_rx)) y hs
        (by show (2 + ys.length) % 5 = 0; omega) hq
      rw [e, List.foldl_append, List.foldl_cons, List.foldl_nil, List.length_append]
      rfl
    · rw [if_neg hc]
      have e := step_rx_skip endFlag
        (set_rx (set_skip w1 (2 + ys.length))
          ((every_fifth (ys.drop 3)).foldl rx_update w1.demod.packet_rx)) y hs
        (by show (2 + ys.length) % 5 ≠ 0; omega)
      rw [e, List.length_append]
      rfl

theorem on_pcm_split (endFlag : Nat) (w : World) (a b : List Int) :
    (ais_demod_on_pcm endFlag w a).bind (fun w2 => ais_demod_on_pcm endFlag w2 b)
      = ais_demod_on_pcm endFlag w (a ++ b) := by
  rw [on_pcm_fold, on_pcm_fold, List.foldl_append]
  exact on_pcm_fold endFlag _ b

theorem lock_skip (endFlag : Nat) (w : World) (x : Int)
    (hs : w.demod.state = ais_demod_state.SEARCH_SYNC)
    (hlock : (per_sample_rule endFlag w x).demod.state = ais_demod_state.RECEIVING) :
    (per_sample_rule endFlag w x).demod.sample_skip = 2 := by
  rw [step_search endFlag w x hs] at hlock ⊢
  by_cases hm : nr_match (detect_next w.demod.detector (slice x)).preambles ≥ 3
  · rw [handle_lock w.demod x hm]
  · rw [handle_no_lock w.demod x (by omega)] at hlock
    have : w.demod.state = ais_demod_state.RECEIVING := hlock
    rw [hs] at this
    exact absurd this (by decide)

/-- C19: receiver decimation timing.  When the detector locks on a sample
(stream index `L`), `sample_skip` is 2, and as long as the frame has not ended
the state after `n` further samples differs from the state at lock only in
`sample_skip = 2 + n` and in the receiver scratch, which is the result of the
receiver steps on the samples `3, 8, 13, ...` of the further samples (stream
indices `L + 4 + 5k`) and on no others; a sample at another position only
increments `sample_skip`.  Splitting the samples into blocks changes nothing. -/
theorem receiver_decimation (endFlag : Nat) (w : World) (x : Int) (ys : List Int)
    (hs : w.demod.state = ais_demod_state.SEARCH_SYNC)
    (hlock : (per_sample_rule endFlag w x).demod.state = ais_demod_state.RECEIVING)
    (hno : ∀ j, 1 ≤ j → j ≤ (every_fifth (ys.drop 3)).length →
      rx_frame_end endFlag (((every_fifth (ys.drop 3)).take j).foldl rx_update
        (per_sample_rule endFlag w x).demod.packet_rx) = false) :
    (per_sample_rule endFlag w x).demod.sample_skip = 2 ∧
      (∀ n, n ≤ ys.length →
        (ys.take n).foldl (per_sample_rule endFlag) (per_sample_rule endFlag w x)
            = { per_sample_rule endFlag w x with
                demod :=
                  { (per_sample_rule endFlag w x).demod with
                    sample_skip := 2 + n
                    packet_rx := (every_fifth ((ys.take n).drop 3)).foldl rx_update
                      (per_sample_rule endFlag w x).demod.packet_rx } } ∧
          ∀ k, (every_fifth ((ys.take n).drop 3))[k]? = (ys.take n)[3 + 5 * k]?) ∧
      (∀ n, n < ys.length → n % 5 ≠ 3 →
        (ys.take (n + 1)).foldl (per_sample_rule endFlag) (per_sample_rule endFlag w x)
          = set_skip ((ys.take n).foldl (per_sample_rule endFlag) (per_sample_rule endFlag w x))
              (((ys.take n).foldl (per_sample_rule endFlag)
                (per_sample_rule endFlag w x)).demod.sample_skip + 1)) ∧
      ∀ a b, a ++ b = ys →
        (ais_demod_on_pcm endFlag (per_sample_rule endFlag w x) a).bind
            (fun w2 => ais_demod_on_pcm endFlag w2 b)
          = ais_demod_on_pcm endFlag (per_sample_rule endFlag w x) ys := by
  have hk := lock_skip endFlag w x hs hlock
  have hpre : ∀ n, n ≤ ys.length →
      (ys.take n).foldl (per_sample_rule endFlag) (per_sample_rule endFlag w x)
        = set_rx (set_skip (per_sample_rule endFlag w x) (2 + n))
            ((every_fifth ((ys.take n).drop 3)).foldl rx_update
              (per_sample_rule endFlag w x).demod.packet_rx) := by
    intro n hn
    have hsplit : ys.take n ++ ys.drop n = ys := List.take_append_drop n ys
    have hno' := no_end_prefix endFlag (per_sample_rule endFlag w x).demod.packet_rx
      (ys.take n) (ys.drop n) (by rw [hsplit]; exact hno)
    have := decim_run endFlag (per_sample_rule endFlag w x) hlock hk (ys.take n) hno'
    rw [List.length_take, Nat.min_eq_left hn] at this
    exact this
  refine ⟨hk, fun n hn => ⟨hpre n hn, fun k => ?_⟩, ?_, ?_⟩
  · rw [every_fifth_get, List.getElem?_drop]
  · intro n hn h3
    have e1 := hpre n (Nat.le_of_lt hn)
    have e2 : ys.take (n + 1) = ys.take n ++ [ys.get ⟨n, hn⟩] := by
      rw [List.take_succ, List.getElem?_eq_getElem hn]
      rfl
    rw [e2, List.foldl_append, List.foldl_cons, List.foldl_nil]
    apply step_rx_skip
    · rw [e1]; exact hlock
    · rw [e1]
      show (2 + n) % 5 ≠ 0
      omega
  · intro a b hab
    rw [← hab]
    exact on_pcm_split endFlag _ a b

set_option maxRecDepth 100000 in
theorem receiver_decimation_witness :
    (example_lock_world.demod.state = ais_demod_state.SEARCH_SYNC ∧
      (per_sample_rule 0x7e example_lock_world (-1)).demod.state = ais_demod_state.RECEIVING ∧
      ∀ j, 1 ≤ j →
        j ≤ (every_fifth (([1, 1, 1, -1, 1, 1, -1, -1, 1, 1, 1] : List Int).drop 3)).length →
        rx_frame_end 0x7e
          (((every_fifth (([1, 1, 1, -1, 1, 1, -1, -1, 1, 1, 1] : List Int).drop 3)).take j).foldl
            rx_update (per_sample_rule 0x7e example_lock_world (-1)).demod.packet_rx) = false) ∧
    (([1, 1, 1, -1, 1, 1, -1, -1, 1, 1, 1] : List Int).foldl (per_sample_rule 0x7e)
        (per_sample_rule 0x7e example_lock_world (-1))).demod.sample_skip = 13 ∧
    (([1, 1, 1, -1, 1, 1, -1, -1, 1, 1, 1] : List Int).foldl (per_sample_rule 0x7e)
        (per_sample_rule 0x7e example_lock_world (-1))).demod.packet_rx.raw_shr = 2 :=
  have hlock : (per_sample_rule 0x7e example_lock_world (-1)).demod.state
      = ais_demod_state.RECEIVING := by decide!
  have hall : ∀ j ∈ List.range 3,
      rx_frame_end 0x7e
        (((every_fifth (([1, 1, 1, -1, 1, 1, -1, -1, 1, 1, 1] : List Int).drop 3)).take j).foldl
          rx_update (per_sample_rule 0x7e example_lock_world (-1)).demod.packet_rx) = false := by
    decide!
  have hlen : (every_fifth (([1, 1, 1, -1, 1, 1, -1, -1, 1, 1, 1] : List Int).drop 3)).length
      = 2 := by decide
  have hno : ∀ j, 1 ≤ j →
      j ≤ (every_fifth (([1, 1, 1, -1, 1, 1, -1, -1, 1, 1, 1] : List Int).drop 3)).length →
      rx_frame_end 0x7e
        (((every_fifth (([1, 1, 1, -1, 1, 1, -1, -1, 1, 1, 1] : List Int).drop 3)).take j).foldl
          rx_update (per_sample_rule 0x7e example_lock_world (-1)).demod.packet_rx) = false := by
    intro j _ hj
    rw [hlen] at hj
    exact hall j (List.mem_range.2 (by omega))
  have h := (receiver_decimation 0x7e example_lock_world (-1)
    [1, 1, 1, -1, 1, 1, -1, -1, 1, 1, 1] rfl hlock hno).2.1 11 (Nat.le_refl _)
  ⟨⟨rfl, hlock, hno⟩, (congrArg (fun v : World => v.demod.sample_skip) h.1).trans rfl,
    (congrArg (fun v : World => v.demod.packet_rx.raw_shr) h.1).trans (by decide!)⟩

/-! ## The lock instant on a clean preamble -/

theorem first_lock_take (ls : List Bool) :
    ∀ (det : ais_demod_detect) (n k : Nat), first_lock det ls = some n → k ≤ n →
      first_lock det (ls.take k) = none := by
  induction ls with
  | nil => intro det n k hf _; simp [first_lock] at hf
  | cons l tl ih =>
    intro det n k hf hk
    cases k with
    | zero => rfl
    | succ k =>
      simp only [first_lock] at hf
      by_cases hq : detect_locks det l.toNat = true
      · rw [if_pos hq] at hf
        have : n = 0 := by simpa using hf.symm
        omega
      · rw [if_neg hq] at hf
        cases hfl : first_lock (detect_next det l.toNat) tl with
        | none => rw [hfl] at hf; simp at hf
        | some n' =>
          rw [hfl] at hf
          have hn : n = n' + 1 := by simpa using hf.symm
          rw [List.take_succ_cons]
          simp only [first_lock]
          rw [if_neg hq, ih _ n' k hfl (by omega)]
          rfl

theorem clean_preamble_take (k : Nat) :
    levels_of (clean_preamble_samples.take k)
      = (upsample (nrzi_encode false (training 24 ++ hdlc_flag))).take k := by
  unfold clean_preamble_samples pcm_stream
  rw [← List.map_take]
  exact levels_of_pcm _

set_option maxRecDepth 100000 in
theorem clean_preamble_registers :
    (∀ k ∈ List.range 156, phase_matches
      (detect_run fresh_detect ((upsample (nrzi_encode false (training 24 ++ hdlc_flag))).take k))
        = [false, false, false, false, false]) ∧
      phase_matches
        (detect_run fresh_detect ((upsample (nrzi_encode false (training 24 ++ hdlc_flag))).take 156))
          = [true, false, false, false, false] ∧
      phase_matches
        (detect_run fresh_detect ((upsample (nrzi_encode false (training 24 ++ hdlc_flag))).take 157))
          = [true, true, false, false, false] ∧
      phase_matches
        (detect_run fresh_detect ((upsample (nrzi_encode false (training 24 ++ hdlc_flag))).take 158))
          = [true, true, true, false, false] := by
  decide!

theorem clean_preamble_quiet (endFlag freq k : Nat) (hk : k ≤ 157) :
    ais_demod_on_pcm endFlag (ais_demod_new freq) (clean_preamble_samples.take k)
      = some (set_detector (ais_demod_new freq)
          (detect_run fresh_detect
            ((upsample (nrzi_encode false (training 24 ++ hdlc_flag))).take k))) := by
  obtain ⟨n1, n2, _, _⟩ := new_world_facts freq
  rw [on_pcm_fold, fold_levels, clean_preamble_take,
    quiet_run endFlag _ (ais_demod_new freq) n1
      (by rw [n2]; exact first_lock_take _ _ 157 k (clean_preamble_lock false) hk), n2]
  rfl

set_option maxRecDepth 100000 in
theorem clean_preamble_last_level :
    (upsample (nrzi_encode false (training 24 ++ hdlc_flag)))[157]?
        = some (nrzi_last false (training 24 ++ hdlc_flag)) ∧
      slice (clean_preamble_samples.getD 157 0)
        = (nrzi_last false (training 24 ++ hdlc_flag)).toNat := by
  decide!

/-- C20: the lock instant on a clean preamble.  A freshly created demodulator
fed the 160 samples of the clean preamble is in `SEARCH_SYNC` after each of
the samples 0..156 and in `RECEIVING` after sample 157, the third sample of the
last flag symbol, with `sample_skip = 2`, exactly the phases 0, 1 and 2 within
2 bits of `0x5555557e`, and `last_sample` the level of the last flag symbol.
Before the last flag symbol arrives (after each of the samples 0..154) no
phase register is within 2 bits of the reference word; after sample 155 only
phase 0 is, after sample 156 only phases 0 and 1. -/
theorem clean_preamble_lock_instant (endFlag freq : Nat) :
    (∀ k, k ≤ 157 →
      ∃ w, ais_demod_on_pcm endFlag (ais_demod_new freq) (clean_preamble_samples.take k)
          = some w ∧ w.demod.state = ais_demod_state.SEARCH_SYNC) ∧
      (∃ w, ais_demod_on_pcm endFlag (ais_demod_new freq) (clean_preamble_samples.take 158)
          = some w ∧ w.demod.state = ais_demod_state.RECEIVING ∧ w.demod.sample_skip = 2 ∧
        phase_matches w.demod.detector = [true, true, true, false, false] ∧
        w.demod.packet_rx.last_sample
          = (nrzi_last false (training 24 ++ hdlc_flag)).toNat ∧
        w.demod.packet_rx.last_sample = slice (clean_preamble_samples.getD 157 0)) ∧
      (∀ k, k ≤ 155 →
        ∃ w, ais_demod_on_pcm endFlag (ais_demod_new freq) (clean_preamble_samples.take k)
            = some w ∧
          phase_matches w.demod.detector = [false, false, false, false, false]) ∧
      (∃ w, ais_demod_on_pcm endFlag (ais_demod_new freq) (clean_preamble_samples.take 156)
          = some w ∧ phase_matches w.demod.detector = [true, false, false, false, false]) ∧
      ∃ w, ais_demod_on_pcm endFlag (ais_demod_new freq) (clean_preamble_samples.take 157)
          = some w ∧ phase_matches w.demod.detector = [true, true, false, false, false] := by
  obtain ⟨n1, n2, _, _⟩ := new_world_facts freq
  obtain ⟨r1, r2, r3, r4⟩ := clean_preamble_registers
  refine ⟨fun k hk => ⟨_, clean_preamble_quiet endFlag freq k hk, n1⟩, ?_,
    fun k hk => ⟨_, clean_preamble_quiet endFlag freq k (by omega),
      r1 k (List.mem_range.2 (by omega))⟩,
    ⟨_, clean_preamble_quiet endFlag freq 156 (by norm_num), r2⟩,
    ⟨_, clean_preamble_quiet endFlag freq 157 (by norm_num), r3⟩⟩
  have hwf : detect_wf (ais_demod_new freq).demod.detector := by rw [n2]; exact fresh_detect_wf
  obtain ⟨l, hl, hrun⟩ := lock_run endFlag
    (upsample (nrzi_encode false (training 24 ++ hdlc_flag))) (ais_demod_new freq) 157 n1 hwf
    (by rw [n2]; exact clean_preamble_lock false)
  have hl' : l = nrzi_last false (training 24 ++ hdlc_flag) := by
    rw [clean_preamble_last_level.1] at hl
    exact (Option.some.inj hl).symm
  rw [n2] at hrun
  have hslice := clean_preamble_last_level.2
  have hpcm : ais_demod_on_pcm endFlag (ais_demod_new freq) (clean_preamble_samples.take 158)
      = some (locked_world (ais_demod_new freq) l
          (detect_run fresh_detect
            ((upsample (nrzi_encode false (training 24 ++ hdlc_flag))).take 158))) := by
    rw [on_pcm_fold, fold_levels, clean_preamble_take, hrun]
    rfl
  refine ⟨_, hpcm, rfl, rfl, r4, ?_, ?_⟩
  · show l.toNat = _
    rw [hl']
  · show l.toNat = _
    rw [hl', hslice]

end Ais
